import Mathlib

/-!
# Storage layer of libswift (storage.cpp)

A shallow embedding of `Storage` and `StorageFile` from `storage.cpp`.

Conventions of the embedding:

* a C `char` is a `Char`; a buffer `(buf, nbyte)` is the list of its `nbyte` characters,
  so `&bufstr[k]` with the remaining count is `buf.drop k`;
* `int64_t`, `ssize_t` and `int` values are integers; the byte counts and offsets handed to
  `Write` and `Read` are taken to fit the C type that carries them, while the sizes read from a
  manifest and the offsets computed from them are kept in `int64_t` range (`sscanf` saturates,
  additions wrap);
* the file behind a descriptor is the character list stored next to that descriptor
  (`Storage.single_data` for `single_fd_`, `StorageFile.data` for `fd_`); `StorageFile.file_id`
  names the file on disk, and a write or resize through one StorageFile shows in every other
  open StorageFile of the same file;
* a positional read or write on a descriptor `< 0` fails with `-1`, on an open descriptor it is
  carried out in full;
* a `StorageFile *` into `sfs_` is the index of the element;
* the recursion of `Write` and `Read` is driven by a fuel argument, `none` meaning that the
  fuel ran out before the call returned.
-/

set_option linter.unusedVariables false

/-! ## Host operating system -/

/-- Answers of the host: the `FILE_SEP`, `MULTIFILE_MAX_LINE` and `POPT_LIVE_DISC_WND_ALL`
constants of the headers, the `_WIN32` switch, and the results of the path based calls used by
the constructors; `stat_enoent` tells whether a failing `file_size_by_path_utf8` on the path
leaves `errno == ENOENT`, `fopen_utf8` whether the path can be opened for reading, and
`realpath` which file on disk a path names (two paths name the same file when their
`realpath` is the same). -/
structure Host where
  FILE_SEP : List Char
  MULTIFILE_MAX_LINE : Nat
  win32 : Bool
  file_exists_utf8 : List Char → Int
  mkdir_utf8 : List Char → Int
  open_utf8 : List Char → Int
  content : List Char → List Char
  file_size_by_path_utf8 : List Char → Int
  POPT_LIVE_DISC_WND_ALL : Nat
  stat_enoent : List Char → Bool
  fopen_utf8 : List Char → Bool
  realpath : List Char → List Char

/-- Bytes of `data` after an overwrite of `bs` at position `off`; a gap between the old end of
file and `off` reads as NUL characters. -/
def overwrite (data : List Char) (off : Nat) (bs : List Char) : List Char :=
  (data ++ List.replicate (off - data.length) (Char.ofNat 0)).take off ++ bs
    ++ data.drop (off + bs.length)

/-- POSIX `pwrite(fd, buf, nbyte, offset)` on the file `data`: the result and the new file.
A count that is negative as `int64_t` (huge as `size_t`) or exceeds the caller's buffer cannot
be served from the buffer and fails; a write of zero bytes changes nothing. -/
def pwrite (fd : Int) (data : List Char) (buf : List Char) (nbyte : Int) (offset : Int) :
    Int × List Char :=
  if fd < 0 then (-1, data)
  else if offset < 0 then (-1, data)
  else if nbyte < 0 ∨ (buf.length : Int) < nbyte then (-1, data)
  else if nbyte = 0 then (0, data)
  else (nbyte, overwrite data offset.toNat (buf.take nbyte.toNat))

/-- POSIX `pread(fd, buf, nbyte, offset)` on the file `data`: the result and the characters
stored into the buffer (short at end of file). -/
def pread (fd : Int) (data : List Char) (nbyte : Nat) (offset : Int) : Int × List Char :=
  if fd < 0 then (-1, [])
  else if offset < 0 then (-1, [])
  else (((data.drop offset.toNat).take nbyte).length, (data.drop offset.toNat).take nbyte)

/-- Modelled from the spec: `file_resize(fd, size)` of the compat layer ("truncate/extend the
backing file"): the file is cut or grown with NUL characters to `size`. -/
def file_resize (fd : Int) (data : List Char) (size : Int) : Int × List Char :=
  if fd < 0 then (-1, data)
  else if size < 0 then (-1, data)
  else (0, (data ++ List.replicate (size.toNat - data.length) (Char.ofNat 0)).take size.toNat)

/-- Modelled from the spec: `file_size(fd)` of the compat layer, "the actual on-disk size" of
the file behind `fd`. -/
def file_size (fd : Int) (data : List Char) : Int :=
  if fd < 0 then -1 else data.length

/-! ## C string helpers -/

/-- Whether `s` begins with `pat`. -/
def starts_with : List Char → List Char → Bool
  | [], _ => true
  | _ :: _, [] => false
  | p :: ps, c :: cs => p == c && starts_with ps cs

/-- The C string held in a character array: the characters before the first NUL. -/
def c_str (s : List Char) : List Char :=
  s.takeWhile (fun c => c != Char.ofNat 0)

/-- Search of `std::string::find(pat, pos)` from position `pos` on, `i` being the index of the
head of `s`. -/
def str_find_go (pat : List Char) : List Char → Nat → Nat → Option Nat
  | [], i, pos => if pat = [] ∧ pos ≤ i then some i else none
  | c :: cs, i, pos =>
    if pos ≤ i ∧ starts_with pat (c :: cs) then some i else str_find_go pat cs (i + 1) pos

/-- The call `s.find(pat, pos)` of `std::string`; `none` is `npos`. -/
def str_find (s pat : List Char) (pos : Nat) : Option Nat :=
  str_find_go pat s 0 pos

/-- Index of the last `ch` in `s` (`s.rfind(ch, s.length()-1)`), `i` being the index of the head
of `s` and `last` the latest hit so far. -/
def str_rfind_go (ch : Char) : List Char → Nat → Option Nat → Option Nat
  | [], _, last => last
  | c :: cs, i, last => str_rfind_go ch cs (i + 1) (if c = ch then some i else last)

/-- The call `s.rfind(ch, s.length()-1)` of `std::string`; `none` is `npos`. -/
def str_rfind (s : List Char) (ch : Char) : Option Nat :=
  str_rfind_go ch s 0 none

/-- C `isspace` in the "C" locale. -/
def isspace (c : Char) : Bool :=
  c = ' ' || c = '\t' || c = '\n' || c = Char.ofNat 11 || c = Char.ofNat 12 || c = '\r'

/-- Value of a digit character in the given base, if it is one. -/
def digit_val (base : Nat) (c : Char) : Option Nat :=
  let v : Nat :=
    if '0' ≤ c ∧ c ≤ '9' then c.toNat - '0'.toNat
    else if 'a' ≤ c ∧ c ≤ 'f' then c.toNat - 'a'.toNat + 10
    else if 'A' ≤ c ∧ c ≤ 'F' then c.toNat - 'A'.toNat + 10
    else 16
  if v < base then some v else none

/-- Longest run of digits of the given base at the head of `s`: number of digits read and their
value, `acc` being the value read so far. -/
def scan_digits (base : Nat) : List Char → Nat → Nat → Nat × Nat
  | [], cnt, acc => (cnt, acc)
  | c :: cs, cnt, acc =>
    match digit_val base c with
    | some v => scan_digits base cs (cnt + 1) (acc * base + v)
    | none => (cnt, acc)

/-- The number after the optional sign for the `i` conversion: a leading `0x`/`0X` selects base
16, a leading `0` base 8, anything else base 10. Returns whether a number was read and its
value. -/
def scan_unsigned (s : List Char) : Bool × Nat :=
  match s with
  | '0' :: rest =>
    match rest with
    | 'x' :: r => (true, (scan_digits 16 r 0 0).2)
    | 'X' :: r => (true, (scan_digits 16 r 0 0).2)
    | _ => (true, (scan_digits 8 rest 0 0).2)
  | _ =>
    let r := scan_digits 10 s 0 0
    (decide (0 < r.1), r.2)

/-- The constant `INT64_MAX`. -/
def INT64_MAX : Int := 9223372036854775807

/-- The constant `INT64_MIN`. -/
def INT64_MIN : Int := -9223372036854775808

/-- The `int64_t` that an addition or subtraction with the exact result `x` leaves: `x` modulo
`2^64`, taken from `[INT64_MIN, INT64_MAX]`. -/
def int64 (x : Int) : Int :=
  (x + 9223372036854775808) % 18446744073709551616 - 9223372036854775808

/-- The `int64_t` that a conversion of the number `x` stores: out of range numbers saturate at
`INT64_MIN` and `INT64_MAX`. -/
def clamp64 (x : Int) : Int :=
  if x < INT64_MIN then INT64_MIN else if INT64_MAX < x then INT64_MAX else x

/-- The call `sscanf(s, "%" PRIi64, &v)`: the return value of sscanf (`-1` is EOF: the input
ended before a conversion, `0` a matching failure, `1` one value stored) and the `int64_t`
stored (meaningful when the return value is `1`). -/
def sscanf_i64 (s : List Char) : Int × Int :=
  match s.dropWhile isspace with
  | [] => (-1, 0)
  | '-' :: rest =>
    let r := scan_unsigned rest
    if r.1 then (1, clamp64 (-(r.2 : Int))) else (0, 0)
  | '+' :: rest =>
    let r := scan_unsigned rest
    if r.1 then (1, clamp64 (r.2 : Int)) else (0, 0)
  | c :: rest =>
    let r := scan_unsigned (c :: rest)
    if r.1 then (1, clamp64 (r.2 : Int)) else (0, 0)

/-- One `fgets` call reading at most `k` characters: the line (through the newline, if one came
in time) and the rest of the stream. -/
def fgets_take : Nat → List Char → List Char × List Char
  | 0, cs => ([], cs)
  | _ + 1, [] => ([], [])
  | k + 1, c :: cs =>
    if c = '\n' then ([c], cs)
    else ((c :: (fgets_take k cs).1), (fgets_take k cs).2)

/-- The lines that successive `fgets(line, n, fp)` calls return until end of file. Each call
consumes at least one character (`n ≥ 2`), so `fuel = ` length of the stream covers them all. -/
def fgets_lines (n : Nat) : Nat → List Char → List (List Char)
  | 0, _ => []
  | _ + 1, [] => []
  | fuel + 1, c :: cs =>
    (fgets_take (n - 1) (c :: cs)).1 :: fgets_lines n fuel (fgets_take (n - 1) (c :: cs)).2

/-- Modelled from the spec: `swift::stringreplace(str, search, repl)`, defined outside
storage.cpp and described by its uses ("replaces `/` with the host separator", "collapsing
doubled host separators"): every occurrence of `search`, found left to right without overlap,
is replaced by `repl`. -/
def stringreplace_go (search repl : List Char) : Nat → List Char → List Char
  | 0, s => s
  | _ + 1, [] => []
  | fuel + 1, c :: cs =>
    if starts_with search (c :: cs) then
      repl ++ stringreplace_go search repl fuel ((c :: cs).drop search.length)
    else c :: stringreplace_go search repl fuel cs

/-- Modelled from the spec: `swift::stringreplace`, see `stringreplace_go`; an empty search
string replaces nothing. -/
def stringreplace (s search repl : List Char) : List Char :=
  if search = [] then s else stringreplace_go search repl s.length s

/-! ## StorageFile -/

/-- One file of a multi-file swarm, owning the interval `[start_, end_]` of the content. The
field `broken_` is the flag of the `Operational` base class, `data` the content of the file
behind `fd_`, and `file_id` the file on disk that `os_pathname_` names. -/
structure StorageFile where
  spec_pathname_ : List Char
  start_ : Int
  end_ : Int
  os_pathname_ : List Char
  fd_ : Int
  broken_ : Bool
  data : List Char
  file_id : List Char
  deriving DecidableEq, Repr

/-- Lifecycle state of a Storage (`storage_state_t` of the header). -/
inductive storage_state_t where
  | STOR_STATE_INIT
  | STOR_STATE_MFSPEC_SIZE_KNOWN
  | STOR_STATE_MFSPEC_COMPLETE
  | STOR_STATE_SINGLE_FILE
  | STOR_STATE_SINGLE_LIVE_WRAP
  deriving DecidableEq, Repr

open storage_state_t

/-- The Storage object. `broken_` is the flag of the `Operational` base class, `single_data`
the file behind `single_fd_`, `ht_size` the size held by the hash tree `ht_`, `alloc_cb_`
whether a callback is set, `alloc_cb_calls` how often it has been fired. -/
structure Storage where
  state_ : storage_state_t
  broken_ : Bool
  os_pathname_ : List Char
  destdir_ : List Char
  ht_size : Int
  spec_size_ : Int
  single_fd_ : Int
  single_data : List Char
  reserved_size_ : Int
  total_size_from_spec_ : Int
  last_sf_ : Option Nat
  sfs_ : List StorageFile
  alloc_cb_ : Bool
  alloc_cb_calls : Nat
  live_disc_wnd_bytes_ : Nat
  meta_mfspec_os_pathname_ : List Char
  deriving DecidableEq, Repr

/-- The constant `Storage::MULTIFILE_PATHNAME`. -/
def Storage.MULTIFILE_PATHNAME : List Char := "META-INF-multifilespec.txt".toList

/-- The constant `Storage::MULTIFILE_PATHNAME_FILE_SEP`. -/
def Storage.MULTIFILE_PATHNAME_FILE_SEP : List Char := "/".toList

/-- `StorageFile::GetStart`. -/
def StorageFile.GetStart (sf : StorageFile) : Int := sf.start_

/-- `StorageFile::GetEnd`. -/
def StorageFile.GetEnd (sf : StorageFile) : Int := sf.end_

/-- Modelled from the spec: `StorageFile::GetSize` is declared in the header; the entry size is
`end - start + 1`. -/
def StorageFile.GetSize (sf : StorageFile) : Int := sf.end_ - sf.start_ + 1

/-- `Operational::IsOperational` of a StorageFile. -/
def StorageFile.IsOperational (sf : StorageFile) : Bool := !sf.broken_

/-- Modelled from the spec: `StorageFile::Write` is declared in the header; positional write
against `fd_` at a file-local offset. -/
def StorageFile.Write (sf : StorageFile) (buf : List Char) (nbyte : Int) (offset : Int) :
    Int × StorageFile :=
  ((pwrite sf.fd_ sf.data buf nbyte offset).1,
    { sf with data := (pwrite sf.fd_ sf.data buf nbyte offset).2 })

/-- Modelled from the spec: `StorageFile::Read` is declared in the header; positional read
against `fd_` at a file-local offset. -/
def StorageFile.Read (sf : StorageFile) (nbyte : Nat) (offset : Int) : Int × List Char :=
  pread sf.fd_ sf.data nbyte offset

/-- Modelled from the spec: `StorageFile::ResizeReserved` is declared in the header;
truncate or extend the backing file to `end - start + 1`. -/
def StorageFile.ResizeReserved (sf : StorageFile) : Int × StorageFile :=
  ((file_resize sf.fd_ sf.data sf.GetSize).1,
    { sf with data := (file_resize sf.fd_ sf.data sf.GetSize).2 })

/-- The directory walk of the StorageFile constructor: for every separator found at an index
`≥ 1` the prefix before it must be or become a directory. `i` is the index of the last
separator handled; returns `false` when the constructor calls `SetBroken` and returns. -/
def StorageFile.make_dirs (h : Host) (normospath : List Char) : Nat → Nat → Bool
  | 0, _ => true
  | fuel + 1, i =>
    match str_find normospath h.FILE_SEP (i + 1) with
    | none => true
    | some j =>
      let path := normospath.take j
      if h.win32 ∧ path.length = 2 ∧ path.drop 1 = [':'] then
        StorageFile.make_dirs h normospath fuel j
      else
        let ret := h.file_exists_utf8 path
        if ret ≤ 0 then
          if h.mkdir_utf8 path < 0 then false
          else StorageFile.make_dirs h normospath fuel j
        else if ret = 1 then false
        else StorageFile.make_dirs h normospath fuel j

/-- The constructor `StorageFile::StorageFile(specpath, start, size, ospath)`; `end_` is
computed in `int64_t`, and `data` is the content that the host has for the path. -/
def StorageFile.new (h : Host) (specpath : List Char) (start size : Int) (ospath : List Char) :
    StorageFile :=
  let normospath := stringreplace ospath (h.FILE_SEP ++ h.FILE_SEP) h.FILE_SEP
  let sf : StorageFile :=
    { spec_pathname_ := specpath, start_ := start, end_ := int64 (start + size - 1),
      os_pathname_ := ospath, fd_ := -1, broken_ := false, data := [],
      file_id := h.realpath ospath }
  if start ≠ 0 ∧ (str_find normospath h.FILE_SEP 0).isSome
      ∧ StorageFile.make_dirs h normospath normospath.length 0 = false then
    { sf with broken_ := true }
  else if h.open_utf8 ospath < 0 then
    { sf with fd_ := h.open_utf8 ospath, broken_ := true }
  else
    { sf with fd_ := h.open_utf8 ospath, data := h.content ospath }

/-! ## Storage -/

/-- `Storage::spec2ospn`. -/
def Storage.spec2ospn (h : Host) (specpn : List Char) : List Char :=
  if Storage.MULTIFILE_PATHNAME_FILE_SEP ≠ h.FILE_SEP then
    stringreplace specpn Storage.MULTIFILE_PATHNAME_FILE_SEP h.FILE_SEP
  else specpn

/-- `Storage::os2specpn`. -/
def Storage.os2specpn (h : Host) (ospn : List Char) : List Char :=
  if Storage.MULTIFILE_PATHNAME_FILE_SEP ≠ h.FILE_SEP then
    stringreplace ospn h.FILE_SEP Storage.MULTIFILE_PATHNAME_FILE_SEP
  else ospn

/-- `Storage::GetSizeFromSpec`. -/
def Storage.GetSizeFromSpec (s : Storage) : Int :=
  if s.state_ = STOR_STATE_SINGLE_FILE then -1 else s.total_size_from_spec_

/-- Modelled from the spec: `file_size_by_path_utf8` of the compat layer on the path of a
StorageFile: the size of the file behind it, negative when the file could not be opened. -/
def StorageFile.file_size_by_path (sf : StorageFile) : Int :=
  if sf.fd_ < 0 then -1 else sf.data.length

/-- The loop of `Storage::GetReservedSize` over `sfs_`, `total` being `totaldisksize`. -/
def Storage.GetReservedSize_loop : List StorageFile → Int → Int
  | [], total => total
  | sf :: rest, total =>
    if sf.file_size_by_path < 0 then sf.file_size_by_path
    else Storage.GetReservedSize_loop rest (total + sf.file_size_by_path)

/-- `Storage::GetReservedSize`. -/
def Storage.GetReservedSize (s : Storage) : Int :=
  if s.state_ = STOR_STATE_SINGLE_FILE then file_size s.single_fd_ s.single_data
  else if s.state_ ≠ STOR_STATE_MFSPEC_COMPLETE then -1
  else Storage.GetReservedSize_loop s.sfs_ 0

/-- `Storage::GetMinimalReservedSize`; `sfs_[0]` of an empty vector is read as size `-1`. -/
def Storage.GetMinimalReservedSize (s : Storage) : Int :=
  if s.state_ = STOR_STATE_SINGLE_FILE then 0
  else if s.state_ ≠ STOR_STATE_MFSPEC_COMPLETE then -1
  else match s.sfs_.head? with
    | some sf => sf.GetSize
    | none => -1

/-- The files `sfs` after a write or resize on the descriptor of `sfs[i]` has left that entry
as `nsf`: the file on disk holds `nsf.data`, and so does every other open entry of the same
file. -/
def Storage.put_file (sfs : List StorageFile) (i : Nat) (nsf : StorageFile) : List StorageFile :=
  (sfs.set i nsf).map (fun e =>
    if 0 ≤ e.fd_ ∧ 0 ≤ nsf.fd_ ∧ e.file_id = nsf.file_id then { e with data := nsf.data } else e)

/-- The StorageFile `nsf` just constructed while the files `sfs` are open: when one of them has
the same file open, the content behind the new descriptor is the content that file has now. -/
def Storage.opened_with (sfs : List StorageFile) (nsf : StorageFile) : StorageFile :=
  match sfs.find? (fun e => decide (0 ≤ e.fd_ ∧ e.file_id = nsf.file_id)) with
  | some e => if 0 ≤ nsf.fd_ then { nsf with data := e.data } else nsf
  | none => nsf

/-- The loop of `Storage::ResizeReserved` over `sfs_` from index `i` on, `fuel` bounding the
number of rounds: the result (`0`, or the first negative result, after which the loop is left)
and the files afterwards. -/
def Storage.ResizeReserved_loop : Nat → Nat → List StorageFile → Int × List StorageFile
  | 0, _, sfs => (0, sfs)
  | fuel + 1, i, sfs =>
    match sfs[i]? with
    | none => (0, sfs)
    | some sf =>
      if sf.ResizeReserved.1 < 0 then
        (sf.ResizeReserved.1, Storage.put_file sfs i sf.ResizeReserved.2)
      else Storage.ResizeReserved_loop fuel (i + 1) (Storage.put_file sfs i sf.ResizeReserved.2)

/-- `Storage::ResizeReserved`. -/
def Storage.ResizeReserved (s : Storage) (size : Int) : Int × Storage :=
  let s0 : Storage :=
    if s.alloc_cb_ then { s with alloc_cb_ := false, alloc_cb_calls := s.alloc_cb_calls + 1 }
    else s
  if s0.state_ = STOR_STATE_SINGLE_FILE then
    ((file_resize s0.single_fd_ s0.single_data size).1,
      { s0 with single_data := (file_resize s0.single_fd_ s0.single_data size).2 })
  else if s0.state_ = STOR_STATE_INIT then (0, { s0 with reserved_size_ := size })
  else if s0.state_ ≠ STOR_STATE_MFSPEC_COMPLETE then (-1, s0)
  else if size > s0.GetReservedSize then
    ((Storage.ResizeReserved_loop s0.sfs_.length 0 s0.sfs_).1,
      { s0 with sfs_ := (Storage.ResizeReserved_loop s0.sfs_.length 0 s0.sfs_).2 })
  else (0, s0)

/-- The binary search loop of `Storage::FindStorageFile`. Each round shrinks the interval
`[imin, imax]`, so `fuel = sfs_.size()` rounds reach `imax < imin`; the midpoint of a
non-negative interval is the same under C and Lean division. -/
def Storage.FindStorageFile_loop (sfs : List StorageFile) (offset : Int) :
    Nat → Int → Int → Option Nat
  | 0, _, _ => none
  | fuel + 1, imin, imax =>
    if imax ≥ imin then
      match sfs[((imin + imax) / 2).toNat]? with
      | none => none
      | some sf =>
        if offset ≥ sf.GetEnd + 1 then
          Storage.FindStorageFile_loop sfs offset fuel ((imin + imax) / 2 + 1) imax
        else if offset < sf.GetStart then
          Storage.FindStorageFile_loop sfs offset fuel imin ((imin + imax) / 2 - 1)
        else some ((imin + imax) / 2).toNat
    else none

/-- `Storage::FindStorageFile`: the index of the file that manages `offset`, `none` for NULL. -/
def Storage.FindStorageFile (s : Storage) (offset : Int) : Option Nat :=
  Storage.FindStorageFile_loop s.sfs_ offset s.sfs_.length 0 ((s.sfs_.length : Int) - 1)

/-- `Storage::WriteBuffer`: the pair `(head, tail)` and the file afterwards. The test
`offset+nbyte <= sf->GetEnd()+1` is that of values that are not negative, on which `size_t`
and `int64_t` agree. -/
def Storage.WriteBuffer (sf : StorageFile) (buf : List Char) (offset : Int) :
    (Int × Int) × StorageFile :=
  if offset + (buf.length : Int) ≤ sf.GetEnd + 1 then
    if (sf.Write buf buf.length (offset - sf.GetStart)).1 < 0 then
      ((-1, -1), (sf.Write buf buf.length (offset - sf.GetStart)).2)
    else ((buf.length, 0), (sf.Write buf buf.length (offset - sf.GetStart)).2)
  else
    let head : Int := sf.GetEnd + 1 - offset
    let tail : Int := (buf.length : Int) - head
    if (sf.Write buf head (offset - sf.GetStart)).1 < 0 then
      ((-1, -1), (sf.Write buf head (offset - sf.GetStart)).2)
    else ((head, tail), (sf.Write buf head (offset - sf.GetStart)).2)

/-- The file picked by `Write` and `Read` in multi-file mode: `last_sf_` when it manages
`offset`, else the result of `FindStorageFile` (which then becomes `last_sf_`); `none` when no
file is found. -/
def Storage.select_sf (s : Storage) (offset : Int) : Option (Nat × Storage) :=
  match s.last_sf_.bind (fun k => (s.sfs_[k]?).map (fun sf => (k, sf))) with
  | some (k, sf) =>
    if offset ≥ sf.GetStart ∧ offset ≤ sf.GetEnd then some (k, s)
    else (s.FindStorageFile offset).map (fun j => (j, { s with last_sf_ := some j }))
  | none => (s.FindStorageFile offset).map (fun j => (j, { s with last_sf_ := some j }))

/-- Outcome of the line loop of `ParseSpec`: `ret`, the offset accumulator and `sfs_`. -/
structure ParseOutcome where
  ret : Int
  offset : Int
  sfs : List StorageFile
  deriving DecidableEq, Repr

/-- The part of a manifest line before its last space (`specpath`); the whole line when it has
no space. -/
def Storage.line_specpath (line : List Char) : List Char :=
  match str_rfind (c_str line) ' ' with
  | none => c_str line
  | some idx => (c_str line).take idx

/-- The part of a manifest line after its last space (`sizestr`); the whole line when it has no
space, `idx + 1` wrapping to `0` for `npos`. -/
def Storage.line_sizestr (line : List Char) : List Char :=
  match str_rfind (c_str line) ' ' with
  | none => c_str line
  | some idx => (c_str line).drop (idx + 1)

/-- The value of `fsize` after the `sscanf` of a manifest line: initialised to `0`, overwritten
when a number is read. -/
def Storage.line_fsize (line : List Char) : Int :=
  if (sscanf_i64 (Storage.line_sizestr line)).1 = 1 then (sscanf_i64 (Storage.line_sizestr line)).2
  else 0

/-- The `while (1)` loop of `Storage::ParseSpec` over the lines that `fgets` returns, for the
spec file `sf`; `offset` is an `int64_t`. A StorageFile that is not operational ends the loop
through `return -1`, which like `ret = -1; break` leaves the Storage broken with a negative
result. -/
def Storage.ParseSpec_loop (h : Host) (destdir : List Char) (sf : StorageFile) :
    List (List Char) → Int → List StorageFile → ParseOutcome
  | [], offset, sfs => { ret := 0, offset := offset, sfs := sfs }
  | line :: rest, offset, sfs =>
    if (sscanf_i64 (Storage.line_sizestr line)).1 = 0 then
      { ret := -1, offset := offset, sfs := sfs }
    else if (Storage.line_specpath line).take 1 = Storage.MULTIFILE_PATHNAME_FILE_SEP then
      { ret := -1, offset := offset, sfs := sfs }
    else if (str_find (Storage.line_specpath line) "..".toList 0).isSome then
      { ret := -1, offset := offset, sfs := sfs }
    else if offset = 0 then
      Storage.ParseSpec_loop h destdir sf rest (int64 (offset + sf.GetSize)) sfs
    else
      let ospath := destdir ++ h.FILE_SEP ++ Storage.spec2ospn h (Storage.line_specpath line)
      let nsf := Storage.opened_with sfs
        (StorageFile.new h (Storage.line_specpath line) offset (Storage.line_fsize line) ospath)
      if !nsf.IsOperational then { ret := -1, offset := offset, sfs := sfs }
      else
        Storage.ParseSpec_loop h destdir sf rest (int64 (offset + Storage.line_fsize line))
          (sfs ++ [nsf])

/-- The lines of the spec file as `ParseSpec` reads them. -/
def Storage.spec_lines (h : Host) (sf : StorageFile) : List (List Char) :=
  fgets_lines h.MULTIFILE_MAX_LINE sf.data.length sf.data

/-- `Storage::ParseSpec(sf)` for `sf = sfs_[i]`. The spec file is opened by path; this fails
when the StorageFile itself could not open it. -/
def Storage.ParseSpec (h : Host) (s : Storage) (i : Nat) : Int × Storage :=
  match s.sfs_[i]? with
  | none => (-1, { s with broken_ := true })
  | some sf =>
    if sf.fd_ < 0 then (-1, { s with broken_ := true })
    else
      let r := Storage.ParseSpec_loop h s.destdir_ sf (Storage.spec_lines h sf) 0 s.sfs_
      if r.ret < 0 then (r.ret, { s with sfs_ := r.sfs, broken_ := true })
      else (0, { s with sfs_ := r.sfs, total_size_from_spec_ := r.offset })

/-- `Storage::OpenSingleFile`. -/
def Storage.OpenSingleFile (h : Host) (s : Storage) : Int × Storage :=
  if h.open_utf8 s.os_pathname_ < 0 then (-1, { s with single_fd_ := -1, broken_ := true })
  else
    let s1 : Storage :=
      { s with single_fd_ := h.open_utf8 s.os_pathname_, single_data := h.content s.os_pathname_ }
    if s1.reserved_size_ ≠ -1 then
      if (s1.ResizeReserved s1.reserved_size_).1 < 0 then
        (-1, { (s1.ResizeReserved s1.reserved_size_).2 with single_fd_ := -1, broken_ := true })
      else ((s1.ResizeReserved s1.reserved_size_).2.single_fd_,
        (s1.ResizeReserved s1.reserved_size_).2)
    else (s1.single_fd_, s1)

/-- `Storage::WriteSpecPart(sf, buf, nbyte, offset)` for `sf = sfs_[i]`; `write` is the
recursive call of `Storage::Write` for the tail. A missing `sfs_[i]` fails. -/
def Storage.WriteSpecPart (h : Host)
    (write : Storage → List Char → Int → Option (Int × Storage))
    (s : Storage) (i : Nat) (buf : List Char) (offset : Int) : Option (Int × Storage) :=
  match s.sfs_[i]? with
  | none => some (-1, s)
  | some sf =>
    let ht := (Storage.WriteBuffer sf buf offset).1
    let s1 : Storage :=
      { s with sfs_ := Storage.put_file s.sfs_ i (Storage.WriteBuffer sf buf offset).2 }
    if ht.1 = -1 then some (-1, s1)
    else if offset + ht.1 = sf.GetEnd + 1 then
      let s2 : Storage := { s1 with state_ := STOR_STATE_MFSPEC_COMPLETE }
      let p := Storage.ParseSpec h s2 i
      if p.1 < 0 then some (-1, p.2)
      else
        let s3 : Storage := { p.2 with ht_size := p.2.GetSizeFromSpec }
        let r := s3.ResizeReserved s3.GetSizeFromSpec
        if r.1 < 0 then some (r.1, r.2)
        else
          match write r.2 (buf.drop ht.1.toNat) (offset + ht.1) with
          | none => none
          | some w => if w.1 < 0 then some (w.1, w.2) else some (ht.1 + w.1, w.2)
    else some (ht.1, { s1 with state_ := STOR_STATE_MFSPEC_SIZE_KNOWN })

/-- `Storage::Write(buf, nbyte, offset)` with `fuel` bounding the depth of the recursion. The
marker test is `strncmp` over the length of the marker; it and the `sscanf` after it read the
buffer as a C string, which is taken to end with the `nbyte` characters of the chunk. The
window arithmetic is that of non-negative offsets. -/
def Storage.WriteFuel (h : Host) : Nat → Storage → List Char → Int → Option (Int × Storage)
  | 0, _, _, _ => none
  | fuel + 1, s, buf, offset =>
    match s.state_ with
    | STOR_STATE_SINGLE_FILE =>
      some ((pwrite s.single_fd_ s.single_data buf buf.length offset).1,
        { s with single_data := (pwrite s.single_fd_ s.single_data buf buf.length offset).2 })
    | STOR_STATE_SINGLE_LIVE_WRAP =>
      let newoff : Int := offset % (s.live_disc_wnd_bytes_ : Int)
      if newoff + (buf.length : Int) > (s.live_disc_wnd_bytes_ : Int) then
        let firstbyte : Int := (s.live_disc_wnd_bytes_ : Int) - newoff
        let r := pwrite s.single_fd_ s.single_data buf firstbyte newoff
        if r.1 < 0 then some (r.1, { s with single_data := r.2 })
        else Storage.WriteFuel h fuel { s with single_data := r.2 } (buf.drop firstbyte.toNat)
          (offset + firstbyte)
      else
        some ((pwrite s.single_fd_ s.single_data buf buf.length newoff).1,
          { s with single_data := (pwrite s.single_fd_ s.single_data buf buf.length newoff).2 })
    | STOR_STATE_INIT =>
      if buf.take Storage.MULTIFILE_PATHNAME.length = Storage.MULTIFILE_PATHNAME then
        let n := sscanf_i64 (buf.drop (Storage.MULTIFILE_PATHNAME.length + 1))
        if n.1 ≠ 1 then some (-1, s)
        else
          let sf := Storage.opened_with s.sfs_
            (StorageFile.new h Storage.MULTIFILE_PATHNAME 0 n.2 s.os_pathname_)
          let s1 : Storage := { s with spec_size_ := n.2, sfs_ := s.sfs_ ++ [sf] }
          Storage.WriteSpecPart h (Storage.WriteFuel h fuel) s1 s.sfs_.length buf offset
      else
        let o := Storage.OpenSingleFile h { s with state_ := STOR_STATE_SINGLE_FILE }
        if o.1 < 0 then some (-1, o.2)
        else Storage.WriteFuel h fuel o.2 buf offset
    | STOR_STATE_MFSPEC_SIZE_KNOWN =>
      Storage.WriteSpecPart h (Storage.WriteFuel h fuel) s 0 buf offset
    | STOR_STATE_MFSPEC_COMPLETE =>
      match s.select_sf offset with
      | none => some (-1, s)
      | some (j, s1) =>
        match s1.sfs_[j]? with
        | none => some (-1, s1)
        | some sf =>
          let ht := (Storage.WriteBuffer sf buf offset).1
          let s2 : Storage :=
            { s1 with sfs_ := Storage.put_file s1.sfs_ j (Storage.WriteBuffer sf buf offset).2 }
          if ht.1 = -1 then some (-1, s2)
          else if ht.2 > 0 then
            match Storage.WriteFuel h fuel s2 (buf.drop ht.1.toNat) (offset + ht.1) with
            | none => none
            | some w => if w.1 < 0 then some (w.1, w.2) else some (ht.1 + w.1, w.2)
          else some (ht.1, s2)

/-- `Storage::Write(buf, nbyte, offset)`: every recursive call but the first two hands over a
shorter buffer, so `nbyte + 3` levels are enough. -/
def Storage.Write (h : Host) (s : Storage) (buf : List Char) (offset : Int) :
    Option (Int × Storage) :=
  Storage.WriteFuel h (buf.length + 3) s buf offset

/-- `Storage::Read(buf, nbyte, offset)` with `fuel` bounding the depth of the recursion: the
result, the characters stored into `buf`, and the Storage (whose `last_sf_` may change). -/
def Storage.ReadFuel : Nat → Storage → Nat → Int → Option (Int × List Char × Storage)
  | 0, _, _, _ => none
  | fuel + 1, s, nbyte, offset =>
    if s.state_ = STOR_STATE_SINGLE_FILE then
      some ((pread s.single_fd_ s.single_data nbyte offset).1,
        (pread s.single_fd_ s.single_data nbyte offset).2, s)
    else if s.state_ = STOR_STATE_SINGLE_LIVE_WRAP then
      some ((pread s.single_fd_ s.single_data nbyte (offset % (s.live_disc_wnd_bytes_ : Int))).1,
        (pread s.single_fd_ s.single_data nbyte (offset % (s.live_disc_wnd_bytes_ : Int))).2, s)
    else if s.state_ = STOR_STATE_INIT then some (-1, [], s)
    else
      match s.select_sf offset with
      | none => some (-1, [], s)
      | some (j, s1) =>
        match s1.sfs_[j]? with
        | none => some (-1, [], s1)
        | some sf =>
          let r := sf.Read nbyte (offset - sf.GetStart)
          if r.1 < 0 then some (r.1, [], s1)
          else if r.1 < (nbyte : Int) ∧ offset + r.1 ≠ s1.ht_size then
            match Storage.ReadFuel fuel s1 (nbyte - r.1.toNat) (offset + r.1) with
            | none => none
            | some w =>
              if w.1 < 0 then some (w.1, r.2 ++ w.2.1, w.2.2)
              else some (r.1 + w.1, r.2 ++ w.2.1, w.2.2)
          else some (r.1, r.2, s1)

/-- The constructor `Storage::Storage(ospathname, destdir, td, live_disc_wnd_bytes,
metamfspecospathname)`; the transfer descriptor `td` is only handed to the callback and is left
out. No hash tree is attached yet (`ht_size` is 0), `fread` never returns a negative count,
and `strncmp` compares the bytes read from the file. -/
def Storage.new (h : Host) (ospathname destdir : List Char) (live_disc_wnd_bytes : Nat)
    (metamfspecospathname : List Char) : Storage :=
  let s0 : Storage :=
    { state_ := STOR_STATE_INIT, broken_ := false, os_pathname_ := ospathname,
      destdir_ := destdir, ht_size := 0, spec_size_ := 0, single_fd_ := -1, single_data := [],
      reserved_size_ := -1, total_size_from_spec_ := -1, last_sf_ := none, sfs_ := [],
      alloc_cb_ := false, alloc_cb_calls := 0, live_disc_wnd_bytes_ := live_disc_wnd_bytes,
      meta_mfspec_os_pathname_ := metamfspecospathname }
  if live_disc_wnd_bytes > 0 ∧ live_disc_wnd_bytes ≠ h.POPT_LIVE_DISC_WND_ALL then
    (Storage.OpenSingleFile h { s0 with state_ := STOR_STATE_SINGLE_LIVE_WRAP }).2
  else
    let missing : Bool :=
      decide (h.file_size_by_path_utf8 ospathname < 0) && h.stat_enoent ospathname
    let filename := if missing then metamfspecospathname else ospathname
    let fsize := h.file_size_by_path_utf8 filename
    if missing ∧ fsize < 0 ∧ h.stat_enoent metamfspecospathname then s0
    else if h.fopen_utf8 filename = false then { s0 with broken_ := true }
    else if (h.content filename).take Storage.MULTIFILE_PATHNAME.length
        = Storage.MULTIFILE_PATHNAME then
      let sf := StorageFile.new h Storage.MULTIFILE_PATHNAME 0 fsize filename
      if !sf.IsOperational then
        { s0 with state_ := STOR_STATE_MFSPEC_COMPLETE, broken_ := true }
      else
        let p := Storage.ParseSpec h
          { s0 with state_ := STOR_STATE_MFSPEC_COMPLETE, sfs_ := s0.sfs_ ++ [sf] } 0
        if p.1 < 0 then { p.2 with broken_ := true } else p.2
    else (Storage.OpenSingleFile h { s0 with state_ := STOR_STATE_SINGLE_FILE }).2

/-! ## Predicates used to state the properties -/

/-- The layout invariant of `sfs_` in multi-file mode: entries have non-negative sizes (so they
are sorted by start) and each one starts right after the end of the one before it. -/
structure SortedContiguous (sfs : List StorageFile) : Prop where
  sized : ∀ (i : Nat) (sf : StorageFile), sfs[i]? = some sf → sf.start_ ≤ sf.end_ + 1
  contiguous : ∀ (i : Nat) (a b : StorageFile), sfs[i]? = some a → sfs[i + 1]? = some b →
    b.start_ = a.end_ + 1

/-- A Storage in state MFSPEC_COMPLETE whose files tile `[0, total_size_from_spec_)`: `sfs_` is
not empty, sorted and contiguous, starts at `0`, and ends at `total_size_from_spec_ - 1`;
`last_sf_` is NULL or points into `sfs_`. -/
structure Storage.MultiFileComplete (s : Storage) : Prop where
  state : s.state_ = STOR_STATE_MFSPEC_COMPLETE
  layout : SortedContiguous s.sfs_
  first : ∀ sf : StorageFile, s.sfs_[0]? = some sf → sf.start_ = 0
  total : ∃ sf : StorageFile, s.sfs_.getLast? = some sf ∧ s.total_size_from_spec_ = sf.end_ + 1
  last_valid : ∀ k : Nat, s.last_sf_ = some k → k < s.sfs_.length

/-- What a multi-file `Write` of the chunk `buf` at `offset` leaves behind: apart from `last_sf_`
and the contents of the files nothing changes; every character of the chunk is stored in each
file that manages its offset, at the file-local position; characters of a file outside the
range of the chunk, and files that manage none of the offsets of the chunk, are as before. -/
structure Storage.Wrote (s s' : Storage) (buf : List Char) (offset : Int) : Prop where
  same : s' = { s with sfs_ := s'.sfs_, last_sf_ := s'.last_sf_ }
  length : s'.sfs_.length = s.sfs_.length
  attrs : ∀ (i : Nat) (sf sf' : StorageFile), s.sfs_[i]? = some sf → s'.sfs_[i]? = some sf' →
    sf' = { sf with data := sf'.data }
  stored : ∀ (k i : Nat) (sf' : StorageFile), k < buf.length → s'.sfs_[i]? = some sf' →
    sf'.start_ ≤ offset + k → offset + k ≤ sf'.end_ →
    sf'.data[(offset + k - sf'.start_).toNat]? = buf[k]?
  kept : ∀ (i p : Nat) (sf sf' : StorageFile), s.sfs_[i]? = some sf → s'.sfs_[i]? = some sf' →
    p < sf.data.length → (sf.start_ + p < offset ∨ offset + buf.length ≤ sf.start_ + p) →
    sf'.data[p]? = sf.data[p]?
  untouched : ∀ (i : Nat) (sf : StorageFile), s.sfs_[i]? = some sf →
    (∀ k : Nat, k < buf.length → ¬ (sf.start_ ≤ offset + k ∧ offset + k ≤ sf.end_)) →
    s'.sfs_[i]? = some sf
  grows : ∀ (i : Nat) (sf sf' : StorageFile), s.sfs_[i]? = some sf → s'.sfs_[i]? = some sf' →
    sf.data.length ≤ sf'.data.length
  size_kept : ∀ (i : Nat) (sf sf' : StorageFile), s.sfs_[i]? = some sf →
    s'.sfs_[i]? = some sf' → sf.end_ - sf.start_ + 1 ≤ sf.data.length →
    sf'.data.length = sf.data.length

/-- `Storage::Read(buf, nbyte, offset)`: a recursive call that gets anywhere has read at least
one byte, so `nbyte + 1` levels are enough for every call that returns. -/
def Storage.Read (s : Storage) (nbyte : Nat) (offset : Int) :
    Option (Int × List Char × Storage) :=
  Storage.ReadFuel (nbyte + 1) s nbyte offset

/-! ## Sequences of writes and the live ring -/

/-- A sequence of `Write` calls, each of which has to return a non-negative result; `none`
when one of them fails. -/
def Storage.WriteAll (h : Host) : Storage → List (List Char × Int) → Option Storage
  | s, [] => some s
  | s, w :: rest =>
    match s.Write h w.1 w.2 with
    | some r => if 0 ≤ r.1 then Storage.WriteAll h r.2 rest else none
    | none => none

/-- The bytes of one chunk with their logical offsets, in the order of the buffer. -/
def chunk_events : List Char → Int → List (Int × Char)
  | [], _ => []
  | c :: cs, o => (o, c) :: chunk_events cs (o + 1)

/-- The bytes of a sequence of chunks with their logical offsets, in the order written. -/
def write_events : List (List Char × Int) → List (Int × Char)
  | [] => []
  | w :: rest => chunk_events w.1 w.2 ++ write_events rest

/-- The byte most recently written to a logical offset that is `p` modulo `W`, if any. -/
def last_written (W : Nat) (p : Int) : List (Int × Char) → Option Char
  | [] => none
  | e :: rest =>
    match last_written W p rest with
    | some c => some c
    | none => if e.1 % (W : Int) = p then some e.2 else none

/-- The ring file after each byte of `evs` in turn has been put at its offset modulo `W`. -/
def ring_apply (W : Nat) : List Char → List (Int × Char) → List Char
  | data, [] => data
  | data, e :: rest => ring_apply W (overwrite data (e.1 % (W : Int)).toNat [e.2]) rest

/-- A manifest path that `ParseSpec` must refuse: it starts with `/` or contains `..`. -/
def Storage.unsafe_path (p : List Char) : Prop :=
  (∃ rest : List Char, p = '/' :: rest) ∨ (∃ a b : List Char, p = a ++ "..".toList ++ b)

/-- The StorageFile that `ParseSpec` constructs for the manifest line `l` when the accumulator
is at `offset` and the files `sfs` are open. -/
def Storage.line_file (h : Host) (destdir : List Char) (sfs : List StorageFile) (offset : Int)
    (l : List Char) : StorageFile :=
  Storage.opened_with sfs
    (StorageFile.new h (Storage.line_specpath l) offset (Storage.line_fsize l)
      (destdir ++ h.FILE_SEP ++ Storage.spec2ospn h (Storage.line_specpath l)))

/-- The StorageFiles that a manifest defines by the words of the spec: one per line, each
starting where the one before it ends, with the path and the size read from its line; `sfs`
are the files open before the line is read. -/
def Storage.layout_entries (h : Host) (destdir : List Char) :
    List StorageFile → Int → List (List Char) → List StorageFile
  | _, _, [] => []
  | sfs, offset, l :: rest =>
    Storage.line_file h destdir sfs offset l
      :: Storage.layout_entries h destdir (sfs ++ [Storage.line_file h destdir sfs offset l])
        (offset + Storage.line_fsize l) rest

/-! ## Sequences of operations -/

/-- The operations of a Storage that the transfer layer may call in any order. -/
inductive Storage.Op where
  | Write (buf : List Char) (offset : Int)
  | Read (nbyte : Nat) (offset : Int)
  | ResizeReserved (size : Int)
  | GetSizeFromSpec
  | GetReservedSize
  | GetMinimalReservedSize

/-- The Storage after one operation; `none` when a `Write` or `Read` does not return within
`fuel` levels of recursion. The getters change nothing. -/
def Storage.step (h : Host) (fuel : Nat) (s : Storage) : Storage.Op → Option Storage
  | .Write buf offset => (Storage.WriteFuel h fuel s buf offset).map (fun r => r.2)
  | .Read nbyte offset => (Storage.ReadFuel fuel s nbyte offset).map (fun r => r.2.2)
  | .ResizeReserved size => some (s.ResizeReserved size).2
  | .GetSizeFromSpec => some s
  | .GetReservedSize => some s
  | .GetMinimalReservedSize => some s

/-- The Storage after a sequence of operations. -/
def Storage.run (h : Host) (fuel : Nat) : Storage → List Storage.Op → Option Storage
  | s, [] => some s
  | s, op :: rest =>
    match Storage.step h fuel s op with
    | some s' => Storage.run h fuel s' rest
    | none => none

/-- The state `b` is not a step back from the state `a`: SINGLE_FILE, SINGLE_LIVE_WRAP and
MFSPEC_COMPLETE stay, MFSPEC_SIZE_KNOWN stays or becomes MFSPEC_COMPLETE, and only INIT may
be followed by INIT. -/
def storage_state_t.not_regressed (a b : storage_state_t) : Prop :=
  match a with
  | STOR_STATE_INIT => True
  | STOR_STATE_MFSPEC_SIZE_KNOWN =>
    b = STOR_STATE_MFSPEC_SIZE_KNOWN ∨ b = STOR_STATE_MFSPEC_COMPLETE
  | STOR_STATE_MFSPEC_COMPLETE => b = STOR_STATE_MFSPEC_COMPLETE
  | STOR_STATE_SINGLE_FILE => b = STOR_STATE_SINGLE_FILE
  | STOR_STATE_SINGLE_LIVE_WRAP => b = STOR_STATE_SINGLE_LIVE_WRAP

/-! ## Concrete hosts and storages used as examples -/

/-- A Unix host on which every path can be opened, every directory can be made and no file
exists yet; different paths name different files. -/
def scenario_host : Host :=
  { FILE_SEP := "/".toList, MULTIFILE_MAX_LINE := 2082, win32 := false,
    file_exists_utf8 := fun _ => 0, mkdir_utf8 := fun _ => 0, open_utf8 := fun _ => 3,
    content := fun _ => [], file_size_by_path_utf8 := fun _ => -1,
    POPT_LIVE_DISC_WND_ALL := 18446744073709551615, stat_enoent := fun _ => true,
    fopen_utf8 := fun _ => true, realpath := fun p => p }

/-- A client Storage as the constructor leaves it when `os_pathname` does not exist. -/
def scenario_init : Storage :=
  { state_ := STOR_STATE_INIT, broken_ := false, os_pathname_ := "spec".toList,
    destdir_ := "dest".toList, ht_size := 0, spec_size_ := 0, single_fd_ := -1,
    single_data := [], reserved_size_ := -1, total_size_from_spec_ := -1, last_sf_ := none,
    sfs_ := [], alloc_cb_ := false, alloc_cb_calls := 0, live_disc_wnd_bytes_ := 0,
    meta_mfspec_os_pathname_ := [] }

/-- A multi-file Storage in state MFSPEC_COMPLETE: a spec of 46 bytes followed by `a.txt` of 3
bytes and `b.txt` of 2 bytes, all reserved to their sizes. -/
def scenario_complete : Storage :=
  { scenario_init with
    state_ := STOR_STATE_MFSPEC_COMPLETE, ht_size := 51, spec_size_ := 46,
    total_size_from_spec_ := 51,
    sfs_ := [
      { spec_pathname_ := Storage.MULTIFILE_PATHNAME, start_ := 0, end_ := 45,
        os_pathname_ := "spec".toList, fd_ := 3, broken_ := false,
        data := "META-INF-multifilespec.txt 46\na.txt 3\nb.txt 2\n".toList,
        file_id := "spec".toList },
      { spec_pathname_ := "a.txt".toList, start_ := 46, end_ := 48,
        os_pathname_ := "dest/a.txt".toList, fd_ := 4, broken_ := false,
        data := List.replicate 3 (Char.ofNat 0),
        file_id := "dest/a.txt".toList },
      { spec_pathname_ := "b.txt".toList, start_ := 49, end_ := 50,
        os_pathname_ := "dest/b.txt".toList, fd_ := 5, broken_ := false,
        data := List.replicate 2 (Char.ofNat 0),
        file_id := "dest/b.txt".toList }] }

/-- The Storage `scenario_complete` after `Write("XYZab", 5, 46)`. -/
def scenario_written : Storage :=
  { scenario_complete with
    last_sf_ := some 2,
    sfs_ := [
      { spec_pathname_ := Storage.MULTIFILE_PATHNAME, start_ := 0, end_ := 45,
        os_pathname_ := "spec".toList, fd_ := 3, broken_ := false,
        data := "META-INF-multifilespec.txt 46\na.txt 3\nb.txt 2\n".toList,
        file_id := "spec".toList },
      { spec_pathname_ := "a.txt".toList, start_ := 46, end_ := 48,
        os_pathname_ := "dest/a.txt".toList, fd_ := 4, broken_ := false,
        data := "XYZ".toList,
        file_id := "dest/a.txt".toList },
      { spec_pathname_ := "b.txt".toList, start_ := 49, end_ := 50,
        os_pathname_ := "dest/b.txt".toList, fd_ := 5, broken_ := false,
        data := "ab".toList,
        file_id := "dest/b.txt".toList }] }

/-- A live Storage with a window of 1024 bytes on an open, still empty file. -/
def scenario_live : Storage :=
  { scenario_init with
    state_ := STOR_STATE_SINGLE_LIVE_WRAP, single_fd_ := 3, live_disc_wnd_bytes_ := 1024 }

/-- The open StorageFile of a spec of `size` bytes with the given content. -/
def scenario_spec_file (content : List Char) (size : Int) : StorageFile :=
  { spec_pathname_ := Storage.MULTIFILE_PATHNAME, start_ := 0, end_ := size - 1,
    os_pathname_ := "spec".toList, fd_ := 3, broken_ := false, data := content,
        file_id := "spec".toList }

/-- The Storage in which `ParseSpec` runs on a spec file with the given content: state
MFSPEC_COMPLETE, `sfs_` holding only the StorageFile of the spec, of `size` bytes. -/
def scenario_spec (content : List Char) (size : Int) : Storage :=
  { scenario_init with
    state_ := STOR_STATE_MFSPEC_COMPLETE, spec_size_ := size,
    sfs_ := [scenario_spec_file content size] }

/-- A manifest of 55 bytes with the unsafe entry `../etc/passwd` after the safe entry
`a.txt`. -/
def manifest_unsafe : List Char :=
  "META-INF-multifilespec.txt 55\na.txt 3\n../etc/passwd 10\n".toList

/-- A manifest of 37 bytes whose second line `a.txt ` has nothing after its last space. -/
def manifest_no_size : List Char :=
  "META-INF-multifilespec.txt 37\na.txt \n".toList

/-- The manifest of scenarios S2 and S3: 46 bytes, its first line declaring 56. -/
def manifest_s3 : List Char :=
  "META-INF-multifilespec.txt 56\na.txt 3\nb.txt 2\n".toList

/-- The same manifest with the true size, 46, on its first line. -/
def manifest_good : List Char :=
  "META-INF-multifilespec.txt 46\na.txt 3\nb.txt 2\n".toList

/-- A manifest of 57 bytes whose third line declares the size `-5`. -/
def manifest_negative : List Char :=
  "META-INF-multifilespec.txt 57\na.txt 10\nb.txt -5\nc.txt 10\n".toList

/-- What every operation keeps: a broken flag that is set stays set, MFSPEC_COMPLETE stays,
`total_size_from_spec_` is as before unless the state is MFSPEC_COMPLETE afterwards, and the
entries of `sfs_` keep their place and everything but the content of their files. -/
structure Storage.Frame (s r : Storage) : Prop where
  broken : s.broken_ = true → r.broken_ = true
  complete : s.state_ = STOR_STATE_MFSPEC_COMPLETE → r.state_ = STOR_STATE_MFSPEC_COMPLETE
  total : r.total_size_from_spec_ = s.total_size_from_spec_ ∨
    r.state_ = STOR_STATE_MFSPEC_COMPLETE
  attrs : ∀ (i : Nat) (sf : StorageFile), s.sfs_[i]? = some sf →
    ∃ sf' : StorageFile, r.sfs_[i]? = some sf' ∧ sf' = { sf with data := sf'.data }


/-- The Storage that the first chunk `manifest_unsafe` leaves on `scenario_host`: `ParseSpec` has
made the StorageFile of `a.txt`, met the unsafe line and marked the Storage broken. -/
def scenario_broken : Storage :=
  { scenario_init with
    state_ := STOR_STATE_MFSPEC_COMPLETE, broken_ := true, spec_size_ := 55,
    sfs_ := [
      { spec_pathname_ := Storage.MULTIFILE_PATHNAME, start_ := 0, end_ := 54,
        os_pathname_ := "spec".toList, fd_ := 3, broken_ := false, data := manifest_unsafe,
        file_id := "spec".toList },
      { spec_pathname_ := "a.txt".toList, start_ := 55, end_ := 57,
        os_pathname_ := "dest/a.txt".toList, fd_ := 3, broken_ := false, data := [],
        file_id := "dest/a.txt".toList }] }

/-- The Storage `scenario_broken` after `Read(4, 0)`, `ResizeReserved(100)` and
`Write("XYZ", 3, 55)`. -/
def scenario_broken_used : Storage :=
  { scenario_broken with
    last_sf_ := some 1,
    sfs_ := [
      { spec_pathname_ := Storage.MULTIFILE_PATHNAME, start_ := 0, end_ := 54,
        os_pathname_ := "spec".toList, fd_ := 3, broken_ := false, data := manifest_unsafe,
        file_id := "spec".toList },
      { spec_pathname_ := "a.txt".toList, start_ := 55, end_ := 57,
        os_pathname_ := "dest/a.txt".toList, fd_ := 3, broken_ := false,
        data := "XYZ".toList,
        file_id := "dest/a.txt".toList }] }

/-- The first chunk of scenario S2 as the spec gives it: the line `META-INF-multifilespec.txt 56`
followed by the 46 bytes of `manifest_s3`, 76 bytes in all. -/
def chunk_s2 : List Char :=
  "META-INF-multifilespec.txt 56\n".toList ++ manifest_s3

/-- A manifest that is 56 bytes long and says so, for entries of 3 and 2 bytes. -/
def manifest_56 : List Char :=
  "META-INF-multifilespec.txt 56\naaaaaa.txt 3\nbbbbbb.txt 2\n".toList

/-- The Storage `scenario_init` after the first 35 bytes of a manifest of 46 bytes have been
written: the size of the spec is known, the spec is not complete. -/
def scenario_size_known : Storage :=
  { scenario_init with
    state_ := STOR_STATE_MFSPEC_SIZE_KNOWN, spec_size_ := 46,
    sfs_ := [
      { spec_pathname_ := Storage.MULTIFILE_PATHNAME, start_ := 0, end_ := 45,
        os_pathname_ := "spec".toList, fd_ := 3, broken_ := false,
        data := "META-INF-multifilespec.txt 46\na.txt".toList,
        file_id := "spec".toList }] }

/-- A host whose separator is the backslash (character 92), as on Windows. -/
def scenario_host_backslash : Host :=
  { scenario_host with FILE_SEP := [Char.ofNat 92], win32 := true }

/-- The loop of `Storage::FindStorageFile` once more, with the end of the loop kept apart from
the end of the fuel: `some none` when the loop is left with `imax < imin` (NULL),
`some (some i)` when it returns `sfs_[i]`, and `none` when `fuel` rounds were not enough or
the index `imid` is outside `sfs_`. -/
def Storage.FindStorageFile_run (sfs : List StorageFile) (offset : Int) :
    Nat → Int → Int → Option (Option Nat)
  | 0, imin, imax => if imax ≥ imin then none else some none
  | fuel + 1, imin, imax =>
    if imax ≥ imin then
      match sfs[((imin + imax) / 2).toNat]? with
      | none => none
      | some sf =>
        if offset ≥ sf.GetEnd + 1 then
          Storage.FindStorageFile_run sfs offset fuel ((imin + imax) / 2 + 1) imax
        else if offset < sf.GetStart then
          Storage.FindStorageFile_run sfs offset fuel imin ((imin + imax) / 2 - 1)
        else some (some ((imin + imax) / 2).toNat)
    else some none

/-- The Storage `scenario_complete` (with `ht_->size()` 51) in which the file of `a.txt`,
declared with 3 bytes, is empty on disk. -/
def scenario_short_file : Storage :=
  { scenario_complete with
    sfs_ := [
      { spec_pathname_ := Storage.MULTIFILE_PATHNAME, start_ := 0, end_ := 45,
        os_pathname_ := "spec".toList, fd_ := 3, broken_ := false,
        data := "META-INF-multifilespec.txt 46\na.txt 3\nb.txt 2\n".toList,
        file_id := "spec".toList },
      { spec_pathname_ := "a.txt".toList, start_ := 46, end_ := 48,
        os_pathname_ := "dest/a.txt".toList, fd_ := 4, broken_ := false, data := [],
        file_id := "dest/a.txt".toList },
      { spec_pathname_ := "b.txt".toList, start_ := 49, end_ := 50,
        os_pathname_ := "dest/b.txt".toList, fd_ := 5, broken_ := false,
        data := List.replicate 2 (Char.ofNat 0),
        file_id := "dest/b.txt".toList }] }

/-- Position `p` of the content lies in the range `[offset, offset + nbyte)` of one of the
chunks `ws`. -/
def covered (ws : List (List Char × Int)) (p : Int) : Prop :=
  ∃ w ∈ ws, w.2 ≤ p ∧ p < w.2 + (w.1.length : Int)

/-- The chunks `ws` arrive in order from offset `o`: the first starts at `o`, and each of the
others starts where the one before it ended. -/
def in_order : Int → List (List Char × Int) → Prop
  | _, [] => True
  | o, w :: rest => w.2 = o ∧ in_order (o + (w.1.length : Int)) rest

/-- No two entries of `sfs` have the same file open: their `file_id`s differ pairwise. -/
def Storage.distinct_files (sfs : List StorageFile) : Prop :=
  (sfs.map (fun sf => sf.file_id)).Nodup

instance (sfs : List StorageFile) : Decidable (Storage.distinct_files sfs) := by
  unfold Storage.distinct_files
  infer_instance

/-- The lines of a text, each one through its newline (the last one may lack it): what `fgets`
returns when its buffer is longer than every line. -/
def text_lines (cs : List Char) : List (List Char) :=
  fgets_lines (cs.length + 2) cs.length cs

/-- A manifest of 2119 bytes whose second line is longer than the `fgets` buffer of
`scenario_host` (2081 characters): 2078 times `a`, then ` 5../x 7` and the newline. The
buffer is full after ` 5.`, so the `..` of the line is cut in two. -/
def manifest_long_line : List Char :=
  "META-INF-multifilespec.txt 2119\n".toList
    ++ (List.replicate 2078 'a' ++ " 5../x 7\n".toList)

/-- The entries of `sfs` that have the same file open hold the same content, `data` being the
content of the file on disk. -/
def Storage.coherent (sfs : List StorageFile) : Prop :=
  ∀ a ∈ sfs, ∀ b ∈ sfs, 0 ≤ a.fd_ → 0 ≤ b.fd_ → a.file_id = b.file_id → a.data = b.data

instance (sfs : List StorageFile) : Decidable (Storage.coherent sfs) := by
  unfold Storage.coherent
  infer_instance

/-- The file `d` cut after `m` characters and then filled with NUL characters to length `n`. -/
def cut_fill (m n : Nat) (d : List Char) : List Char :=
  (d.take m ++ List.replicate n (Char.ofNat 0)).take n

/-- The content that the file `f` has after the resizes `seg` (pairs of a file and a size, in
the order in which they are made) when it was `d` before. -/
def resize_chain (f : List Char) : List (List Char × Nat) → List Char → List Char
  | [], d => d
  | x :: seg, d => resize_chain f seg (if x.1 = f then cut_fill x.2 x.2 d else d)

/-- The resizes that the loop of `ResizeReserved` makes on the entries `sfs`: one for each
entry before the first one that is not open. -/
def resize_steps : List StorageFile → List (List Char × Nat)
  | [] => []
  | e :: es => if e.fd_ < 0 then [] else (e.file_id, e.GetSize.toNat) :: resize_steps es

/-- The result of the loop of `ResizeReserved` on the entries `sfs` when none has a negative
size: `-1` when one of them is not open. -/
def resize_result : List StorageFile → Int
  | [] => 0
  | e :: es => if e.fd_ < 0 then -1 else resize_result es

/-- The entry `e` after the resizes `seg`. -/
def resized_entry (seg : List (List Char × Nat)) (e : StorageFile) : StorageFile :=
  if 0 ≤ e.fd_ then { e with data := resize_chain e.file_id seg e.data } else e

/-- A manifest of 46 bytes that lists the path `a.txt` twice, with 3 bytes each. -/
def manifest_twice : List Char :=
  "META-INF-multifilespec.txt 46\na.txt 3\na.txt 3\n".toList

/-- The Storage that the first chunk `manifest_twice` leaves on `scenario_host`, in state
MFSPEC_COMPLETE: the spec on `[0, 45]` and two entries, on `[46, 48]` and `[49, 51]`, that
have the same file `dest/a.txt` open, reserved to 3 bytes. -/
def scenario_twice : Storage :=
  { scenario_init with
    state_ := STOR_STATE_MFSPEC_COMPLETE, ht_size := 52, spec_size_ := 46,
    total_size_from_spec_ := 52, last_sf_ := some 1,
    sfs_ := [
      { spec_pathname_ := Storage.MULTIFILE_PATHNAME, start_ := 0, end_ := 45,
        os_pathname_ := "spec".toList, fd_ := 3, broken_ := false, data := manifest_twice,
        file_id := "spec".toList },
      { spec_pathname_ := "a.txt".toList, start_ := 46, end_ := 48,
        os_pathname_ := "dest/a.txt".toList, fd_ := 3, broken_ := false,
        data := List.replicate 3 (Char.ofNat 0), file_id := "dest/a.txt".toList },
      { spec_pathname_ := "a.txt".toList, start_ := 49, end_ := 51,
        os_pathname_ := "dest/a.txt".toList, fd_ := 3, broken_ := false,
        data := List.replicate 3 (Char.ofNat 0), file_id := "dest/a.txt".toList }] }

/-! ## Theorems -/

/-! ### Positional writes -/

theorem overwrite_length (data : List Char) (off : Nat) (bs : List Char) :
    (overwrite data off bs).length = max data.length (off + bs.length) := by
  simp only [overwrite, List.length_append, List.length_take, List.length_replicate,
    List.length_drop]
  omega

theorem overwrite_getElem?_mid (data : List Char) (off : Nat) (bs : List Char) (p : Nat)
    (h1 : off ≤ p) (h2 : p < off + bs.length) :
    (overwrite data off bs)[p]? = bs[p - off]? := by
  have hl : ((data ++ List.replicate (off - data.length) (Char.ofNat 0)).take off).length = off := by
    simp only [List.length_take, List.length_append, List.length_replicate]
    omega
  simp only [overwrite, List.append_assoc]
  rw [List.getElem?_append_right (by omega), hl, List.getElem?_append_left (by omega)]

theorem overwrite_getElem?_lt (data : List Char) (off : Nat) (bs : List Char) (p : Nat)
    (h1 : p < off) (h2 : p < data.length) :
    (overwrite data off bs)[p]? = data[p]? := by
  have hl : ((data ++ List.replicate (off - data.length) (Char.ofNat 0)).take off).length = off := by
    simp only [List.length_take, List.length_append, List.length_replicate]
    omega
  simp only [overwrite, List.append_assoc]
  rw [List.getElem?_append_left (by omega), List.getElem?_take_of_lt h1,
    List.getElem?_append_left h2]

theorem overwrite_getElem?_ge (data : List Char) (off : Nat) (bs : List Char) (p : Nat)
    (h1 : off + bs.length ≤ p) :
    (overwrite data off bs)[p]? = data[p]? := by
  have hl : ((data ++ List.replicate (off - data.length) (Char.ofNat 0)).take off).length = off := by
    simp only [List.length_take, List.length_append, List.length_replicate]
    omega
  simp only [overwrite, List.append_assoc]
  rw [List.getElem?_append_right (by omega), hl, List.getElem?_append_right (by omega),
    List.getElem?_drop]
  congr 1
  omega

/-! ### Binary search -/

theorem SortedContiguous.end_lt_start {sfs : List StorageFile} (hs : SortedContiguous sfs) :
    ∀ (d i : Nat) (a b : StorageFile), sfs[i]? = some a → sfs[i + d + 1]? = some b →
      a.end_ + 1 ≤ b.start_ := by
  intro d
  induction d with
  | zero =>
    intro i a b ha hb
    have := hs.contiguous i a b ha hb
    omega
  | succ d ih =>
    intro i a b ha hb
    have hlt : i + d + 1 < sfs.length := by
      have := (List.getElem?_eq_some_iff.mp hb).1
      omega
    have hc : sfs[i + d + 1]? = some (sfs[i + d + 1]) := List.getElem?_eq_getElem hlt
    have h1 := ih i a _ ha hc
    have h2 := hs.contiguous (i + d + 1) _ b hc hb
    have h3 := hs.sized (i + d + 1) _ hc
    omega

theorem SortedContiguous.lt_of_lt {sfs : List StorageFile} (hs : SortedContiguous sfs)
    {i j : Nat} {a b : StorageFile} (hij : i < j) (ha : sfs[i]? = some a)
    (hb : sfs[j]? = some b) : a.end_ + 1 ≤ b.start_ := by
  obtain ⟨d, rfl⟩ : ∃ d, j = i + d + 1 := ⟨j - i - 1, by omega⟩
  exact hs.end_lt_start d i a b ha hb

theorem SortedContiguous.unique {sfs : List StorageFile} (hs : SortedContiguous sfs)
    {i j : Nat} {a b : StorageFile} {o : Int} (ha : sfs[i]? = some a) (hb : sfs[j]? = some b)
    (hao : a.start_ ≤ o ∧ o ≤ a.end_) (hbo : b.start_ ≤ o ∧ o ≤ b.end_) : i = j := by
  rcases Nat.lt_trichotomy i j with h | h | h
  · have := hs.lt_of_lt h ha hb
    omega
  · exact h
  · have := hs.lt_of_lt h hb ha
    omega

theorem Storage.FindStorageFile_loop_sound (sfs : List StorageFile) (offset : Int) :
    ∀ (fuel : Nat) (imin imax : Int) (k : Nat),
      Storage.FindStorageFile_loop sfs offset fuel imin imax = some k →
      ∃ sf, sfs[k]? = some sf ∧ sf.start_ ≤ offset ∧ offset ≤ sf.end_ := by
  intro fuel
  induction fuel with
  | zero => intro imin imax k h; simp [Storage.FindStorageFile_loop] at h
  | succ fuel ih =>
    intro imin imax k h
    simp only [Storage.FindStorageFile_loop] at h
    split at h
    · split at h
      · exact absurd h (by simp)
      · rename_i sf hsf
        split at h
        · exact ih _ _ _ h
        · split at h
          · exact ih _ _ _ h
          · rename_i h1 h2
            simp only [Option.some.injEq] at h
            subst h
            refine ⟨sf, hsf, ?_, ?_⟩
            · simp only [StorageFile.GetStart] at h2; omega
            · simp only [StorageFile.GetEnd] at h1; omega
    · exact absurd h (by simp)

theorem Storage.FindStorageFile_loop_complete {sfs : List StorageFile}
    (hs : SortedContiguous sfs) (offset : Int) (j : Nat) (sf : StorageFile)
    (hj : sfs[j]? = some sf) (hlo : sf.start_ ≤ offset) (hhi : offset ≤ sf.end_) :
    ∀ (fuel : Nat) (imin imax : Int), 0 ≤ imin → imin ≤ j → (j : Int) ≤ imax →
      imax < sfs.length → imax - imin + 1 ≤ fuel →
      Storage.FindStorageFile_loop sfs offset fuel imin imax = some j := by
  intro fuel
  induction fuel with
  | zero => intro imin imax h0 h1 h2 h3 h4; omega
  | succ fuel ih =>
    intro imin imax h0 h1 h2 h3 h4
    simp only [Storage.FindStorageFile_loop]
    have hge : imax ≥ imin := by omega
    rw [if_pos hge]
    have hmid_lt : ((imin + imax) / 2).toNat < sfs.length := by omega
    rw [List.getElem?_eq_getElem hmid_lt]
    simp only [StorageFile.GetEnd, StorageFile.GetStart]
    have hm : sfs[((imin + imax) / 2).toNat]? = some (sfs[((imin + imax) / 2).toNat]) :=
      List.getElem?_eq_getElem hmid_lt
    rcases Nat.lt_trichotomy ((imin + imax) / 2).toNat j with h | h | h
    · have := hs.lt_of_lt h hm hj
      rw [if_pos (by omega)]
      exact ih _ _ (by omega) (by omega) h2 h3 (by omega)
    · have heq : sfs[((imin + imax) / 2).toNat] = sf := by
        have := hm.symm.trans (h ▸ hj)
        simpa using this
      rw [heq, if_neg (by omega), if_neg (by omega), h]
    · have := hs.lt_of_lt h hj hm
      have hsz := hs.sized _ _ hm
      rw [if_neg (by omega), if_pos (by omega)]
      exact ih _ _ h0 (by omega) (by omega) (by omega) (by omega)

/-! ### File selection -/

theorem Storage.FindStorageFile_sound (s : Storage) (offset : Int) (j : Nat)
    (h : s.FindStorageFile offset = some j) :
    ∃ sf, s.sfs_[j]? = some sf ∧ sf.start_ ≤ offset ∧ offset ≤ sf.end_ :=
  Storage.FindStorageFile_loop_sound s.sfs_ offset _ _ _ j h

theorem Storage.FindStorageFile_complete (s : Storage) (hs : SortedContiguous s.sfs_)
    (offset : Int) (j : Nat) (sf : StorageFile) (hj : s.sfs_[j]? = some sf)
    (hlo : sf.start_ ≤ offset) (hhi : offset ≤ sf.end_) :
    s.FindStorageFile offset = some j := by
  have hlt := (List.getElem?_eq_some_iff.mp hj).1
  exact Storage.FindStorageFile_loop_complete hs offset j sf hj hlo hhi _ _ _ (by omega)
    (by omega) (by omega) (by omega) (by omega)

theorem Storage.select_sf_sound (s : Storage) (offset : Int) (j : Nat) (s1 : Storage)
    (h : s.select_sf offset = some (j, s1)) :
    (∃ sf, s.sfs_[j]? = some sf ∧ sf.start_ ≤ offset ∧ offset ≤ sf.end_) ∧
      s1 = { s with last_sf_ := s1.last_sf_ } := by
  have hfind : (s.FindStorageFile offset).map (fun j => (j, { s with last_sf_ := some j }))
      = some (j, s1) →
      (∃ sf, s.sfs_[j]? = some sf ∧ sf.start_ ≤ offset ∧ offset ≤ sf.end_) ∧
      s1 = { s with last_sf_ := s1.last_sf_ } := by
    intro hf
    cases hfs : s.FindStorageFile offset with
    | none => simp [hfs] at hf
    | some j' =>
      simp only [hfs, Option.map_some', Option.some.injEq, Prod.mk.injEq] at hf
      obtain ⟨rfl, rfl⟩ := hf
      exact ⟨Storage.FindStorageFile_sound s offset _ hfs, rfl⟩
  unfold Storage.select_sf at h
  split at h
  · rename_i k sf hk
    split at h
    · rename_i hc
      simp only [Option.some.injEq, Prod.mk.injEq] at h
      obtain ⟨rfl, rfl⟩ := h
      cases hl : s.last_sf_ with
      | none => simp [hl] at hk
      | some k' =>
        rw [hl] at hk
        cases hsf' : s.sfs_[k']? with
        | none => simp [hsf'] at hk
        | some sf' =>
        simp only [hsf', Option.some_bind, Option.map_some', Option.some.injEq,
          Prod.mk.injEq] at hk
        obtain ⟨rfl, rfl⟩ := hk
        refine ⟨⟨sf', hsf', ?_, ?_⟩, by rw [← hl]⟩
        · simpa [StorageFile.GetStart] using hc.1
        · simpa [StorageFile.GetEnd] using hc.2
    · exact hfind h
  · exact hfind h

theorem Storage.select_sf_complete (s : Storage) (hs : SortedContiguous s.sfs_)
    (offset : Int) (j : Nat) (sf : StorageFile) (hj : s.sfs_[j]? = some sf)
    (hlo : sf.start_ ≤ offset) (hhi : offset ≤ sf.end_) :
    ∃ s1, s.select_sf offset = some (j, s1) := by
  have hf := Storage.FindStorageFile_complete s hs offset j sf hj hlo hhi
  unfold Storage.select_sf
  split
  · rename_i k sf' hk
    split
    · rename_i hc
      cases hl : s.last_sf_ with
      | none => simp [hl] at hk
      | some k' =>
        rw [hl] at hk
        cases hsf'' : s.sfs_[k']? with
        | none => simp [hsf''] at hk
        | some sf'' =>
        simp only [hsf'', Option.some_bind, Option.map_some', Option.some.injEq,
          Prod.mk.injEq] at hk
        obtain ⟨rfl, rfl⟩ := hk
        have : k' = j := hs.unique hsf'' hj
          ⟨by simpa [StorageFile.GetStart] using hc.1, by simpa [StorageFile.GetEnd] using hc.2⟩
          ⟨hlo, hhi⟩
        exact ⟨s, by rw [this]⟩
    · exact ⟨_, by rw [hf]; rfl⟩
  · exact ⟨_, by rw [hf]; rfl⟩

/-! ### Files shared by several entries -/

theorem Storage.distinct_files.index_eq {sfs : List StorageFile}
    (hd : Storage.distinct_files sfs) {i j : Nat} {a b : StorageFile} (hi : sfs[i]? = some a)
    (hj : sfs[j]? = some b) (he : a.file_id = b.file_id) : i = j := by
  unfold Storage.distinct_files at hd
  have hil := (List.getElem?_eq_some_iff.mp hi).1
  have hjl := (List.getElem?_eq_some_iff.mp hj).1
  have hi' : (sfs.map (fun sf => sf.file_id))[i]? = some a.file_id := by
    rw [List.getElem?_map, hi]; rfl
  have hj' : (sfs.map (fun sf => sf.file_id))[j]? = some a.file_id := by
    rw [List.getElem?_map, hj, he]; rfl
  have hne := List.nodup_iff_getElem?_ne_getElem?.mp hd
  by_contra hij
  rcases Nat.lt_or_gt_of_ne hij with hlt | hlt
  · exact hne i j hlt (by simpa using hjl) (hi'.trans hj'.symm)
  · exact hne j i hlt (by simpa using hil) (hj'.trans hi'.symm)

theorem Storage.put_file_eq_set {sfs : List StorageFile} (hd : Storage.distinct_files sfs)
    {i : Nat} {sf : StorageFile} (hi : sfs[i]? = some sf) (nsf : StorageFile)
    (hid : nsf.file_id = sf.file_id) : Storage.put_file sfs i nsf = sfs.set i nsf := by
  unfold Storage.put_file
  apply List.ext_getElem?
  intro k
  rw [List.getElem?_map]
  cases hk : (sfs.set i nsf)[k]? with
  | none => rfl
  | some e =>
    simp only [Option.map_some']
    congr 1
    rw [List.getElem?_set] at hk
    by_cases hik : i = k
    · subst hik
      have hil := (List.getElem?_eq_some_iff.mp hi).1
      rw [if_pos rfl, if_pos hil] at hk
      have : e = nsf := (Option.some.inj hk).symm
      subst this
      split <;> rfl
    · rw [if_neg hik] at hk
      rw [if_neg]
      rintro ⟨_, _, he⟩
      exact hik (hd.index_eq hi hk (by rw [he, hid]))

theorem Storage.put_file_data {sfs : List StorageFile} (hd : Storage.distinct_files sfs)
    {i : Nat} {sf : StorageFile} (hi : sfs[i]? = some sf) (d : List Char) :
    Storage.put_file sfs i { sf with data := d } = sfs.set i { sf with data := d } :=
  Storage.put_file_eq_set hd hi _ rfl

theorem Storage.put_file_length (sfs : List StorageFile) (i : Nat) (nsf : StorageFile) :
    (Storage.put_file sfs i nsf).length = sfs.length := by
  simp [Storage.put_file]

theorem Storage.put_file_attrs (sfs : List StorageFile) (j : Nat) (sf0 nsf : StorageFile)
    (hj : sfs[j]? = some sf0) (hn : nsf = { sf0 with data := nsf.data }) (i : Nat)
    (sf : StorageFile) (hi : sfs[i]? = some sf) :
    ∃ sf' : StorageFile, (Storage.put_file sfs j nsf)[i]? = some sf' ∧
      sf' = { sf with data := sf'.data } := by
  have hil := (List.getElem?_eq_some_iff.mp hi).1
  unfold Storage.put_file
  rw [List.getElem?_map, List.getElem?_set]
  by_cases hji : j = i
  · subst hji
    rw [if_pos rfl, if_pos hil]
    have : sf0 = sf := Option.some.inj (hj.symm.trans hi)
    subst this
    simp only [Option.map_some']
    split
    · exact ⟨_, rfl, by rw [hn]⟩
    · exact ⟨_, rfl, hn⟩
  · rw [if_neg hji, hi]
    simp only [Option.map_some']
    split
    · exact ⟨_, rfl, rfl⟩
    · exact ⟨_, rfl, rfl⟩

theorem Storage.distinct_files_of_attrs {sfs sfs' : List StorageFile}
    (hd : Storage.distinct_files sfs) (hlen : sfs'.length = sfs.length)
    (hattrs : ∀ (i : Nat) (sf sf' : StorageFile), sfs[i]? = some sf → sfs'[i]? = some sf' →
      sf' = { sf with data := sf'.data }) : Storage.distinct_files sfs' := by
  have e : sfs'.map (fun sf => sf.file_id) = sfs.map (fun sf => sf.file_id) := by
    apply List.ext_getElem?
    intro k
    rw [List.getElem?_map, List.getElem?_map]
    by_cases hk : k < sfs.length
    · have h0 : sfs[k]? = some sfs[k] := List.getElem?_eq_getElem hk
      have h1 : sfs'[k]? = some sfs'[k] := List.getElem?_eq_getElem (by omega)
      have a := hattrs k _ _ h0 h1
      rw [h0, h1]
      simp only [Option.map_some']
      rw [a]
    · rw [List.getElem?_eq_none (by omega), List.getElem?_eq_none (by omega)]
  unfold Storage.distinct_files
  rw [e]
  exact hd

theorem Storage.opened_with_attrs (sfs : List StorageFile) (nsf : StorageFile) :
    Storage.opened_with sfs nsf = { nsf with data := (Storage.opened_with sfs nsf).data } := by
  unfold Storage.opened_with
  split
  · split <;> rfl
  · rfl

theorem Storage.opened_with_nil (nsf : StorageFile) : Storage.opened_with [] nsf = nsf := rfl

/-! ### One positional write into one file -/

theorem pwrite_ok (fd : Int) (data buf : List Char) (n off : Int) (hfd : 0 ≤ fd)
    (hoff : 0 ≤ off) (hn : 0 ≤ n) (hle : n ≤ buf.length) :
    pwrite fd data buf n off
      = (n, if n = 0 then data else overwrite data off.toNat (buf.take n.toNat)) := by
  unfold pwrite
  rw [if_neg (by omega), if_neg (by omega), if_neg (by omega)]
  split <;> simp_all

theorem pwrite_fail (fd : Int) (data buf : List Char) (n off : Int) (hfd : fd < 0) :
    pwrite fd data buf n off = (-1, data) := by
  unfold pwrite
  rw [if_pos hfd]

theorem List.getElem?_set_cases {α : Type} {l : List α} {i j : Nat} {a x y : α}
    (h : (l.set j a)[i]? = some x) (hj : l[j]? = some y) :
    (i = j ∧ x = a ∧ l[i]? = some y) ∨ (i ≠ j ∧ l[i]? = some x) := by
  rw [List.getElem?_set] at h
  by_cases hij : j = i
  · subst hij
    have hlt := (List.getElem?_eq_some_iff.mp hj).1
    rw [if_pos rfl, if_pos hlt] at h
    exact Or.inl ⟨rfl, (Option.some.inj h).symm, hj⟩
  · rw [if_neg hij] at h
    exact Or.inr ⟨fun e => hij e.symm, h⟩

theorem Storage.Wrote_step (s : Storage) (hs : SortedContiguous s.sfs_) (j : Nat)
    (sf : StorageFile) (hj : s.sfs_[j]? = some sf) (offset : Int) (hlo : sf.start_ ≤ offset)
    (hhi : offset ≤ sf.end_) (bs : List Char) (hfit : offset + bs.length ≤ sf.end_ + 1)
    (l : Option Nat) :
    Storage.Wrote s
      { s with
        last_sf_ := l,
        sfs_ := s.sfs_.set j { sf with data := (if (bs.length : Int) = 0 then sf.data
          else overwrite sf.data (offset - sf.start_).toNat bs) } }
      bs offset := by
  have hjlt := (List.getElem?_eq_some_iff.mp hj).1
  constructor
  · rfl
  · simp
  · intro i sf0 sf' h0 h'
    rcases List.getElem?_set_cases h' hj with ⟨rfl, rfl, h1⟩ | ⟨_, h1⟩
    · have : sf0 = sf := Option.some.inj (h0.symm.trans h1)
      subst this; rfl
    · have : sf0 = sf' := Option.some.inj (h0.symm.trans h1)
      subst this; rfl
  · intro k i sf' hk h' h1 h2
    rcases List.getElem?_set_cases h' hj with ⟨rfl, rfl, _⟩ | ⟨hne, hi⟩
    · simp only at h1 h2 ⊢
      rw [if_neg (by omega), overwrite_getElem?_mid _ _ _ _ (by omega) (by omega)]
      congr 1
      omega
    · exact absurd (hs.unique hi hj ⟨h1, h2⟩ ⟨by omega, by omega⟩) hne
  · intro i p sf0 sf' h0 h' hp hout
    rcases List.getElem?_set_cases h' hj with ⟨rfl, rfl, h1⟩ | ⟨_, h1⟩
    · have : sf0 = sf := Option.some.inj (h0.symm.trans h1)
      subst this
      simp only
      split
      · rfl
      · rcases hout with hout | hout
        · exact overwrite_getElem?_lt _ _ _ _ (by omega) hp
        · exact overwrite_getElem?_ge _ _ _ _ (by omega)
    · have : sf0 = sf' := Option.some.inj (h0.symm.trans h1)
      subst this; rfl
  · intro i sf0 h0 hout
    simp only
    by_cases hij : j = i
    · subst hij
      have : sf0 = sf := Option.some.inj (h0.symm.trans hj)
      subst this
      have hzero : bs.length = 0 := by
        by_contra hne
        exact hout 0 (by omega) ⟨by simpa using hlo, by simpa using hhi⟩
      rw [List.getElem?_set, if_pos rfl, if_pos hjlt, if_pos (by omega)]
    · rw [List.getElem?_set_ne hij]
      exact h0
  · intro i sf0 sf' h0 h'
    rcases List.getElem?_set_cases h' hj with ⟨rfl, rfl, h1⟩ | ⟨_, h1⟩
    · have : sf0 = sf := Option.some.inj (h0.symm.trans h1)
      subst this
      simp only
      split
      · exact le_refl _
      · rw [overwrite_length]; omega
    · have : sf0 = sf' := Option.some.inj (h0.symm.trans h1)
      subst this; exact le_refl _
  · intro i sf0 sf' h0 h' hsz
    rcases List.getElem?_set_cases h' hj with ⟨rfl, rfl, h1⟩ | ⟨_, h1⟩
    · have : sf0 = sf := Option.some.inj (h0.symm.trans h1)
      subst this
      simp only
      split
      · rfl
      · rw [overwrite_length]; omega
    · have : sf0 = sf' := Option.some.inj (h0.symm.trans h1)
      subst this; rfl

theorem Storage.Wrote_trans {s s2 s3 : Storage} {b1 b2 : List Char} {offset : Int}
    (h1 : Storage.Wrote s s2 b1 offset) (h2 : Storage.Wrote s2 s3 b2 (offset + b1.length)) :
    Storage.Wrote s s3 (b1 ++ b2) offset := by
  have mid : ∀ (i : Nat) (sf3 : StorageFile), s3.sfs_[i]? = some sf3 →
      ∃ sf2 sf, s2.sfs_[i]? = some sf2 ∧ s.sfs_[i]? = some sf := by
    intro i sf3 h3
    have hlt := (List.getElem?_eq_some_iff.mp h3).1
    have e2 := h2.length
    have e1 := h1.length
    exact ⟨_, _, List.getElem?_eq_getElem (by omega), List.getElem?_eq_getElem (by omega)⟩
  constructor
  · have e1 := h1.same
    have e2 := h2.same
    rw [e2, e1]
  · rw [h2.length, h1.length]
  · intro i sf sf3 h0 h3
    obtain ⟨sf2, sf', hm, h0'⟩ := mid i sf3 h3
    have a2 := h2.attrs i sf2 sf3 hm h3
    have a1 := h1.attrs i sf sf2 h0 hm
    rw [a2, a1]
  · intro k i sf3 hk h3 hlo hhi
    obtain ⟨sf2, sf, hm, h0⟩ := mid i sf3 h3
    have a2 := h2.attrs i sf2 sf3 hm h3
    have hst : sf3.start_ = sf2.start_ := by rw [a2]
    have hen : sf3.end_ = sf2.end_ := by rw [a2]
    by_cases hkl : k < b1.length
    · have st := h1.stored k i sf2 hkl hm (by omega) (by omega)
      rw [List.getElem?_append_left hkl, ← st, hst]
      have hp : (offset + k - sf2.start_).toNat < sf2.data.length := by
        by_contra hcon
        rw [List.getElem?_eq_none (by omega), List.getElem?_eq_getElem hkl] at st
        exact absurd st (by simp)
      exact h2.kept i _ sf2 sf3 hm h3 hp (Or.inl (by omega))
    · simp only [List.length_append] at hk
      have st := h2.stored (k - b1.length) i sf3 (by omega) h3 (by omega) (by omega)
      rw [List.getElem?_append_right (by omega), ← st]
      congr 1
      omega
  · intro i p sf sf3 h0 h3 hp hout
    obtain ⟨sf2, sf', hm, _⟩ := mid i sf3 h3
    have a1 := h1.attrs i sf sf2 h0 hm
    have hst : sf2.start_ = sf.start_ := by rw [a1]
    have g1 := h1.grows i sf sf2 h0 hm
    simp only [List.length_append, Nat.cast_add] at hout
    rw [h2.kept i p sf2 sf3 hm h3 (by omega) (by omega)]
    exact h1.kept i p sf sf2 h0 hm hp (by omega)
  · intro i sf h0 hout
    simp only [List.length_append] at hout
    have u1 := h1.untouched i sf h0 (fun k hk => hout k (by omega))
    refine h2.untouched i sf u1 (fun k hk hc => hout (b1.length + k) (by omega) ?_)
    push_cast
    omega
  · intro i sf sf3 h0 h3
    obtain ⟨sf2, sf', hm, _⟩ := mid i sf3 h3
    exact le_trans (h1.grows i sf sf2 h0 hm) (h2.grows i sf2 sf3 hm h3)
  · intro i sf sf3 h0 h3 hsz
    obtain ⟨sf2, sf', hm, _⟩ := mid i sf3 h3
    have a1 := h1.attrs i sf sf2 h0 hm
    have hst : sf2.start_ = sf.start_ := by rw [a1]
    have hen : sf2.end_ = sf.end_ := by rw [a1]
    have k1 := h1.size_kept i sf sf2 h0 hm hsz
    rw [h2.size_kept i sf2 sf3 hm h3 (by omega), k1]

theorem Storage.Wrote.forward {s s' : Storage} {buf : List Char} {offset : Int}
    (hw : s.Wrote s' buf offset) (i : Nat) (sf : StorageFile) (hi : s.sfs_[i]? = some sf) :
    ∃ sf', s'.sfs_[i]? = some sf' ∧ sf' = { sf with data := sf'.data } := by
  have hlt := (List.getElem?_eq_some_iff.mp hi).1
  have hl := hw.length
  have hi' : s'.sfs_[i]? = some s'.sfs_[i] := List.getElem?_eq_getElem (by omega)
  exact ⟨_, hi', hw.attrs i sf _ hi hi'⟩

theorem Storage.Wrote.backward {s s' : Storage} {buf : List Char} {offset : Int}
    (hw : s.Wrote s' buf offset) (i : Nat) (sf' : StorageFile) (hi' : s'.sfs_[i]? = some sf') :
    ∃ sf, s.sfs_[i]? = some sf ∧ sf' = { sf with data := sf'.data } := by
  have hlt := (List.getElem?_eq_some_iff.mp hi').1
  have hl := hw.length
  have hi : s.sfs_[i]? = some s.sfs_[i] := List.getElem?_eq_getElem (by omega)
  exact ⟨_, hi, hw.attrs i _ sf' hi hi'⟩

theorem SortedContiguous.of_attrs {sfs sfs' : List StorageFile} (hs : SortedContiguous sfs)
    (hlen : sfs'.length = sfs.length)
    (hattrs : ∀ (i : Nat) (sf sf' : StorageFile), sfs[i]? = some sf → sfs'[i]? = some sf' →
      sf' = { sf with data := sf'.data }) : SortedContiguous sfs' := by
  have back : ∀ (i : Nat) (sf' : StorageFile), sfs'[i]? = some sf' →
      ∃ sf, sfs[i]? = some sf ∧ sf.start_ = sf'.start_ ∧ sf.end_ = sf'.end_ := by
    intro i sf' h'
    have hlt := (List.getElem?_eq_some_iff.mp h').1
    have h0 : sfs[i]? = some sfs[i] := List.getElem?_eq_getElem (by omega)
    have a := hattrs i _ sf' h0 h'
    exact ⟨_, h0, by rw [a], by rw [a]⟩
  constructor
  · intro i sf' h'
    obtain ⟨sf, h0, e1, e2⟩ := back i sf' h'
    have := hs.sized i sf h0
    omega
  · intro i a' b' ha' hb'
    obtain ⟨a, ha, e1, e2⟩ := back i a' ha'
    obtain ⟨b, hb, e3, e4⟩ := back (i + 1) b' hb'
    have := hs.contiguous i a b ha hb
    omega

/-! ### WriteBuffer -/

theorem Storage.WriteBuffer_fail (sf : StorageFile) (buf : List Char) (offset : Int)
    (hfd : sf.fd_ < 0) : Storage.WriteBuffer sf buf offset = ((-1, -1), sf) := by
  unfold Storage.WriteBuffer StorageFile.Write
  simp only [pwrite_fail _ _ _ _ _ hfd]
  split <;> simp

theorem Storage.WriteBuffer_fits (sf : StorageFile) (buf : List Char) (offset : Int)
    (hfd : 0 ≤ sf.fd_) (hlo : sf.start_ ≤ offset) (hfit : offset + buf.length ≤ sf.end_ + 1) :
    Storage.WriteBuffer sf buf offset
      = (((buf.length : Int), 0), { sf with data := (if (buf.length : Int) = 0 then sf.data
          else overwrite sf.data (offset - sf.start_).toNat buf) }) := by
  unfold Storage.WriteBuffer StorageFile.Write
  simp only [StorageFile.GetEnd, StorageFile.GetStart]
  rw [if_pos hfit, pwrite_ok _ _ _ _ _ hfd (by omega) (by omega) (le_refl _)]
  simp only [Int.toNat_ofNat, List.take_length]
  rw [if_neg (by omega)]

theorem Storage.WriteBuffer_split (sf : StorageFile) (buf : List Char) (offset : Int)
    (hfd : 0 ≤ sf.fd_) (hlo : sf.start_ ≤ offset) (hhi : offset ≤ sf.end_)
    (hbig : ¬ offset + buf.length ≤ sf.end_ + 1) :
    Storage.WriteBuffer sf buf offset
      = ((sf.end_ + 1 - offset, (buf.length : Int) - (sf.end_ + 1 - offset)),
        { sf with data :=
          (if (((buf.take (sf.end_ + 1 - offset).toNat).length : Nat) : Int) = 0 then sf.data
          else overwrite sf.data (offset - sf.start_).toNat
            (buf.take (sf.end_ + 1 - offset).toNat)) }) := by
  unfold Storage.WriteBuffer StorageFile.Write
  simp only [StorageFile.GetEnd, StorageFile.GetStart]
  rw [if_neg hbig, pwrite_ok _ _ _ _ _ hfd (by omega) (by omega) (by omega)]
  simp only
  rw [if_neg (by omega), if_neg (by omega), if_neg]
  simp only [List.length_take]
  omega

/-! ### Multi-file Write -/

theorem SortedContiguous.exists_containing {sfs : List StorageFile}
    (hs : SortedContiguous sfs) (o : Int) (b : StorageFile)
    (hb : sfs[sfs.length - 1]? = some b) (hob : o ≤ b.end_) :
    ∀ (d i : Nat) (a : StorageFile), sfs.length - i ≤ d → sfs[i]? = some a → a.start_ ≤ o →
      ∃ (k : Nat) (sf : StorageFile), sfs[k]? = some sf ∧ sf.start_ ≤ o ∧ o ≤ sf.end_ := by
  intro d
  induction d with
  | zero =>
    intro i a hd ha
    have := (List.getElem?_eq_some_iff.mp ha).1
    omega
  | succ d ih =>
    intro i a hd ha hao
    have hilt := (List.getElem?_eq_some_iff.mp ha).1
    by_cases hoe : o ≤ a.end_
    · exact ⟨i, a, ha, hao, hoe⟩
    · by_cases hnext : i + 1 < sfs.length
      · have hn : sfs[i + 1]? = some sfs[i + 1] := List.getElem?_eq_getElem hnext
        have hc := hs.contiguous i a _ ha hn
        exact ih (i + 1) _ (by omega) hn (by omega)
      · have hi : i = sfs.length - 1 := by omega
        rw [← hi, ha] at hb
        have : a = b := Option.some.inj hb
        subst this
        omega

theorem Storage.WriteFuel_complete (h : Host) :
    ∀ (fuel : Nat) (s : Storage) (buf : List Char) (offset : Int),
      s.state_ = STOR_STATE_MFSPEC_COMPLETE → SortedContiguous s.sfs_ →
      Storage.distinct_files s.sfs_ → buf.length < fuel →
      ∃ r s', Storage.WriteFuel h fuel s buf offset = some (r, s') ∧
        (0 ≤ r → r = buf.length ∧ Storage.Wrote s s' buf offset ∧
          (∃ (j : Nat) (sf : StorageFile), s.sfs_[j]? = some sf ∧ sf.start_ ≤ offset ∧ offset ≤ sf.end_ ∧ 0 ≤ sf.fd_) ∧
          (∀ (i k : Nat) (sf : StorageFile), s.sfs_[i]? = some sf → k < buf.length →
            sf.start_ ≤ offset + k → offset + k ≤ sf.end_ → 0 ≤ sf.fd_)) ∧
        ((∀ (i : Nat) (sf : StorageFile), s.sfs_[i]? = some sf → 0 ≤ sf.fd_) →
          (∃ (j : Nat) (sf : StorageFile), s.sfs_[j]? = some sf ∧ sf.start_ ≤ offset ∧ offset ≤ sf.end_) →
          (∃ b : StorageFile, s.sfs_[s.sfs_.length - 1]? = some b ∧ offset + buf.length ≤ b.end_ + 1) →
          0 ≤ r) := by
  intro fuel
  induction fuel with
  | zero => intro s buf offset _ _ _ hf; omega
  | succ fuel ih =>
    intro s buf offset hst hs hdf hfuel
    rw [Storage.WriteFuel]
    simp only [hst]
    cases hsel : s.select_sf offset with
    | none =>
      refine ⟨-1, s, rfl, fun hr => absurd hr (by omega), ?_⟩
      rintro _ ⟨j, sf, hj, hlo, hhi⟩ _
      obtain ⟨s1, h1⟩ := s.select_sf_complete hs offset j sf hj hlo hhi
      rw [hsel] at h1
      exact absurd h1 (by simp)
    | some p =>
      obtain ⟨j, s1⟩ := p
      obtain ⟨⟨sf, hj, hlo, hhi⟩, hs1⟩ := s.select_sf_sound offset j s1 hsel
      generalize s1.last_sf_ = l at hs1
      subst hs1
      simp only [hj]
      by_cases hfd : sf.fd_ < 0
      · rw [Storage.WriteBuffer_fail sf buf offset hfd]
        simp only [if_true]
        refine ⟨-1, _, rfl, fun hr => absurd hr (by omega), ?_⟩
        intro hall _ _
        have := hall j sf hj
        omega
      · have hfd' : 0 ≤ sf.fd_ := by omega
        by_cases hfit : offset + buf.length ≤ sf.end_ + 1
        · rw [Storage.WriteBuffer_fits sf buf offset hfd' hlo hfit]
          simp only
          rw [if_neg (by omega), if_neg (by omega), Storage.put_file_data hdf hj]
          refine ⟨_, _, rfl, fun _ => ⟨rfl, ?_, ⟨j, sf, hj, hlo, hhi, hfd'⟩, ?_⟩, fun _ _ _ => by omega⟩
          · exact Storage.Wrote_step s hs j sf hj offset hlo hhi buf hfit l
          · intro i k sfi hi hk h1 h2
            have : i = j := hs.unique hi hj ⟨h1, h2⟩ ⟨by omega, by omega⟩
            subst this
            rw [hj] at hi
            rw [← Option.some.inj hi]
            exact hfd'
        · rw [Storage.WriteBuffer_split sf buf offset hfd' hlo hhi hfit]
          simp only
          rw [if_neg (by omega), if_pos (by omega), Storage.put_file_data hdf hj]
          have hlen : ((buf.take (sf.end_ + 1 - offset).toNat).length : Int)
              = sf.end_ + 1 - offset := by
            simp only [List.length_take]
            omega
          have hw := Storage.Wrote_step s hs j sf hj offset hlo hhi
            (buf.take (sf.end_ + 1 - offset).toNat) (by omega) l
          have hs2 : SortedContiguous (s.sfs_.set j { sf with data :=
              (if (((buf.take (sf.end_ + 1 - offset).toNat).length : Nat) : Int) = 0 then sf.data
              else overwrite sf.data (offset - sf.start_).toNat
                (buf.take (sf.end_ + 1 - offset).toNat)) }) :=
            hs.of_attrs hw.length hw.attrs
          obtain ⟨r', s3, hW, hsucc, hcan⟩ := ih
            { s with last_sf_ := l, sfs_ := s.sfs_.set j { sf with data :=
              (if (((buf.take (sf.end_ + 1 - offset).toNat).length : Nat) : Int) = 0 then sf.data
              else overwrite sf.data (offset - sf.start_).toNat
                (buf.take (sf.end_ + 1 - offset).toNat)) } }
            (buf.drop (sf.end_ + 1 - offset).toNat) (offset + (sf.end_ + 1 - offset))
            hst hs2 (Storage.distinct_files_of_attrs hdf hw.length hw.attrs)
            (by simp only [List.length_drop]; omega)
          rw [hW]
          simp only
          have fwd : ∀ (i : Nat) (sfi : StorageFile), s.sfs_[i]? = some sfi →
              ∃ sfi', (s.sfs_.set j { sf with data :=
              (if (((buf.take (sf.end_ + 1 - offset).toNat).length : Nat) : Int) = 0 then sf.data
              else overwrite sf.data (offset - sf.start_).toNat
                (buf.take (sf.end_ + 1 - offset).toNat)) })[i]? = some sfi' ∧
                sfi'.start_ = sfi.start_ ∧ sfi'.end_ = sfi.end_ ∧ sfi'.fd_ = sfi.fd_ := by
            intro i sfi hi
            have hlt := (List.getElem?_eq_some_iff.mp hi).1
            have hl := hw.length
            simp only at hl
            have hi' := List.getElem?_eq_getElem (l := (s.sfs_.set j { sf with data :=
              (if (((buf.take (sf.end_ + 1 - offset).toNat).length : Nat) : Int) = 0 then sf.data
              else overwrite sf.data (offset - sf.start_).toNat
                (buf.take (sf.end_ + 1 - offset).toNat)) })) (n := i) (by omega)
            have a := hw.attrs i sfi _ hi hi'
            exact ⟨_, hi', by rw [a], by rw [a], by rw [a]⟩
          by_cases hr' : r' < 0
          · rw [if_pos hr']
            refine ⟨r', s3, rfl, fun hr => absurd hr (by omega), ?_⟩
            intro hall _ hend
            refine absurd (hcan ?_ ?_ ?_) (by omega)
            · intro i sfi' hi'
              have hlt := (List.getElem?_eq_some_iff.mp hi').1
              simp only [List.length_set] at hlt
              obtain ⟨sfi'', hi'', _, _, e⟩ := fwd i _ (List.getElem?_eq_getElem hlt)
              simp only at hi'
              rw [hi''] at hi'
              rw [← Option.some.inj hi', e]
              exact hall i _ (List.getElem?_eq_getElem hlt)
            · obtain ⟨b, hb, hbe⟩ := hend
              have hjn := hs.sized j sf hj
              obtain ⟨k, sfk, hk, hk1, hk2⟩ := hs.exists_containing
                (offset + (sf.end_ + 1 - offset)) b hb (by omega) (s.sfs_.length - j) j sf
                (le_refl _) hj (by omega)
              obtain ⟨sfk', hk', e1, e2, _⟩ := fwd k sfk hk
              exact ⟨k, sfk', hk', by omega, by omega⟩
            · obtain ⟨b, hb, hbe⟩ := hend
              have hblt := (List.getElem?_eq_some_iff.mp hb).1
              obtain ⟨b', hb', e1, e2, _⟩ := fwd _ b hb
              refine ⟨b', ?_, ?_⟩
              · simp only [List.length_set]
                exact hb'
              · simp only [List.length_drop]
                omega
          · rw [if_neg hr']
            refine ⟨_, s3, rfl, fun _ => ?_, fun _ _ _ => by omega⟩
            obtain ⟨hr'eq, hw2, _, htouch⟩ := hsucc (by omega)
            refine ⟨?_, ?_, ⟨j, sf, hj, hlo, hhi, hfd'⟩, ?_⟩
            · rw [hr'eq]
              simp only [List.length_drop]
              omega
            · have hoff : offset + (sf.end_ + 1 - offset)
                  = offset + ((buf.take (sf.end_ + 1 - offset).toNat).length : Int) := by omega
              rw [hoff] at hw2
              have := Storage.Wrote_trans hw hw2
              rwa [List.take_append_drop] at this
            · intro i k sfi hi hk h1 h2
              by_cases hkh : (k : Int) < sf.end_ + 1 - offset
              · have : i = j := hs.unique hi hj ⟨h1, h2⟩ ⟨by omega, by omega⟩
                subst this
                rw [hj] at hi
                rw [← Option.some.inj hi]
                exact hfd'
              · obtain ⟨sfi', hi', e1, e2, e3⟩ := fwd i sfi hi
                rw [← e3]
                refine htouch i (k - (sf.end_ + 1 - offset).toNat) sfi' hi' ?_ ?_ ?_
                · simp only [List.length_drop]
                  omega
                · omega
                · omega

theorem scenario_complete_layout : scenario_complete.MultiFileComplete := by
  refine ⟨rfl, ⟨?_, ?_⟩, ?_, ⟨_, rfl, rfl⟩, ?_⟩
  · intro i sf hi
    match i with
    | 0 | 1 | 2 =>
      simp only [scenario_complete, List.getElem?_cons_zero, List.getElem?_cons_succ,
        Option.some.injEq] at hi
      subst hi
      decide
    | n + 3 => simp [scenario_complete] at hi
  · intro i a b ha hb
    match i with
    | 0 | 1 =>
      simp only [scenario_complete, List.getElem?_cons_zero, List.getElem?_cons_succ,
        Option.some.injEq] at ha hb
      subst ha hb
      decide
    | n + 2 => simp [scenario_complete] at hb
  · intro sf h0
    simp only [scenario_complete, List.getElem?_cons_zero, Option.some.injEq] at h0
    subst h0
    rfl
  · intro k hk
    simp [scenario_complete, scenario_init] at hk

theorem scenario_twice_layout : scenario_twice.MultiFileComplete := by
  refine ⟨rfl, ⟨?_, ?_⟩, ?_, ⟨_, rfl, rfl⟩, ?_⟩
  · intro i sf hi
    match i with
    | 0 | 1 | 2 =>
      simp only [scenario_twice, List.getElem?_cons_zero, List.getElem?_cons_succ,
        Option.some.injEq] at hi
      subst hi
      decide
    | n + 3 => simp [scenario_twice] at hi
  · intro i a b ha hb
    match i with
    | 0 | 1 =>
      simp only [scenario_twice, List.getElem?_cons_zero, List.getElem?_cons_succ,
        Option.some.injEq] at ha hb
      subst ha hb
      decide
    | n + 2 => simp [scenario_twice] at hb
  · intro sf h0
    simp only [scenario_twice, List.getElem?_cons_zero, Option.some.injEq] at h0
    subst h0
    rfl
  · intro k hk
    simp only [scenario_twice, scenario_init, Option.some.injEq] at hk
    subst hk
    decide

/-- C1 (as stated, refuted), at two inputs. In the three-file Storage `scenario_complete`
(sorted, contiguous, every file open, total size 51) the empty chunk at offset 51 meets
`offset + nbyte ≤ 51`, yet `Write` returns `-1` instead of `nbyte = 0`: no file manages
offset 51. In `scenario_twice`, which the manifest `manifest_twice` leaves and in which the
entries on `[46, 48]` and `[49, 51]` have the same file open, the chunk `XYZabc` at offset 46
returns 6, but the file of entry 1 then holds `abc`: `buf[0]` is not stored at position 0 of
the file that manages offset 46. -/
theorem Storage.Write_multifile_empty_at_end_fails :
    (scenario_complete.MultiFileComplete ∧ (∀ sf ∈ scenario_complete.sfs_, 0 ≤ sf.fd_) ∧
      (0 : Int) ≤ 51 ∧
      (51 : Int) + (([] : List Char).length : Int) ≤ scenario_complete.total_size_from_spec_ ∧
      (scenario_complete.Write scenario_host [] 51).map Prod.fst = some (-1)) ∧
    (Storage.Write scenario_host scenario_init manifest_twice 0 = some (46, scenario_twice) ∧
      scenario_twice.MultiFileComplete ∧ (∀ sf ∈ scenario_twice.sfs_, 0 ≤ sf.fd_) ∧
      (0 : Int) ≤ 46 ∧
      (46 : Int) + (("XYZabc".toList).length : Int) ≤ scenario_twice.total_size_from_spec_ ∧
      (scenario_twice.Write scenario_host "XYZabc".toList 46).map
          (fun r => (r.1, r.2.sfs_.map (fun sf => (sf.start_, sf.end_, sf.data))))
        = some (6, [(0, 45, manifest_twice), (46, 48, "abc".toList),
            (49, 51, "abc".toList)])) :=
  ⟨⟨scenario_complete_layout, by decide, by decide, by decide, by decide⟩,
    by decide!, scenario_twice_layout, by decide, by decide, by decide, by decide⟩

theorem Storage.MultiFileComplete.exists_file {s : Storage} (hc : s.MultiFileComplete)
    (offset : Int) (h0 : 0 ≤ offset) (hlt : offset < s.total_size_from_spec_) :
    ∃ (j : Nat) (sf : StorageFile), s.sfs_[j]? = some sf ∧ sf.start_ ≤ offset ∧
      offset ≤ sf.end_ := by
  obtain ⟨b, hb, htot⟩ := hc.total
  rw [List.getLast?_eq_getElem?] at hb
  have hblt := (List.getElem?_eq_some_iff.mp hb).1
  have h0' : s.sfs_[0]? = some s.sfs_[0] := List.getElem?_eq_getElem (by omega)
  have hf := hc.first _ h0'
  exact hc.layout.exists_containing offset b hb (by omega) s.sfs_.length 0 _ (by omega) h0'
    (by omega)

/-- C1 (amended): in state MFSPEC_COMPLETE with `sfs_` sorted and contiguous, every file
open and no two entries on the same file, for every offset with
`0 ≤ offset < total_size_from_spec_` and every chunk with
`offset + nbyte ≤ total_size_from_spec_`, `Write` returns `nbyte`; for every `k < nbyte`
exactly one file has `start ≤ offset + k ≤ end`, and afterwards that file holds `buf[k]` at the
file-local position `offset + k - start`; the other characters of the files, and the files
that manage none of the offsets of the chunk, are unchanged (`Wrote.kept`,
`Wrote.untouched`): a chunk across `k` boundaries changes the `k + 1` files it meets and no
other. -/
theorem Storage.Write_multifile_partition (h : Host) (s : Storage) (buf : List Char)
    (offset : Int) (hc : s.MultiFileComplete) (hfd : ∀ sf ∈ s.sfs_, 0 ≤ sf.fd_)
    (hdf : Storage.distinct_files s.sfs_)
    (h0 : 0 ≤ offset) (hlt : offset < s.total_size_from_spec_)
    (hle : offset + buf.length ≤ s.total_size_from_spec_) :
    ∃ s', s.Write h buf offset = some ((buf.length : Int), s') ∧
      s.Wrote s' buf offset ∧
      ∀ k : Nat, k < buf.length → ∃! j : Nat, ∃ sf' : StorageFile,
        s'.sfs_[j]? = some sf' ∧ sf'.start_ ≤ offset + k ∧ offset + k ≤ sf'.end_ ∧
        sf'.data[(offset + k - sf'.start_).toNat]? = buf[k]? := by
  obtain ⟨r, s', hW, hsucc, hcan⟩ := Storage.WriteFuel_complete h (buf.length + 3) s buf offset
    hc.state hc.layout hdf (by omega)
  obtain ⟨b, hb, htot⟩ := hc.total
  rw [List.getLast?_eq_getElem?] at hb
  have hr : 0 ≤ r := hcan (fun i sf hi => hfd sf (List.getElem?_mem hi))
    (hc.exists_file offset h0 hlt) ⟨b, hb, by omega⟩
  obtain ⟨hreq, hw, _, _⟩ := hsucc hr
  subst hreq
  have hs' : SortedContiguous s'.sfs_ := hc.layout.of_attrs hw.length hw.attrs
  refine ⟨s', hW, hw, ?_⟩
  intro k hk
  obtain ⟨j, sf, hj, h1, h2⟩ := hc.exists_file (offset + k) (by omega) (by omega)
  obtain ⟨sf', hj', e⟩ := hw.forward j sf hj
  have e1 : sf'.start_ = sf.start_ := by rw [e]
  have e2 : sf'.end_ = sf.end_ := by rw [e]
  refine ⟨j, ⟨sf', hj', by omega, by omega,
    hw.stored k j sf' hk hj' (by omega) (by omega)⟩, ?_⟩
  rintro j' ⟨sf'', hj'', h1', h2', _⟩
  exact hs'.unique hj'' hj' ⟨h1', h2'⟩ ⟨by omega, by omega⟩

/-- C1 (amended) at the chunk "XYZab" written at offset 46 of `scenario_complete`, across the
boundary between `a.txt` and `b.txt`. -/
theorem Storage.Write_multifile_partition_witness :
    ∃ s', scenario_complete.Write scenario_host "XYZab".toList 46
        = some ((("XYZab".toList).length : Int), s') ∧
      scenario_complete.Wrote s' "XYZab".toList 46 ∧
      ∀ k : Nat, k < ("XYZab".toList).length → ∃! j : Nat, ∃ sf' : StorageFile,
        s'.sfs_[j]? = some sf' ∧ sf'.start_ ≤ 46 + k ∧ (46 : Int) + k ≤ sf'.end_ ∧
        sf'.data[((46 : Int) + k - sf'.start_).toNat]? = ("XYZab".toList)[k]? :=
  Storage.Write_multifile_partition scenario_host scenario_complete "XYZab".toList 46
    scenario_complete_layout (by decide) (by decide) (by decide) (by decide) (by decide)

theorem scenario_complete_write_XYZab : (scenario_complete.Write scenario_host "XYZab".toList 46).map
    (fun r => (r.1, r.2.sfs_.map (fun sf => sf.data)))
    = some (5, ["META-INF-multifilespec.txt 46\na.txt 3\nb.txt 2\n".toList, "XYZ".toList,
      "ab".toList]) := by decide

/-! ### Multi-file Read -/

theorem pread_ok (fd : Int) (data : List Char) (n : Nat) (off : Int) (hfd : 0 ≤ fd)
    (hoff : 0 ≤ off) :
    pread fd data n off
      = ((((data.drop off.toNat).take n).length : Int), (data.drop off.toNat).take n) := by
  unfold pread
  rw [if_neg (by omega), if_neg (by omega)]

theorem Storage.ReadFuel_complete :
    ∀ (fuel : Nat) (s : Storage) (nbyte : Nat) (offset : Int),
      s.state_ = STOR_STATE_MFSPEC_COMPLETE → SortedContiguous s.sfs_ →
      (∀ (i : Nat) (sf : StorageFile), s.sfs_[i]? = some sf →
        (sf.data.length : Int) = sf.end_ - sf.start_ + 1) →
      (∃ b : StorageFile, s.sfs_[s.sfs_.length - 1]? = some b ∧ s.ht_size = b.end_ + 1) →
      (∃ (j : Nat) (sf : StorageFile), s.sfs_[j]? = some sf ∧ sf.start_ ≤ offset ∧
        offset ≤ sf.end_ ∧ 0 ≤ sf.fd_) →
      (∀ (i k : Nat) (sf : StorageFile), s.sfs_[i]? = some sf → k < nbyte →
        sf.start_ ≤ offset + k → offset + k ≤ sf.end_ → 0 ≤ sf.fd_) →
      offset + nbyte ≤ s.ht_size → nbyte < fuel →
      ∃ out s', Storage.ReadFuel fuel s nbyte offset = some ((nbyte : Int), out, s') ∧
        s' = { s with last_sf_ := s'.last_sf_ } ∧ out.length = nbyte ∧
        ∀ (i k : Nat) (sf : StorageFile), s.sfs_[i]? = some sf → k < nbyte →
          sf.start_ ≤ offset + k → offset + k ≤ sf.end_ →
          out[k]? = sf.data[(offset + k - sf.start_).toNat]? := by
  intro fuel
  induction fuel with
  | zero => intro s nbyte offset _ _ _ _ _ _ _ hf; omega
  | succ fuel ih =>
    intro s nbyte offset hst hs hpre hht hcont hfds hle hfuel
    rw [Storage.ReadFuel]
    rw [if_neg (by rw [hst]; decide), if_neg (by rw [hst]; decide),
      if_neg (by rw [hst]; decide)]
    obtain ⟨j, sf, hj, hlo, hhi, hfd⟩ := hcont
    obtain ⟨s1, hsel⟩ := s.select_sf_complete hs offset j sf hj hlo hhi
    obtain ⟨_, hs1⟩ := s.select_sf_sound offset j s1 hsel
    generalize s1.last_sf_ = l at hs1
    subst hs1
    rw [hsel]
    simp only [hj]
    have hlenj := hpre j sf hj
    simp only [StorageFile.Read, StorageFile.GetStart]
    rw [pread_ok _ _ _ _ hfd (by omega)]
    simp only
    have hrd : (((sf.data.drop (offset - sf.start_).toNat).take nbyte).length : Int)
        = min (nbyte : Int) (sf.end_ + 1 - offset) := by
      simp only [List.length_take, List.length_drop]
      omega
    rw [if_neg (by omega)]
    have hget : ∀ k : Nat, k < ((sf.data.drop (offset - sf.start_).toNat).take nbyte).length →
        ((sf.data.drop (offset - sf.start_).toNat).take nbyte)[k]?
          = sf.data[(offset + k - sf.start_).toNat]? := by
      intro k hk
      simp only [List.length_take, List.length_drop] at hk
      rw [List.getElem?_take_of_lt (by omega), List.getElem?_drop]
      congr 1
      omega
    by_cases hfit : (nbyte : Int) ≤ sf.end_ + 1 - offset
    · rw [if_neg (by omega)]
      have hr : (((sf.data.drop (offset - sf.start_).toNat).take nbyte).length : Int) = nbyte := by
        omega
      refine ⟨_, _, by rw [hr], rfl, by omega, ?_⟩
      intro i k sfi hi hk h1 h2
      have : i = j := hs.unique hi hj ⟨h1, h2⟩ ⟨by omega, by omega⟩
      subst this
      rw [hj] at hi
      rw [← Option.some.inj hi]
      exact hget k (by omega)
    · obtain ⟨b, hb, hbe⟩ := hht
      rw [if_pos ⟨by omega, by omega⟩]
      have hsz := hs.sized j sf hj
      obtain ⟨j', sf', hj', hlo', hhi'⟩ := hs.exists_containing
        (offset + (sf.end_ + 1 - offset)) b hb (by omega) (s.sfs_.length - j) j sf
        (le_refl _) hj (by omega)
      have hr : (((sf.data.drop (offset - sf.start_).toNat).take nbyte).length : Int)
          = sf.end_ + 1 - offset := by omega
      rw [hr]
      obtain ⟨out2, s3, hR, hs3, hlen2, hout2⟩ := ih { s with last_sf_ := l }
        (nbyte - (sf.end_ + 1 - offset).toNat) (offset + (sf.end_ + 1 - offset)) hst hs hpre
        ⟨b, hb, hbe⟩
        ⟨j', sf', hj', hlo', hhi', hfds j' ((sf.end_ + 1 - offset).toNat) sf' hj' (by omega)
          (by omega) (by omega)⟩
        (fun i k sfi hi hk h1 h2 => hfds i (k + (sf.end_ + 1 - offset).toNat) sfi hi (by omega)
          (by omega) (by omega))
        (by show _ ≤ s.ht_size; omega) (by omega)
      rw [hR]
      simp only
      rw [if_neg (by omega)]
      have esum : sf.end_ + 1 - offset + ((nbyte - (sf.end_ + 1 - offset).toNat : Nat) : Int)
          = (nbyte : Int) := by omega
      rw [esum]
      refine ⟨(sf.data.drop (offset - sf.start_).toNat).take nbyte ++ out2, s3, rfl, ?_, ?_, ?_⟩
      · rw [hs3]
      · simp only [List.length_append, hlen2]
        omega
      · intro i k sfi hi hk h1 h2
        by_cases hkh : (k : Int) < sf.end_ + 1 - offset
        · have : i = j := hs.unique hi hj ⟨h1, h2⟩ ⟨by omega, by omega⟩
          subst this
          rw [hj] at hi
          rw [← Option.some.inj hi, List.getElem?_append_left (by omega)]
          exact hget k (by omega)
        · rw [List.getElem?_append_right (by omega)]
          have := hout2 i (k - (sf.end_ + 1 - offset).toNat) sfi hi (by omega) (by omega)
            (by omega)
          have e1 : k - ((sf.data.drop (offset - sf.start_).toNat).take nbyte).length
              = k - (sf.end_ + 1 - offset).toNat := by omega
          rw [e1, this]
          congr 1
          omega

/-! ### Write followed by Read -/

/-- C2 (as stated, refuted): the manifest `manifest_twice` lists `a.txt` twice, and `ParseSpec`
makes two entries, on `[46, 48]` and `[49, 51]`, that have the same file open. In the
Storage `scenario_twice` that it leaves (MFSPEC_COMPLETE, every file reserved to its size,
hash tree size 52) the Write of `XYZabc` at offset 46 returns 6, and the Read of 6 bytes at
offset 46 that follows returns 6 and yields `abcabc`: the bytes written through the second
entry have replaced those written through the first. -/
theorem Storage.Write_Read_shared_file :
    Storage.Write scenario_host scenario_init manifest_twice 0 = some (46, scenario_twice) ∧
    scenario_twice.MultiFileComplete ∧
    (∀ sf ∈ scenario_twice.sfs_, (sf.data.length : Int) = sf.GetSize) ∧
    scenario_twice.ht_size = scenario_twice.total_size_from_spec_ ∧
    (0 : Int) ≤ 46 ∧
    (46 : Int) + (("XYZabc".toList).length : Int) ≤ scenario_twice.total_size_from_spec_ ∧
    (scenario_twice.Write scenario_host "XYZabc".toList 46).map Prod.fst = some 6 ∧
    ((scenario_twice.Write scenario_host "XYZabc".toList 46).bind
        (fun r => r.2.Read ("XYZabc".toList).length 46)).map (fun r => (r.1, r.2.1))
      = some (6, "abcabc".toList) :=
  ⟨by decide!, scenario_twice_layout, by decide, by decide, by decide, by decide, by decide,
    by decide⟩

/-- C2 (amended): in state MFSPEC_COMPLETE (files sorted and contiguous from 0 to the total
size), with no two entries on the same file, every file reserved to its declared size and the
hash tree size equal to `total_size_from_spec_`, for `offset ≥ 0` and
`offset + nbyte ≤ total_size_from_spec_`, a `Write` of `buf` that returns a non-negative
result is followed by a `Read` of `nbyte` bytes at the same offset that returns `nbyte` and
yields exactly `buf`, whatever number of file boundaries the range crosses. -/
theorem Storage.Write_Read_roundtrip (h : Host) (s : Storage) (buf : List Char) (offset : Int)
    (hc : s.MultiFileComplete) (hdf : Storage.distinct_files s.sfs_)
    (hpre : ∀ sf ∈ s.sfs_, (sf.data.length : Int) = sf.GetSize)
    (hht : s.ht_size = s.total_size_from_spec_)
    (h0 : 0 ≤ offset) (hle : offset + buf.length ≤ s.total_size_from_spec_)
    (r : Int) (s' : Storage) (hW : s.Write h buf offset = some (r, s')) (hr : 0 ≤ r) :
    ∃ s'', s'.Read buf.length offset = some ((buf.length : Int), buf, s'') := by
  obtain ⟨r0, s0, hW0, hsucc, _⟩ := Storage.WriteFuel_complete h (buf.length + 3) s buf offset
    hc.state hc.layout hdf (by omega)
  unfold Storage.Write at hW
  rw [hW0] at hW
  simp only [Option.some.injEq, Prod.mk.injEq] at hW
  obtain ⟨rfl, rfl⟩ := hW
  obtain ⟨_, hw, ⟨j, sf, hj, hlo, hhi, hfd⟩, hfds⟩ := hsucc hr
  obtain ⟨b, hb, htot⟩ := hc.total
  rw [List.getLast?_eq_getElem?] at hb
  have hst' : s0.state_ = STOR_STATE_MFSPEC_COMPLETE := by rw [hw.same]; exact hc.state
  have hht' : s0.ht_size = s.ht_size := by rw [hw.same]
  have hs' : SortedContiguous s0.sfs_ := hc.layout.of_attrs hw.length hw.attrs
  obtain ⟨b', hb', eb⟩ := hw.forward _ b hb
  obtain ⟨sf', hj', ej⟩ := hw.forward j sf hj
  obtain ⟨out, s'', hR, _, hlen, hout⟩ := Storage.ReadFuel_complete (buf.length + 1) s0
    buf.length offset hst' hs'
    (by
      intro i sfi' hi'
      obtain ⟨sfi, hi, e⟩ := hw.backward i sfi' hi'
      have hp := hpre sfi (List.getElem?_mem hi)
      simp only [StorageFile.GetSize] at hp
      have hk := hw.size_kept i sfi sfi' hi hi' (by omega)
      have e1 : sfi'.start_ = sfi.start_ := by rw [e]
      have e2 : sfi'.end_ = sfi.end_ := by rw [e]
      omega)
    ⟨b', by rw [hw.length]; exact hb', by rw [hht', hht, htot, eb]⟩
    ⟨j, sf', hj', by rw [ej]; exact hlo, by rw [ej]; exact hhi, by rw [ej]; exact hfd⟩
    (by
      intro i k sfi' hi' hk h1 h2
      obtain ⟨sfi, hi, e⟩ := hw.backward i sfi' hi'
      have e1 : sfi'.start_ = sfi.start_ := by rw [e]
      have e2 : sfi'.end_ = sfi.end_ := by rw [e]
      have e3 : sfi'.fd_ = sfi.fd_ := by rw [e]
      rw [e3]
      exact hfds i k sfi hi hk (by omega) (by omega))
    (by rw [hht', hht]; exact hle) (by omega)
  have hob : out = buf := by
    apply List.ext_getElem?
    intro k
    by_cases hk : k < buf.length
    · have hkt : offset + k ≤ b.end_ := by omega
      have hjs := hc.layout.sized j sf hj
      obtain ⟨i, sfi, hi, h1, h2⟩ := hc.exists_file (offset + k) (by omega) (by omega)
      obtain ⟨sfi', hi', e⟩ := hw.forward i sfi hi
      have e1 : sfi'.start_ = sfi.start_ := by rw [e]
      have e2 : sfi'.end_ = sfi.end_ := by rw [e]
      rw [hout i k sfi' hi' hk (by omega) (by omega)]
      exact hw.stored k i sfi' hk hi' (by omega) (by omega)
    · rw [List.getElem?_eq_none (by omega), List.getElem?_eq_none (by omega)]
  subst hob
  exact ⟨s'', by unfold Storage.Read; rw [hR, hlen]⟩

/-- C2 (amended) at the chunk "XYZab" written at offset 46 of `scenario_complete`, across the
boundary between `a.txt` and `b.txt`. -/
theorem Storage.Write_Read_roundtrip_witness :
    ∃ s'', scenario_written.Read ("XYZab".toList).length 46
      = some ((("XYZab".toList).length : Int), "XYZab".toList, s'') :=
  Storage.Write_Read_roundtrip scenario_host scenario_complete "XYZab".toList 46
    scenario_complete_layout (by decide) (by decide) (by decide) (by decide) (by decide) 5
    scenario_written (by decide) (by decide)

/-! ### Live ring -/

/-- C4 (the code at the input of the claim): with `W = 1024`, the 1500 byte chunk at offset 600
is split three ways (424 bytes at `[600, 1024)`, 1024 bytes at `[0, 1024)`, 52 bytes at
`[0, 52)`) and `Write` returns the size of the last part, `52`, not `1500`; the file stays
1024 bytes long. -/
theorem Storage.Write_live_wrap_returns_last_part :
    (scenario_live.Write scenario_host (List.replicate 1500 'a') 600).map
      (fun r => (r.1, r.2.single_data.length)) = some (52, 1024) := by
  decide!

theorem overwrite_getElem?_fill (data : List Char) (off : Nat) (bs : List Char) (p : Nat)
    (h1 : p < off) (h2 : data.length ≤ p) :
    (overwrite data off bs)[p]? = some (Char.ofNat 0) := by
  have hl : ((data ++ List.replicate (off - data.length) (Char.ofNat 0)).take off).length
      = off := by
    simp only [List.length_take, List.length_append, List.length_replicate]
    omega
  simp only [overwrite, List.append_assoc]
  rw [List.getElem?_append_left (by omega), List.getElem?_take_of_lt h1,
    List.getElem?_append_right h2, List.getElem?_replicate, if_pos (by omega)]

theorem overwrite_cons (data : List Char) (p : Nat) (c : Char) (cs : List Char) :
    overwrite data p (c :: cs) = overwrite (overwrite data p [c]) (p + 1) cs := by
  apply List.ext_getElem?
  intro q
  have hlen1 : (overwrite data p [c]).length = max data.length (p + 1) := by
    rw [overwrite_length]; rfl
  by_cases hq1 : q < p
  · by_cases hq2 : q < data.length
    · rw [overwrite_getElem?_lt _ _ _ _ hq1 hq2,
        overwrite_getElem?_lt _ _ _ _ (by omega) (by omega),
        overwrite_getElem?_lt _ _ _ _ hq1 hq2]
    · rw [overwrite_getElem?_fill _ _ _ _ hq1 (by omega),
        overwrite_getElem?_lt _ _ _ _ (by omega) (by omega),
        overwrite_getElem?_fill _ _ _ _ hq1 (by omega)]
  · by_cases hq2 : q = p
    · subst hq2
      rw [overwrite_getElem?_mid _ _ _ _ (le_refl _) (by simp),
        overwrite_getElem?_lt _ _ _ _ (by omega) (by omega),
        overwrite_getElem?_mid _ _ _ _ (le_refl _) (by simp)]
      simp
    · by_cases hq3 : q < p + 1 + cs.length
      · rw [overwrite_getElem?_mid _ _ _ _ (by omega) (by simp only [List.length_cons]; omega),
          overwrite_getElem?_mid _ _ _ _ (by omega) (by omega)]
        have : q - p = (q - (p + 1)) + 1 := by omega
        rw [this, List.getElem?_cons_succ]
      · rw [overwrite_getElem?_ge _ _ _ _ (by simp only [List.length_cons]; omega),
          overwrite_getElem?_ge _ _ _ _ (by omega),
          overwrite_getElem?_ge _ _ _ _ (by simp only [List.length_cons, List.length_nil]; omega)]

theorem ring_apply_append (W : Nat) (e1 e2 : List (Int × Char)) :
    ∀ data : List Char, ring_apply W data (e1 ++ e2) = ring_apply W (ring_apply W data e1) e2 := by
  induction e1 with
  | nil => intro data; rfl
  | cons e rest ih => intro data; simp only [List.cons_append, ring_apply]; exact ih _

theorem chunk_events_append (a b : List Char) :
    ∀ o : Int, chunk_events (a ++ b) o = chunk_events a o ++ chunk_events b (o + a.length) := by
  induction a with
  | nil => intro o; simp [chunk_events]
  | cons c cs ih =>
    intro o
    have e : o + 1 + (cs.length : Int) = o + ((cs.length + 1 : Nat) : Int) := by
      push_cast; omega
    show chunk_events (c :: (cs ++ b)) o = _
    simp only [List.cons_append, chunk_events, List.length_cons, ih, e]

theorem ring_segment (W : Nat) (hW : 0 < W) :
    ∀ (bs : List Char) (data : List Char) (o : Int), 0 ≤ o → bs ≠ [] →
      o % (W : Int) + bs.length ≤ W →
      overwrite data (o % (W : Int)).toNat bs = ring_apply W data (chunk_events bs o) := by
  intro bs
  induction bs with
  | nil => intro data o _ hne; exact absurd rfl hne
  | cons c cs ih =>
    intro data o ho _ hfit
    simp only [List.length_cons] at hfit
    cases cs with
    | nil => rfl
    | cons c' cs' =>
      rw [overwrite_cons]
      simp only [chunk_events, ring_apply]
      have hmod : (o + 1) % (W : Int) = o % (W : Int) + 1 := by
        simp only [List.length_cons] at hfit
        have h1 : 0 ≤ o % (W : Int) := Int.emod_nonneg _ (by omega)
        have h2 : (1 : Int) % (W : Int) = 1 := Int.emod_eq_of_lt (by omega) (by omega)
        rw [Int.add_emod, h2]
        exact Int.emod_eq_of_lt (by omega) (by omega)
      have hfit' : (o + 1) % (W : Int) + ((c' :: cs').length : Int) ≤ W := by
        rw [hmod]
        simp only [List.length_cons] at hfit ⊢
        omega
      have := ih (overwrite data (o % (W : Int)).toNat [c]) (o + 1) (by omega) (by simp) hfit'
      simp only [chunk_events, ring_apply] at this
      rw [← this, hmod]
      congr 1
      have h1 : 0 ≤ o % (W : Int) := Int.emod_nonneg _ (by omega)
      omega

theorem Storage.WriteFuel_live (h : Host) :
    ∀ (fuel : Nat) (s : Storage) (buf : List Char) (offset : Int),
      s.state_ = STOR_STATE_SINGLE_LIVE_WRAP → 0 < s.live_disc_wnd_bytes_ →
      0 ≤ s.single_fd_ → 0 ≤ offset → buf.length < fuel →
      ∃ r : Int, 0 ≤ r ∧ Storage.WriteFuel h fuel s buf offset
        = some (r, { s with single_data := (ring_apply s.live_disc_wnd_bytes_ s.single_data
            (chunk_events buf offset)) }) := by
  intro fuel
  induction fuel with
  | zero => intro s buf offset _ _ _ _ hf; omega
  | succ fuel ih =>
    intro s buf offset hst hW hfd ho hfuel
    have hmod0 : 0 ≤ offset % (s.live_disc_wnd_bytes_ : Int) := Int.emod_nonneg _ (by omega)
    have hmodlt : offset % (s.live_disc_wnd_bytes_ : Int) < s.live_disc_wnd_bytes_ :=
      Int.emod_lt_of_pos _ (by omega)
    rw [Storage.WriteFuel]
    simp only [hst]
    by_cases hsplit : offset % (s.live_disc_wnd_bytes_ : Int) + (buf.length : Int)
        > (s.live_disc_wnd_bytes_ : Int)
    · rw [if_pos hsplit, pwrite_ok _ _ _ _ _ hfd hmod0 (by omega) (by omega)]
      simp only
      rw [if_neg (by omega), if_neg (by omega)]
      have hne : buf.take ((s.live_disc_wnd_bytes_ : Int)
          - offset % (s.live_disc_wnd_bytes_ : Int)).toNat ≠ [] := by
        intro hnil
        have := congrArg List.length hnil
        simp only [List.length_take, List.length_nil] at this
        omega
      have hseg := ring_segment s.live_disc_wnd_bytes_ hW _ s.single_data offset ho hne
        (by simp only [List.length_take]; omega)
      obtain ⟨r, hr, hrec⟩ := ih
        { s with single_data := (overwrite s.single_data
          (offset % (s.live_disc_wnd_bytes_ : Int)).toNat
          (buf.take ((s.live_disc_wnd_bytes_ : Int)
            - offset % (s.live_disc_wnd_bytes_ : Int)).toNat)) }
        (buf.drop ((s.live_disc_wnd_bytes_ : Int)
          - offset % (s.live_disc_wnd_bytes_ : Int)).toNat)
        (offset + ((s.live_disc_wnd_bytes_ : Int) - offset % (s.live_disc_wnd_bytes_ : Int)))
        hst hW hfd (by omega) (by simp only [List.length_drop]; omega)
      refine ⟨r, hr, ?_⟩
      simp only [hst] at hrec
      rw [hrec]
      simp only [hseg]
      have hoff : offset + ((s.live_disc_wnd_bytes_ : Int)
          - offset % (s.live_disc_wnd_bytes_ : Int))
          = offset + ((buf.take ((s.live_disc_wnd_bytes_ : Int)
            - offset % (s.live_disc_wnd_bytes_ : Int)).toNat).length : Int) := by
        simp only [List.length_take]
        omega
      rw [hoff, ← ring_apply_append, ← chunk_events_append, List.take_append_drop]
    · rw [if_neg hsplit, pwrite_ok _ _ _ _ _ hfd hmod0 (by omega) (le_refl _)]
      refine ⟨buf.length, by omega, ?_⟩
      simp only [Int.toNat_ofNat, List.take_length]
      by_cases hnil : buf = []
      · subst hnil
        simp [chunk_events, ring_apply]
      · have hlen : (buf.length : Int) ≠ 0 := by
          intro h0
          exact hnil (List.length_eq_zero.mp (by omega))
        rw [if_neg hlen, ring_segment s.live_disc_wnd_bytes_ hW buf s.single_data offset ho hnil
          (by omega)]

theorem Storage.WriteFuel_live_closed (h : Host) (fuel : Nat) (s : Storage) (buf : List Char)
    (offset : Int) (hst : s.state_ = STOR_STATE_SINGLE_LIVE_WRAP) (hfd : s.single_fd_ < 0) :
    Storage.WriteFuel h (fuel + 1) s buf offset = some (-1, s) := by
  rw [Storage.WriteFuel]
  simp only [hst, pwrite_fail _ _ _ _ _ hfd]
  split <;> (cases s; simp_all)

theorem last_written_eq_none (W : Nat) (p : Int) :
    ∀ evs : List (Int × Char), last_written W p evs = none →
      ∀ e ∈ evs, e.1 % (W : Int) ≠ p := by
  intro evs
  induction evs with
  | nil => intro _ e he; simp at he
  | cons e rest ih =>
    intro hn e' he'
    simp only [last_written] at hn
    cases hl : last_written W p rest with
    | some c => simp [hl] at hn
    | none =>
      simp only [hl] at hn
      rcases List.mem_cons.mp he' with rfl | hm
      · intro heq
        simp [heq] at hn
      · exact ih hl e' hm

theorem ring_apply_frame (W : Nat) (hW : 0 < W) (p : Int) (hp : 0 ≤ p) :
    ∀ (evs : List (Int × Char)) (data : List Char), p.toNat < data.length →
      (∀ e ∈ evs, e.1 % (W : Int) ≠ p) →
      (ring_apply W data evs)[p.toNat]? = data[p.toNat]? := by
  intro evs
  induction evs with
  | nil => intro data _ _; rfl
  | cons e rest ih =>
    intro data hlt hne
    have he := hne e (List.mem_cons_self _ _)
    have he0 : 0 ≤ e.1 % (W : Int) := Int.emod_nonneg _ (by omega)
    simp only [ring_apply]
    rw [ih _ (by rw [overwrite_length]; omega) (fun e' he' => hne e' (List.mem_cons_of_mem _ he'))]
    by_cases hlt' : p.toNat < (e.1 % (W : Int)).toNat
    · exact overwrite_getElem?_lt _ _ _ _ hlt' hlt
    · exact overwrite_getElem?_ge _ _ _ _ (by simp only [List.length_singleton]; omega)

theorem ring_apply_last_written (W : Nat) (hW : 0 < W) (p : Int) (hp : 0 ≤ p) (c : Char) :
    ∀ (evs : List (Int × Char)) (data : List Char), last_written W p evs = some c →
      (ring_apply W data evs)[p.toNat]? = some c := by
  intro evs
  induction evs with
  | nil => intro data hl; simp [last_written] at hl
  | cons e rest ih =>
    intro data hl
    simp only [last_written] at hl
    simp only [ring_apply]
    cases hr : last_written W p rest with
    | some c' =>
      simp only [hr, Option.some.injEq] at hl
      subst hl
      exact ih _ hr
    | none =>
      simp only [hr] at hl
      by_cases he : e.1 % (W : Int) = p
      · rw [if_pos he, Option.some.injEq] at hl
        subst hl
        have hmid : (overwrite data (e.1 % (W : Int)).toNat [e.2])[p.toNat]? = some e.2 := by
          rw [he, overwrite_getElem?_mid _ _ _ _ (le_refl _) (by simp)]
          simp
        rw [ring_apply_frame W hW p hp rest _ (by rw [overwrite_length, he]; simp)
          (last_written_eq_none W p rest hr)]
        exact hmid
      · rw [if_neg he] at hl
        exact absurd hl (by simp)

theorem Storage.WriteAll_live (h : Host) :
    ∀ (ws : List (List Char × Int)) (s : Storage),
      s.state_ = STOR_STATE_SINGLE_LIVE_WRAP → 0 < s.live_disc_wnd_bytes_ →
      0 ≤ s.single_fd_ → (∀ w ∈ ws, 0 ≤ w.2) →
      s.WriteAll h ws = some { s with single_data :=
        (ring_apply s.live_disc_wnd_bytes_ s.single_data (write_events ws)) } := by
  intro ws
  induction ws with
  | nil => intro s _ _ _ _; rfl
  | cons w rest ih =>
    intro s hst hW hfd hoff
    obtain ⟨r, hr, hw⟩ := Storage.WriteFuel_live h (w.1.length + 3) s w.1 w.2 hst hW hfd
      (hoff w (List.mem_cons_self _ _)) (by omega)
    simp only [Storage.WriteAll, Storage.Write, hw]
    have hrest := ih { s with single_data :=
      (ring_apply s.live_disc_wnd_bytes_ s.single_data (chunk_events w.1 w.2)) } hst hW hfd
      (fun w' hw' => hoff w' (List.mem_cons_of_mem _ hw'))
    rw [if_pos hr, hrest]
    simp only [write_events, ring_apply_append]

theorem Storage.WriteAll_live_closed (h : Host) (s : Storage) (w : List Char × Int)
    (rest : List (List Char × Int)) (hst : s.state_ = STOR_STATE_SINGLE_LIVE_WRAP)
    (hfd : s.single_fd_ < 0) : s.WriteAll h (w :: rest) = none := by
  simp only [Storage.WriteAll, Storage.Write]
  rw [Storage.WriteFuel_live_closed h _ s w.1 w.2 hst hfd]
  simp

theorem last_written_of_mem (W : Nat) (p : Int) (evs : List (Int × Char))
    (hm : ∃ e ∈ evs, e.1 % (W : Int) = p) : ∃ c, last_written W p evs = some c := by
  cases hl : last_written W p evs with
  | some c => exact ⟨c, rfl⟩
  | none =>
    obtain ⟨e, he, hp⟩ := hm
    exact absurd hp (last_written_eq_none W p evs hl e he)

theorem List.take_one_drop_of_getElem? {α : Type} (l : List α) (p : Nat) (c : α)
    (hc : l[p]? = some c) : (l.drop p).take 1 = [c] := by
  obtain ⟨hlt, rfl⟩ := List.getElem?_eq_some_iff.mp hc
  rw [List.drop_eq_getElem_cons hlt]
  rfl

/-- C3: in state SINGLE_LIVE_WRAP with window `W > 0`, after any sequence of Writes at
non-negative offsets that all return a non-negative result, for every offset `o ≥ 0` that is
congruent modulo `W` to an offset that was written (in particular every written offset), the
byte of the backing file at position `o mod W` is the byte most recently written to a logical
offset congruent to `o`, and a one-byte Read at `o` returns it. -/
theorem Storage.live_ring_modular (h : Host) (s s' : Storage) (ws : List (List Char × Int))
    (hst : s.state_ = STOR_STATE_SINGLE_LIVE_WRAP) (hW : 0 < s.live_disc_wnd_bytes_)
    (hoff : ∀ w ∈ ws, 0 ≤ w.2) (hrun : s.WriteAll h ws = some s')
    (o : Int) (ho : 0 ≤ o)
    (hwr : ∃ e ∈ write_events ws,
      e.1 % (s.live_disc_wnd_bytes_ : Int) = o % (s.live_disc_wnd_bytes_ : Int)) :
    ∃ c, last_written s.live_disc_wnd_bytes_ (o % (s.live_disc_wnd_bytes_ : Int))
        (write_events ws) = some c ∧
      s'.single_data[(o % (s.live_disc_wnd_bytes_ : Int)).toNat]? = some c ∧
      s'.Read 1 o = some (1, [c], s') := by
  obtain ⟨c, hc⟩ := last_written_of_mem _ _ _ hwr
  have hne : ws ≠ [] := by
    rintro rfl
    obtain ⟨e, he, _⟩ := hwr
    simp [write_events] at he
  by_cases hfd : s.single_fd_ < 0
  · obtain ⟨w, rest, rfl⟩ := List.exists_cons_of_ne_nil hne
    rw [Storage.WriteAll_live_closed h s w rest hst hfd] at hrun
    exact absurd hrun (by simp)
  · have hfd' : 0 ≤ s.single_fd_ := by omega
    rw [Storage.WriteAll_live h ws s hst hW hfd' hoff] at hrun
    have hs' := Option.some.inj hrun
    have hmod0 : 0 ≤ o % (s.live_disc_wnd_bytes_ : Int) := Int.emod_nonneg _ (by omega)
    have hbyte := ring_apply_last_written s.live_disc_wnd_bytes_ hW _ hmod0 c (write_events ws)
      s.single_data hc
    refine ⟨c, hc, by rw [← hs']; exact hbyte, ?_⟩
    have hst' : s'.state_ = STOR_STATE_SINGLE_LIVE_WRAP := by rw [← hs']; exact hst
    have hfd'' : 0 ≤ s'.single_fd_ := by rw [← hs']; exact hfd'
    have hW' : s'.live_disc_wnd_bytes_ = s.live_disc_wnd_bytes_ := by rw [← hs']
    have hd : s'.single_data[(o % (s.live_disc_wnd_bytes_ : Int)).toNat]? = some c := by
      rw [← hs']; exact hbyte
    unfold Storage.Read
    rw [Storage.ReadFuel, if_neg (by rw [hst']; decide), if_pos hst', hW',
      pread_ok _ _ _ _ hfd'' hmod0, List.take_one_drop_of_getElem? _ _ _ hd]
    rfl

/-- C3 at the example of the claim: `W = 1024`, "Z" written at offset 2048, read back at
offset 0. -/
theorem Storage.live_ring_modular_witness :
    ∃ c, last_written scenario_live.live_disc_wnd_bytes_
        (0 % (scenario_live.live_disc_wnd_bytes_ : Int)) (write_events [("Z".toList, 2048)])
        = some c ∧
      ({ scenario_live with single_data := "Z".toList } : Storage).single_data[
        ((0 : Int) % (scenario_live.live_disc_wnd_bytes_ : Int)).toNat]? = some c ∧
      ({ scenario_live with single_data := "Z".toList } : Storage).Read 1 0
        = some (1, [c], { scenario_live with single_data := "Z".toList }) :=
  Storage.live_ring_modular scenario_host scenario_live
    { scenario_live with single_data := "Z".toList } [("Z".toList, 2048)] rfl (by decide)
    (by decide) (by decide) 0 (by decide) ⟨(2048, 'Z'), by decide, by decide⟩

theorem scenario_live_read_Z :
    ((scenario_live.WriteAll scenario_host [("Z".toList, 2048)]).bind
      (fun s' => (s'.Read 1 0).map (fun r => (r.1, r.2.1)))) = some (1, "Z".toList) := by
  decide

/-! ### Arithmetic in int64_t -/

theorem int64_of_range (x : Int) (h1 : INT64_MIN ≤ x) (h2 : x ≤ INT64_MAX) : int64 x = x := by
  unfold INT64_MIN at h1
  unfold INT64_MAX at h2
  unfold int64
  omega

theorem clamp64_range (x : Int) : INT64_MIN ≤ clamp64 x ∧ clamp64 x ≤ INT64_MAX := by
  unfold clamp64 INT64_MIN INT64_MAX
  split
  · omega
  · split <;> omega

theorem clamp64_of_range (x : Int) (h1 : INT64_MIN ≤ x) (h2 : x ≤ INT64_MAX) :
    clamp64 x = x := by
  unfold clamp64
  rw [if_neg (by omega), if_neg (by omega)]

theorem sscanf_i64_range (s : List Char) :
    INT64_MIN ≤ (sscanf_i64 s).2 ∧ (sscanf_i64 s).2 ≤ INT64_MAX := by
  have z : INT64_MIN ≤ (0 : Int) ∧ (0 : Int) ≤ INT64_MAX := by
    unfold INT64_MIN INT64_MAX; omega
  unfold sscanf_i64
  split
  · exact z
  · simp only
    split
    · exact clamp64_range _
    · exact z
  · simp only
    split
    · dsimp only; exact clamp64_range _
    · exact z
  · simp only
    split
    · dsimp only; exact clamp64_range _
    · exact z

theorem Storage.line_fsize_range (l : List Char) :
    INT64_MIN ≤ Storage.line_fsize l ∧ Storage.line_fsize l ≤ INT64_MAX := by
  unfold Storage.line_fsize
  split
  · exact sscanf_i64_range _
  · unfold INT64_MIN INT64_MAX; omega

theorem List.sum_map_nonneg {α : Type} (f : α → Int) :
    ∀ l : List α, (∀ x ∈ l, 0 ≤ f x) → 0 ≤ (l.map f).sum := by
  intro l
  induction l with
  | nil => intro _; simp
  | cons a l ih =>
    intro hnn
    simp only [List.map_cons, List.sum_cons]
    have := hnn a (List.mem_cons_self _ _)
    have := ih (fun x hx => hnn x (List.mem_cons_of_mem _ hx))
    omega

/-! ### Lines read by fgets -/

theorem fgets_take_of_line (k k' : Nat) :
    ∀ cs : List Char, cs.length < k' → (fgets_take k' cs).1.length ≤ k →
      fgets_take k cs = fgets_take k' cs := by
  induction k' generalizing k with
  | zero => intro cs h; omega
  | succ k' ih =>
    intro cs hlen hline
    cases cs with
    | nil => cases k <;> rfl
    | cons c cs =>
      cases k with
      | zero =>
        simp only [fgets_take] at hline
        split at hline <;> simp at hline
      | succ k =>
        simp only [fgets_take] at hline ⊢
        by_cases hc : c = '\n'
        · simp only [hc, if_true]
        · simp only [hc, if_false] at hline ⊢
          simp only [List.length_cons] at hline hlen
          cases k' with
          | zero => omega
          | succ k'' =>
            rw [ih k cs (by omega) (by omega)]

theorem fgets_take_rest_length (k : Nat) :
    ∀ cs : List Char, (fgets_take k cs).2.length ≤ cs.length := by
  induction k with
  | zero => intro cs; simp [fgets_take]
  | succ k ih =>
    intro cs
    cases cs with
    | nil => simp [fgets_take]
    | cons c cs =>
      simp only [fgets_take]
      split
      · simp
      · have := ih cs
        simp only [List.length_cons]
        omega

theorem fgets_lines_of_lines (n m : Nat) :
    ∀ (fuel : Nat) (cs : List Char), cs.length < m - 1 →
      (∀ l ∈ fgets_lines m fuel cs, l.length ≤ n - 1) →
      fgets_lines n fuel cs = fgets_lines m fuel cs := by
  intro fuel
  induction fuel with
  | zero => intro cs _ _; rfl
  | succ fuel ih =>
    intro cs hlen hall
    cases cs with
    | nil => rfl
    | cons c cs =>
      simp only [fgets_lines] at hall ⊢
      have h1 := hall _ (List.mem_cons_self _ _)
      have e := fgets_take_of_line (n - 1) (m - 1) (c :: cs) hlen h1
      rw [e]
      congr 1
      apply ih
      · have := fgets_take_rest_length (m - 1) (c :: cs)
        omega
      · intro l hl
        exact hall l (List.mem_cons_of_mem _ hl)

theorem Storage.spec_lines_eq_text_lines (h : Host) (sf : StorageFile)
    (hfit : ∀ l ∈ text_lines sf.data, l.length < h.MULTIFILE_MAX_LINE) :
    Storage.spec_lines h sf = text_lines sf.data := by
  unfold Storage.spec_lines text_lines
  apply fgets_lines_of_lines
  · omega
  · intro l hl
    have := hfit l hl
    omega

/-! ### ParseSpec: path safety -/

theorem starts_with_append (pat t : List Char) : starts_with pat (pat ++ t) = true := by
  induction pat with
  | nil => rfl
  | cons p ps ih => simp [starts_with, ih]

theorem str_find_go_of_substring (pat t : List Char) :
    ∀ (a : List Char) (i : Nat), (str_find_go pat (a ++ pat ++ t) i 0).isSome = true := by
  intro a
  induction a with
  | nil =>
    intro i
    cases hs : ([] ++ pat ++ t : List Char) with
    | nil =>
      have hp : pat = [] := by
        cases pat with
        | nil => rfl
        | cons p ps => simp at hs
      simp [str_find_go, hp]
    | cons c cs =>
      have hsw : starts_with pat (c :: cs) = true := by
        rw [← hs]
        simpa using starts_with_append pat t
      simp [str_find_go, hsw]
  | cons x a ih =>
    intro i
    simp only [List.cons_append, str_find_go]
    split
    · rfl
    · exact ih (i + 1)

theorem Storage.unsafe_path_checks (p : List Char) (hp : Storage.unsafe_path p) :
    p.take 1 = Storage.MULTIFILE_PATHNAME_FILE_SEP ∨
      (str_find p "..".toList 0).isSome = true := by
  rcases hp with ⟨rest, rfl⟩ | ⟨a, b, rfl⟩
  · exact Or.inl rfl
  · exact Or.inr (str_find_go_of_substring _ _ a 0)

theorem StorageFile.new_spec_pathname (h : Host) (specpath : List Char) (start size : Int)
    (ospath : List Char) : (StorageFile.new h specpath start size ospath).spec_pathname_
      = specpath := by
  unfold StorageFile.new
  simp only
  split
  · rfl
  · split <;> rfl

theorem StorageFile.new_open (h : Host) (specpath : List Char) (start size : Int)
    (ospath : List Char) (hop : (StorageFile.new h specpath start size ospath).broken_ = false) :
    0 ≤ (StorageFile.new h specpath start size ospath).fd_ := by
  unfold StorageFile.new at hop ⊢
  simp only at hop ⊢
  split at hop
  · simp at hop
  · split at hop
    · simp at hop
    · rename_i h1 h2
      rw [if_neg h1, if_neg h2]
      simp only
      omega

theorem Storage.line_file_spec_pathname (h : Host) (destdir : List Char)
    (sfs : List StorageFile) (offset : Int) (l : List Char) :
    (Storage.line_file h destdir sfs offset l).spec_pathname_ = Storage.line_specpath l := by
  unfold Storage.line_file
  rw [Storage.opened_with_attrs]
  exact StorageFile.new_spec_pathname _ _ _ _ _

theorem Storage.line_file_open (h : Host) (destdir : List Char)
    (sfs : List StorageFile) (offset : Int) (l : List Char)
    (hop : (Storage.line_file h destdir sfs offset l).broken_ = false) :
    0 ≤ (Storage.line_file h destdir sfs offset l).fd_ := by
  unfold Storage.line_file at hop ⊢
  rw [Storage.opened_with_attrs] at hop ⊢
  exact StorageFile.new_open _ _ _ _ _ hop

/-- One round of the loop of `ParseSpec`. -/
theorem Storage.ParseSpec_loop_cons (h : Host) (destdir : List Char) (sf : StorageFile)
    (line : List Char) (rest : List (List Char)) (offset : Int) (sfs : List StorageFile) :
    Storage.ParseSpec_loop h destdir sf (line :: rest) offset sfs
      = if (sscanf_i64 (Storage.line_sizestr line)).1 = 0
            ∨ (Storage.line_specpath line).take 1 = Storage.MULTIFILE_PATHNAME_FILE_SEP
            ∨ (str_find (Storage.line_specpath line) "..".toList 0).isSome = true then
          { ret := -1, offset := offset, sfs := sfs }
        else if offset = 0 then
          Storage.ParseSpec_loop h destdir sf rest (int64 (offset + sf.GetSize)) sfs
        else if (Storage.line_file h destdir sfs offset line).broken_ = true then
          { ret := -1, offset := offset, sfs := sfs }
        else Storage.ParseSpec_loop h destdir sf rest (int64 (offset + Storage.line_fsize line))
          (sfs ++ [Storage.line_file h destdir sfs offset line]) := by
  simp only [Storage.ParseSpec_loop, Storage.line_file, StorageFile.IsOperational,
    Bool.not_not]
  by_cases h1 : (sscanf_i64 (Storage.line_sizestr line)).1 = 0
  · simp [h1]
  · by_cases h2 : (Storage.line_specpath line).take 1 = Storage.MULTIFILE_PATHNAME_FILE_SEP
    · simp [h1, h2]
    · by_cases h3 : (str_find (Storage.line_specpath line) "..".toList 0).isSome = true
      · simp [h1, h2, h3]
      · simp only [h1, h2, h3, or_self, if_false]
        simp

theorem Storage.ParseSpec_loop_unsafe_head (h : Host) (destdir : List Char) (sf : StorageFile)
    (bad : List Char) (post : List (List Char)) (offset : Int) (sfs : List StorageFile)
    (hbad : Storage.unsafe_path (Storage.line_specpath bad)) :
    Storage.ParseSpec_loop h destdir sf (bad :: post) offset sfs
      = { ret := -1, offset := offset, sfs := sfs } := by
  rw [Storage.ParseSpec_loop_cons, if_pos (Or.inr (Storage.unsafe_path_checks _ hbad))]

/-- The loop over `pre ++ post` is the loop over `pre`, followed, when that has not failed, by
the loop over `post`. -/
theorem Storage.ParseSpec_loop_split (h : Host) (destdir : List Char) (sf : StorageFile) :
    ∀ (pre post : List (List Char)) (offset : Int) (sfs : List StorageFile),
      Storage.ParseSpec_loop h destdir sf (pre ++ post) offset sfs
        = if (Storage.ParseSpec_loop h destdir sf pre offset sfs).ret < 0 then
            Storage.ParseSpec_loop h destdir sf pre offset sfs
          else Storage.ParseSpec_loop h destdir sf post
            (Storage.ParseSpec_loop h destdir sf pre offset sfs).offset
            (Storage.ParseSpec_loop h destdir sf pre offset sfs).sfs := by
  intro pre
  induction pre with
  | nil =>
    intro post offset sfs
    simp [Storage.ParseSpec_loop]
  | cons l pre ih =>
    intro post offset sfs
    rw [List.cons_append, Storage.ParseSpec_loop_cons, Storage.ParseSpec_loop_cons]
    split
    · simp
    · split
      · exact ih _ _ _
      · split
        · simp
        · exact ih _ _ _

/-- The entries that the loop adds belong to lines it has read. -/
theorem Storage.ParseSpec_loop_added (h : Host) (destdir : List Char) (sf : StorageFile) :
    ∀ (lines : List (List Char)) (offset : Int) (sfs : List StorageFile),
      ∃ added : List StorageFile,
        (Storage.ParseSpec_loop h destdir sf lines offset sfs).sfs = sfs ++ added ∧
        added.length ≤ lines.length ∧
        ∀ nsf ∈ added, ∃ l ∈ lines, nsf.spec_pathname_ = Storage.line_specpath l := by
  intro lines
  induction lines with
  | nil => intro offset sfs; exact ⟨[], by simp [Storage.ParseSpec_loop], by simp, by simp⟩
  | cons l rest ih =>
    intro offset sfs
    rw [Storage.ParseSpec_loop_cons]
    split
    · exact ⟨[], by simp, by simp, by simp⟩
    · split
      · obtain ⟨added, e, hlen, hall⟩ := ih (int64 (offset + sf.GetSize)) sfs
        refine ⟨added, e, by simp only [List.length_cons]; omega, ?_⟩
        intro nsf hn
        obtain ⟨l', hl', e'⟩ := hall nsf hn
        exact ⟨l', List.mem_cons_of_mem _ hl', e'⟩
      · split
        · exact ⟨[], by simp, by simp, by simp⟩
        · obtain ⟨added, e, hlen, hall⟩ := ih (int64 (offset + Storage.line_fsize l))
            (sfs ++ [Storage.line_file h destdir sfs offset l])
          refine ⟨Storage.line_file h destdir sfs offset l :: added, e.trans (by simp),
            by simp only [List.length_cons]; omega, ?_⟩
          intro nsf hn
          rcases List.mem_cons.mp hn with rfl | hn
          · exact ⟨l, List.mem_cons_self _ _, Storage.line_file_spec_pathname _ _ _ _ _⟩
          · obtain ⟨l', hl', e'⟩ := hall nsf hn
            exact ⟨l', List.mem_cons_of_mem _ hl', e'⟩

theorem Storage.ParseSpec_loop_unsafe (h : Host) (destdir : List Char) (sf : StorageFile)
    (pre : List (List Char)) (bad : List Char) (post : List (List Char)) (offset : Int)
    (sfs : List StorageFile) (hbad : Storage.unsafe_path (Storage.line_specpath bad)) :
    (Storage.ParseSpec_loop h destdir sf (pre ++ bad :: post) offset sfs).ret < 0 ∧
      (Storage.ParseSpec_loop h destdir sf (pre ++ bad :: post) offset sfs).sfs
        = (Storage.ParseSpec_loop h destdir sf pre offset sfs).sfs := by
  rw [Storage.ParseSpec_loop_split]
  split
  · rename_i hneg
    exact ⟨hneg, rfl⟩
  · rw [Storage.ParseSpec_loop_unsafe_head _ _ _ _ _ _ _ hbad]
    exact ⟨by simp, rfl⟩

/-- C7 (as stated, refuted): the second line of `manifest_long_line` has the path
`aaa…a 5../x`, which contains `..`. `fgets` hands it to `ParseSpec` in two pieces, `aaa…a 5.`
and `./x 7`, neither of which has an unsafe path: `ParseSpec` returns `0`, the Storage is not
broken, entries for `aaa…a` and `./x` are made and `total_size_from_spec_` is set. -/
theorem Storage.ParseSpec_accepts_unsafe_long_line :
    (List.replicate 2078 'a' ++ " 5../x 7\n".toList) ∈ text_lines manifest_long_line ∧
      Storage.unsafe_path
        (Storage.line_specpath (List.replicate 2078 'a' ++ " 5../x 7\n".toList)) ∧
      Storage.spec_lines scenario_host (scenario_spec_file manifest_long_line 2119)
        = ["META-INF-multifilespec.txt 2119\n".toList,
           List.replicate 2078 'a' ++ " 5.".toList, "./x 7\n".toList] ∧
      (Storage.ParseSpec scenario_host (scenario_spec manifest_long_line 2119) 0).1 = 0 ∧
      (Storage.ParseSpec scenario_host (scenario_spec manifest_long_line 2119) 0).2.broken_
        = false ∧
      (Storage.ParseSpec scenario_host (scenario_spec manifest_long_line 2119) 0).2.sfs_.map
          (fun sf => (sf.spec_pathname_, sf.start_, sf.end_))
        = [(Storage.MULTIFILE_PATHNAME, 0, 2118), (List.replicate 2078 'a', 2119, 2123),
           ("./x".toList, 2124, 2130)] ∧
      (Storage.ParseSpec scenario_host
        (scenario_spec manifest_long_line 2119) 0).2.GetSizeFromSpec = 2131 :=
  ⟨by decide!, Or.inr ⟨List.replicate 2078 'a' ++ " 5".toList, "/x".toList, by decide!⟩,
    by decide!, by decide!, by decide!, by decide!, by decide!⟩

/-- C7 (amended): for every spec file none of whose lines is longer than the `fgets` buffer
(`MULTIFILE_MAX_LINE - 1` characters) and one of whose lines (at any position, so also after
the first line) has a path that starts with `/` or contains `..`, `ParseSpec` returns a
negative result, marks the Storage broken and leaves `total_size_from_spec_` and the state as
they were, so that `GetSizeFromSpec` stays `-1`. -/
theorem Storage.ParseSpec_rejects_unsafe_path (h : Host) (s : Storage) (i : Nat)
    (sf : StorageFile) (hsf : s.sfs_[i]? = some sf)
    (hfit : ∀ l ∈ text_lines sf.data, l.length < h.MULTIFILE_MAX_LINE) (l : List Char)
    (hl : l ∈ text_lines sf.data) (hbad : Storage.unsafe_path (Storage.line_specpath l)) :
    (Storage.ParseSpec h s i).1 < 0 ∧ (Storage.ParseSpec h s i).2.broken_ = true ∧
      (Storage.ParseSpec h s i).2.total_size_from_spec_ = s.total_size_from_spec_ ∧
      (Storage.ParseSpec h s i).2.state_ = s.state_ ∧
      (s.GetSizeFromSpec = -1 → (Storage.ParseSpec h s i).2.GetSizeFromSpec = -1) := by
  obtain ⟨pre, post, hsplit⟩ := List.append_of_mem hl
  have hloop := (Storage.ParseSpec_loop_unsafe h s.destdir_ sf pre l post 0 s.sfs_ hbad).1
  unfold Storage.ParseSpec
  simp only [hsf]
  by_cases hfd : sf.fd_ < 0
  · rw [if_pos hfd]
    exact ⟨by simp, rfl, rfl, rfl, fun hg => hg⟩
  · rw [if_neg hfd, Storage.spec_lines_eq_text_lines h sf hfit, hsplit, if_pos hloop]
    exact ⟨hloop, rfl, rfl, rfl, fun hg => hg⟩

/-- C7 (amended) at the manifest `manifest_unsafe`, whose third line is `../etc/passwd 10`. -/
theorem Storage.ParseSpec_rejects_unsafe_path_witness :
    (∀ l ∈ text_lines (scenario_spec_file manifest_unsafe 55).data,
        l.length < scenario_host.MULTIFILE_MAX_LINE) ∧
      "../etc/passwd 10\n".toList ∈ text_lines (scenario_spec_file manifest_unsafe 55).data ∧
      (Storage.ParseSpec scenario_host (scenario_spec manifest_unsafe 55) 0).1 < 0 ∧
      (Storage.ParseSpec scenario_host (scenario_spec manifest_unsafe 55) 0).2.broken_ = true ∧
      (Storage.ParseSpec scenario_host (scenario_spec manifest_unsafe 55) 0).2.total_size_from_spec_
        = (scenario_spec manifest_unsafe 55).total_size_from_spec_ ∧
      (Storage.ParseSpec scenario_host (scenario_spec manifest_unsafe 55) 0).2.state_
        = (scenario_spec manifest_unsafe 55).state_ ∧
      ((scenario_spec manifest_unsafe 55).GetSizeFromSpec = -1 →
        (Storage.ParseSpec scenario_host (scenario_spec manifest_unsafe 55) 0).2.GetSizeFromSpec
          = -1) :=
  ⟨by decide, by decide,
    Storage.ParseSpec_rejects_unsafe_path scenario_host (scenario_spec manifest_unsafe 55) 0
      _ rfl (by decide) "../etc/passwd 10\n".toList (by decide)
      (Or.inr ⟨[], "/etc/passwd".toList, by decide⟩)⟩

/-! ### ParseSpec: malformed sizes -/

/-- C9 (the code at a failing input): the second line of `manifest_no_size` is `a.txt `
followed by a newline, so the text after its last space is only the newline. `sscanf` returns
EOF (`-1`) for it, the test `n == 0` does not fire, and `ParseSpec` accepts the line with size
`0`: it returns `0`, the Storage is not broken, and `a.txt` is an entry of size 0. -/
theorem Storage.ParseSpec_accepts_missing_size :
    Storage.line_sizestr "a.txt \n".toList = "\n".toList ∧
      sscanf_i64 "\n".toList = (-1, 0) ∧
      (Storage.ParseSpec scenario_host (scenario_spec manifest_no_size 37) 0).1 = 0 ∧
      (Storage.ParseSpec scenario_host (scenario_spec manifest_no_size 37) 0).2.broken_ = false ∧
      (Storage.ParseSpec scenario_host (scenario_spec manifest_no_size 37) 0).2.sfs_.map
          (fun sf => (sf.spec_pathname_, sf.start_, sf.end_))
        = [(Storage.MULTIFILE_PATHNAME, 0, 36), ("a.txt".toList, 37, 36)] := by
  decide

/-! ### ParseSpec: offset layout -/

theorem Storage.ParseSpec_loop_layout (h : Host) (destdir : List Char) (sf : StorageFile) :
    ∀ (lines : List (List Char)) (offset : Int) (sfs : List StorageFile), 0 < offset →
      (∀ l ∈ lines, 0 ≤ Storage.line_fsize l) →
      offset + (lines.map Storage.line_fsize).sum ≤ INT64_MAX →
      (Storage.ParseSpec_loop h destdir sf lines offset sfs).ret = 0 →
      (Storage.ParseSpec_loop h destdir sf lines offset sfs).sfs
          = sfs ++ Storage.layout_entries h destdir sfs offset lines ∧
        (Storage.ParseSpec_loop h destdir sf lines offset sfs).offset
          = offset + (lines.map Storage.line_fsize).sum ∧
        ∀ e ∈ Storage.layout_entries h destdir sfs offset lines, e.broken_ = false := by
  intro lines
  induction lines with
  | nil => intro offset sfs _ _ _ _; simp [Storage.ParseSpec_loop, Storage.layout_entries]
  | cons l rest ih =>
    intro offset sfs hpos hnn hmax hret
    have hl := hnn l (List.mem_cons_self _ _)
    have hrest := List.sum_map_nonneg Storage.line_fsize rest
      (fun l' hl' => hnn l' (List.mem_cons_of_mem _ hl'))
    simp only [List.map_cons, List.sum_cons] at hmax
    have hoff : int64 (offset + Storage.line_fsize l) = offset + Storage.line_fsize l :=
      int64_of_range _ (by unfold INT64_MIN; omega) (by omega)
    rw [Storage.ParseSpec_loop_cons] at hret ⊢
    split at hret
    · simp at hret
    · rename_i h1
      rw [if_neg h1]
      rw [if_neg (by omega)] at hret ⊢
      split at hret
      · simp at hret
      · rename_i h4
        rw [if_neg h4]
        rw [hoff] at hret ⊢
        obtain ⟨e1, e2, e3⟩ := ih (offset + Storage.line_fsize l) _ (by omega)
          (fun l' hl' => hnn l' (List.mem_cons_of_mem _ hl')) (by omega) hret
        rw [e1, e2]
        simp only [Storage.layout_entries, List.append_assoc, List.singleton_append,
          List.map_cons, List.sum_cons]
        refine ⟨trivial, by omega, ?_⟩
        intro e he
        rcases List.mem_cons.mp he with rfl | he
        · simpa using h4
        · exact e3 e he

theorem Storage.layout_entries_paths (h : Host) (destdir : List Char) :
    ∀ (lines : List (List Char)) (sfs : List StorageFile) (offset : Int),
      (Storage.layout_entries h destdir sfs offset lines).map (fun e => e.spec_pathname_)
        = lines.map Storage.line_specpath := by
  intro lines
  induction lines with
  | nil => intro sfs offset; rfl
  | cons l rest ih =>
    intro sfs offset
    simp [Storage.layout_entries, ih, Storage.line_file_spec_pathname]

theorem SortedContiguous.cons (a b : StorageFile) (rest : List StorageFile)
    (hs : SortedContiguous (b :: rest)) (hsz : a.start_ ≤ a.end_ + 1)
    (hc : b.start_ = a.end_ + 1) : SortedContiguous (a :: b :: rest) := by
  constructor
  · intro i sf hi
    cases i with
    | zero =>
      simp only [List.getElem?_cons_zero, Option.some.injEq] at hi
      subst hi; exact hsz
    | succ i =>
      simp only [List.getElem?_cons_succ] at hi
      exact hs.sized i sf hi
  · intro i x y hx hy
    cases i with
    | zero =>
      simp only [List.getElem?_cons_zero, List.getElem?_cons_succ, Option.some.injEq] at hx hy
      subst hx hy; exact hc
    | succ i =>
      rw [List.getElem?_cons_succ] at hx hy
      exact hs.contiguous i x y hx hy

theorem scenario_spec_parse_good :
    (Storage.ParseSpec scenario_host (scenario_spec manifest_good 46) 0).2.sfs_.map
        (fun sf => (sf.spec_pathname_, sf.os_pathname_, sf.start_, sf.end_))
      = [(Storage.MULTIFILE_PATHNAME, "spec".toList, 0, 45),
         ("a.txt".toList, "dest/a.txt".toList, 46, 48),
         ("b.txt".toList, "dest/b.txt".toList, 49, 50)] ∧
      (Storage.ParseSpec scenario_host (scenario_spec manifest_good 46) 0).2.total_size_from_spec_
        = 51 := by
  decide

/-! ### ParseSpec: coverage -/

theorem SortedContiguous.covers {sfs : List StorageFile} (hs : SortedContiguous sfs)
    (a b : StorageFile) (ha : sfs[0]? = some a) (hb : sfs.getLast? = some b) :
    (∀ o : Int, a.start_ ≤ o → o ≤ b.end_ →
      ∃! j : Nat, ∃ e : StorageFile, sfs[j]? = some e ∧ e.start_ ≤ o ∧ o ≤ e.end_) ∧
    (∀ (o : Int) (j : Nat) (e : StorageFile), sfs[j]? = some e → e.start_ ≤ o → o ≤ e.end_ →
      a.start_ ≤ o ∧ o ≤ b.end_) := by
  rw [List.getLast?_eq_getElem?] at hb
  have hblt := (List.getElem?_eq_some_iff.mp hb).1
  constructor
  · intro o h1 h2
    obtain ⟨j, e, hj, hlo, hhi⟩ := hs.exists_containing o b hb h2 sfs.length 0 a (by omega) ha h1
    refine ⟨j, ⟨e, hj, hlo, hhi⟩, ?_⟩
    rintro j' ⟨e', hj', hlo', hhi'⟩
    exact hs.unique hj' hj ⟨hlo', hhi'⟩ ⟨hlo, hhi⟩
  · intro o j e hj hlo hhi
    have hjlt := (List.getElem?_eq_some_iff.mp hj).1
    constructor
    · by_cases hj0 : j = 0
      · subst hj0
        rw [ha] at hj
        rw [Option.some.inj hj]
        exact hlo
      · have := hs.lt_of_lt (Nat.pos_of_ne_zero hj0) ha hj
        have := hs.sized 0 a ha
        omega
    · by_cases hjl : j = sfs.length - 1
      · subst hjl
        rw [hb] at hj
        rw [Option.some.inj hj]
        exact hhi
      · have := hs.lt_of_lt (show j < sfs.length - 1 by omega) hj hb
        have := hs.sized _ b hb
        omega

theorem Storage.layout_entries_open (h : Host) (destdir : List Char) :
    ∀ (lines : List (List Char)) (sfs : List StorageFile) (offset : Int),
      ∀ e ∈ Storage.layout_entries h destdir sfs offset lines, e.broken_ = false →
        0 ≤ e.fd_ := by
  intro lines
  induction lines with
  | nil => intro sfs offset e he; simp [Storage.layout_entries] at he
  | cons l rest ih =>
    intro sfs offset e he hop
    simp only [Storage.layout_entries] at he
    rcases List.mem_cons.mp he with rfl | he
    · exact Storage.line_file_open _ _ _ _ _ hop
    · exact ih _ _ e he hop

/-- C8 (as stated, refuted): the manifest `manifest_unsafe` has the unsafe entry
`../etc/passwd` after the safe entry `a.txt`; `ParseSpec` fails, but by then the StorageFile
of `a.txt` has been constructed and opened (descriptor 3) under `destdir`. -/
theorem Storage.ParseSpec_unsafe_after_safe_opens_file :
    Storage.unsafe_path (Storage.line_specpath "../etc/passwd 10\n".toList) ∧
      text_lines manifest_unsafe
        = ["META-INF-multifilespec.txt 55\n".toList, "a.txt 3\n".toList,
           "../etc/passwd 10\n".toList] ∧
      Storage.spec_lines scenario_host (scenario_spec_file manifest_unsafe 55)
        = text_lines manifest_unsafe ∧
      (Storage.ParseSpec scenario_host (scenario_spec manifest_unsafe 55) 0).1 = -1 ∧
      (Storage.ParseSpec scenario_host (scenario_spec manifest_unsafe 55) 0).2.sfs_.map
          (fun sf => (sf.spec_pathname_, sf.os_pathname_, sf.fd_))
        = [(Storage.MULTIFILE_PATHNAME, "spec".toList, 3),
           ("a.txt".toList, "dest/a.txt".toList, 3)] :=
  ⟨Or.inr ⟨[], "/etc/passwd".toList, by decide⟩, by decide, by decide, by decide, by decide⟩

/-- C8 (amended): for every spec file none of whose lines is longer than the `fgets` buffer
and one of whose lines has a path that starts with `/` or contains `..`, `ParseSpec` fails,
and every StorageFile it has added to `sfs_` belongs to a line after the first and before
that line: no StorageFile is constructed for the unsafe entry or for any entry after it (none
at all when the unsafe entry directly follows the first line). When the spec file is open and
the lines before the unsafe one are accepted on their own (with `sf.GetSize > 0`, no negative
size and no sum beyond `INT64_MAX`), the StorageFiles added are exactly one for each of these
lines after the first, in their order, and each of them has been opened. -/
theorem Storage.ParseSpec_unsafe_adds_only_earlier (h : Host) (s : Storage) (i : Nat)
    (sf : StorageFile) (hsf : s.sfs_[i]? = some sf)
    (hfit : ∀ l ∈ text_lines sf.data, l.length < h.MULTIFILE_MAX_LINE)
    (pre : List (List Char)) (bad : List Char) (post : List (List Char))
    (hlines : text_lines sf.data = pre ++ bad :: post)
    (hbad : Storage.unsafe_path (Storage.line_specpath bad)) :
    (Storage.ParseSpec h s i).1 < 0 ∧
      ∃ added : List StorageFile, (Storage.ParseSpec h s i).2.sfs_ = s.sfs_ ++ added ∧
        added.length ≤ pre.length - 1 ∧
        (∀ nsf ∈ added, ∃ l ∈ pre.tail, nsf.spec_pathname_ = Storage.line_specpath l) ∧
        (0 ≤ sf.fd_ → (Storage.ParseSpec_loop h s.destdir_ sf pre 0 s.sfs_).ret = 0 →
          0 < sf.GetSize → (∀ l ∈ pre.tail, 0 ≤ Storage.line_fsize l) →
          sf.GetSize + (pre.tail.map Storage.line_fsize).sum ≤ INT64_MAX →
          added.map (fun e => e.spec_pathname_) = pre.tail.map Storage.line_specpath ∧
          ∀ e ∈ added, e.broken_ = false ∧ 0 ≤ e.fd_) := by
  unfold Storage.ParseSpec
  simp only [hsf]
  by_cases hfd : sf.fd_ < 0
  · rw [if_pos hfd]
    exact ⟨by simp, [], by simp, by simp, by simp, fun h0 => absurd h0 (by omega)⟩
  · rw [if_neg hfd, Storage.spec_lines_eq_text_lines h sf hfit, hlines]
    obtain ⟨hr, hsfs⟩ := Storage.ParseSpec_loop_unsafe h s.destdir_ sf pre bad post 0 s.sfs_ hbad
    rw [if_pos hr]
    refine ⟨hr, ?_⟩
    simp only
    rw [hsfs]
    cases pre with
    | nil =>
      exact ⟨[], by simp [Storage.ParseSpec_loop], by simp, by simp, by simp⟩
    | cons l0 pre' =>
      simp only [List.length_cons, Nat.add_sub_cancel, List.tail_cons]
      rw [Storage.ParseSpec_loop_cons]
      split
      · exact ⟨[], by simp, by simp, by simp, fun _ hret => by simp at hret⟩
      · rw [if_pos rfl]
        obtain ⟨added, e, hlen, hall⟩ := Storage.ParseSpec_loop_added h s.destdir_ sf pre'
          (int64 (0 + sf.GetSize)) s.sfs_
        refine ⟨added, e, hlen, hall, ?_⟩
        intro _ hret hpos hnn hmax
        have hrest := List.sum_map_nonneg Storage.line_fsize pre' hnn
        have hG : int64 (0 + sf.GetSize) = sf.GetSize := by
          rw [Int.zero_add]
          exact int64_of_range _ (by unfold INT64_MIN; omega) (by omega)
        rw [hG] at hret e
        obtain ⟨e1, _, e3⟩ := Storage.ParseSpec_loop_layout h s.destdir_ sf pre' sf.GetSize
          s.sfs_ hpos hnn hmax hret
        have hadd : added = Storage.layout_entries h s.destdir_ s.sfs_ sf.GetSize pre' :=
          List.append_cancel_left (e.symm.trans e1)
        subst hadd
        refine ⟨Storage.layout_entries_paths h s.destdir_ pre' s.sfs_ sf.GetSize, ?_⟩
        intro x hx
        exact ⟨e3 x hx, Storage.layout_entries_open h s.destdir_ pre' s.sfs_ sf.GetSize x hx
          (e3 x hx)⟩

/-- C8 (amended) at `manifest_unsafe`: the unsafe entry is the third line, and the StorageFile
of the line before it, `a.txt`, has been made and opened. -/
theorem Storage.ParseSpec_unsafe_adds_only_earlier_witness :
    (∀ l ∈ text_lines (scenario_spec_file manifest_unsafe 55).data,
        l.length < scenario_host.MULTIFILE_MAX_LINE) ∧
      text_lines (scenario_spec_file manifest_unsafe 55).data
        = ["META-INF-multifilespec.txt 55\n".toList, "a.txt 3\n".toList]
          ++ "../etc/passwd 10\n".toList :: [] ∧
      (Storage.ParseSpec scenario_host (scenario_spec manifest_unsafe 55) 0).1 < 0 ∧
      ∃ added : List StorageFile,
        (Storage.ParseSpec scenario_host (scenario_spec manifest_unsafe 55) 0).2.sfs_
          = (scenario_spec manifest_unsafe 55).sfs_ ++ added ∧
        added.length ≤ ["META-INF-multifilespec.txt 55\n".toList, "a.txt 3\n".toList].length - 1 ∧
        (∀ nsf ∈ added,
          ∃ l ∈ ["META-INF-multifilespec.txt 55\n".toList, "a.txt 3\n".toList].tail,
            nsf.spec_pathname_ = Storage.line_specpath l) ∧
        (0 ≤ (scenario_spec_file manifest_unsafe 55).fd_ →
          (Storage.ParseSpec_loop scenario_host (scenario_spec manifest_unsafe 55).destdir_
            (scenario_spec_file manifest_unsafe 55)
            ["META-INF-multifilespec.txt 55\n".toList, "a.txt 3\n".toList] 0
            (scenario_spec manifest_unsafe 55).sfs_).ret = 0 →
          0 < (scenario_spec_file manifest_unsafe 55).GetSize →
          (∀ l ∈ ["META-INF-multifilespec.txt 55\n".toList, "a.txt 3\n".toList].tail,
            0 ≤ Storage.line_fsize l) →
          (scenario_spec_file manifest_unsafe 55).GetSize
            + (["META-INF-multifilespec.txt 55\n".toList, "a.txt 3\n".toList].tail.map
                Storage.line_fsize).sum ≤ INT64_MAX →
          added.map (fun e => e.spec_pathname_)
            = ["META-INF-multifilespec.txt 55\n".toList, "a.txt 3\n".toList].tail.map
                Storage.line_specpath ∧
          ∀ e ∈ added, e.broken_ = false ∧ 0 ≤ e.fd_) :=
  ⟨by decide, by decide,
    Storage.ParseSpec_unsafe_adds_only_earlier scenario_host (scenario_spec manifest_unsafe 55) 0
      _ rfl (by decide) ["META-INF-multifilespec.txt 55\n".toList, "a.txt 3\n".toList]
      "../etc/passwd 10\n".toList [] (by decide)
      (Or.inr ⟨[], "/etc/passwd".toList, by decide⟩)⟩

theorem scenario_unsafe_prefix_accepted :
    0 ≤ (scenario_spec_file manifest_unsafe 55).fd_ ∧
      (Storage.ParseSpec_loop scenario_host (scenario_spec manifest_unsafe 55).destdir_
        (scenario_spec_file manifest_unsafe 55)
        ["META-INF-multifilespec.txt 55\n".toList, "a.txt 3\n".toList] 0
        (scenario_spec manifest_unsafe 55).sfs_).ret = 0 ∧
      0 < (scenario_spec_file manifest_unsafe 55).GetSize ∧
      (∀ l ∈ ["META-INF-multifilespec.txt 55\n".toList, "a.txt 3\n".toList].tail,
        0 ≤ Storage.line_fsize l) ∧
      (scenario_spec_file manifest_unsafe 55).GetSize
        + (["META-INF-multifilespec.txt 55\n".toList, "a.txt 3\n".toList].tail.map
            Storage.line_fsize).sum ≤ INT64_MAX := by
  decide

/-! ### State monotonicity -/

theorem Storage.ParseSpec_state (h : Host) (s : Storage) (i : Nat) :
    (Storage.ParseSpec h s i).2.state_ = s.state_ := by
  unfold Storage.ParseSpec
  split
  · rfl
  · split
    · rfl
    · simp only
      split <;> rfl

theorem Storage.ResizeReserved_state (s : Storage) (size : Int) :
    (s.ResizeReserved size).2.state_ = s.state_ := by
  unfold Storage.ResizeReserved
  simp only
  split <;> (repeat' split) <;> rfl

theorem Storage.select_sf_state (s : Storage) (offset : Int) (j : Nat) (s1 : Storage)
    (h : s.select_sf offset = some (j, s1)) : s1.state_ = s.state_ := by
  have := (s.select_sf_sound offset j s1 h).2
  rw [this]

theorem Storage.ReadFuel_state :
    ∀ (fuel : Nat) (s : Storage) (nbyte : Nat) (offset : Int) (r : Int × List Char × Storage),
      Storage.ReadFuel fuel s nbyte offset = some r → r.2.2.state_ = s.state_ := by
  intro fuel
  induction fuel with
  | zero => intro s nbyte offset r hr; simp [Storage.ReadFuel] at hr
  | succ fuel ih =>
    intro s nbyte offset r hr
    rw [Storage.ReadFuel] at hr
    split at hr
    · simp only [Option.some.injEq] at hr; subst hr; rfl
    · split at hr
      · simp only [Option.some.injEq] at hr; subst hr; rfl
      · split at hr
        · simp only [Option.some.injEq] at hr; subst hr; rfl
        · split at hr
          · simp only [Option.some.injEq] at hr; subst hr; rfl
          · rename_i j s1 hsel
            have hs1 := s.select_sf_state offset j s1 hsel
            split at hr
            · simp only [Option.some.injEq] at hr; subst hr; exact hs1
            · simp only at hr
              split at hr
              · simp only [Option.some.injEq] at hr; subst hr; exact hs1
              · split at hr
                · split at hr
                  · exact absurd hr (by simp)
                  · rename_i w hw
                    have := ih _ _ _ w hw
                    split at hr <;>
                      (simp only [Option.some.injEq] at hr; subst hr; exact this.trans hs1)
                · simp only [Option.some.injEq] at hr; subst hr; exact hs1

theorem Storage.WriteSpecPart_state (h : Host)
    (write : Storage → List Char → Int → Option (Int × Storage))
    (hwrite : ∀ (s : Storage) (buf : List Char) (offset : Int) (r : Int × Storage),
      write s buf offset = some r → s.state_ = STOR_STATE_MFSPEC_COMPLETE →
      r.2.state_ = STOR_STATE_MFSPEC_COMPLETE)
    (s : Storage) (i : Nat) (buf : List Char) (offset : Int) (r : Int × Storage)
    (hr : Storage.WriteSpecPart h write s i buf offset = some r) :
    r.2.state_ = s.state_ ∨ r.2.state_ = STOR_STATE_MFSPEC_SIZE_KNOWN ∨
      r.2.state_ = STOR_STATE_MFSPEC_COMPLETE := by
  unfold Storage.WriteSpecPart at hr
  split at hr
  · simp only [Option.some.injEq] at hr; subst hr; exact Or.inl rfl
  · simp only at hr
    split at hr
    · simp only [Option.some.injEq] at hr; subst hr; exact Or.inl rfl
    · split at hr
      · split at hr
        · simp only [Option.some.injEq] at hr; subst hr
          exact Or.inr (Or.inr (Storage.ParseSpec_state _ _ _))
        · split at hr
          · simp only [Option.some.injEq] at hr; subst hr
            refine Or.inr (Or.inr ?_)
            rw [Storage.ResizeReserved_state]
            exact Storage.ParseSpec_state _ _ _
          · split at hr
            · exact absurd hr (by simp)
            · rename_i w hw
              have hc := hwrite _ _ _ w hw (by
                rw [Storage.ResizeReserved_state]
                exact Storage.ParseSpec_state _ _ _)
              split at hr <;>
                (simp only [Option.some.injEq] at hr; subst hr; exact Or.inr (Or.inr hc))
      · simp only [Option.some.injEq] at hr; subst hr; exact Or.inr (Or.inl rfl)

theorem Storage.WriteFuel_state (h : Host) :
    ∀ (fuel : Nat) (s : Storage) (buf : List Char) (offset : Int) (r : Int × Storage),
      Storage.WriteFuel h fuel s buf offset = some r →
      s.state_.not_regressed r.2.state_ := by
  intro fuel
  induction fuel with
  | zero => intro s buf offset r hr; simp [Storage.WriteFuel] at hr
  | succ fuel ih =>
    intro s buf offset r hr
    have hcomplete : ∀ (s : Storage) (buf : List Char) (offset : Int) (r : Int × Storage),
        Storage.WriteFuel h fuel s buf offset = some r →
        s.state_ = STOR_STATE_MFSPEC_COMPLETE → r.2.state_ = STOR_STATE_MFSPEC_COMPLETE := by
      intro s buf offset r hr hst
      have := ih s buf offset r hr
      rw [hst] at this
      exact this
    rw [Storage.WriteFuel] at hr
    cases hst : s.state_ with
    | STOR_STATE_INIT => trivial
    | STOR_STATE_SINGLE_FILE =>
      simp only [hst, Option.some.injEq] at hr
      subst hr
      rfl
    | STOR_STATE_SINGLE_LIVE_WRAP =>
      simp only [hst] at hr
      split at hr
      · split at hr
        · simp only [Option.some.injEq] at hr; subst hr; rfl
        · have := ih _ _ _ r hr
          exact this
      · simp only [Option.some.injEq] at hr; subst hr; rfl
    | STOR_STATE_MFSPEC_SIZE_KNOWN =>
      simp only [hst] at hr
      rcases Storage.WriteSpecPart_state h _ hcomplete s 0 buf offset r hr with h1 | h1 | h1
      · exact Or.inl (h1.trans hst)
      · exact Or.inl h1
      · exact Or.inr h1
    | STOR_STATE_MFSPEC_COMPLETE =>
      simp only [hst] at hr
      split at hr
      · simp only [Option.some.injEq] at hr; subst hr; exact hst
      · rename_i j s1 hsel
        have hs1 := (s.select_sf_state offset j s1 hsel).trans hst
        split at hr
        · simp only [Option.some.injEq] at hr; subst hr; exact hs1
        · split at hr
          · simp only [Option.some.injEq] at hr; subst hr; exact hs1
          · split at hr
            · split at hr
              · exact absurd hr (by simp)
              · rename_i w hw
                have := hcomplete _ _ _ w hw hs1
                split at hr <;> (simp only [Option.some.injEq] at hr; subst hr; exact this)
            · simp only [Option.some.injEq] at hr; subst hr; exact hs1

theorem storage_state_t.not_regressed_refl (a : storage_state_t) : a.not_regressed a := by
  cases a <;> simp [storage_state_t.not_regressed]

theorem storage_state_t.not_regressed_trans {a b c : storage_state_t}
    (h1 : a.not_regressed b) (h2 : b.not_regressed c) : a.not_regressed c := by
  cases a <;> simp only [storage_state_t.not_regressed] at h1 ⊢
  · rcases h1 with rfl | rfl
    · exact h2
    · exact Or.inr h2
  · subst h1; exact h2
  · subst h1; exact h2
  · subst h1; exact h2

theorem Storage.step_state (h : Host) (fuel : Nat) (s s' : Storage) (op : Storage.Op)
    (hstep : Storage.step h fuel s op = some s') : s.state_.not_regressed s'.state_ := by
  cases op with
  | Write buf offset =>
    simp only [Storage.step, Option.map_eq_some'] at hstep
    obtain ⟨r, hr, rfl⟩ := hstep
    exact Storage.WriteFuel_state h fuel s buf offset r hr
  | Read nbyte offset =>
    simp only [Storage.step, Option.map_eq_some'] at hstep
    obtain ⟨r, hr, rfl⟩ := hstep
    rw [Storage.ReadFuel_state fuel s nbyte offset r hr]
    exact storage_state_t.not_regressed_refl _
  | ResizeReserved size =>
    simp only [Storage.step, Option.some.injEq] at hstep
    subst hstep
    rw [Storage.ResizeReserved_state]
    exact storage_state_t.not_regressed_refl _
  | GetSizeFromSpec =>
    simp only [Storage.step, Option.some.injEq] at hstep
    subst hstep
    exact storage_state_t.not_regressed_refl _
  | GetReservedSize =>
    simp only [Storage.step, Option.some.injEq] at hstep
    subst hstep
    exact storage_state_t.not_regressed_refl _
  | GetMinimalReservedSize =>
    simp only [Storage.step, Option.some.injEq] at hstep
    subst hstep
    exact storage_state_t.not_regressed_refl _

/-- C10: across every sequence of Write, Read, ResizeReserved and getter calls (with any bound
on the recursion depth of Write and Read) the state never regresses: SINGLE_FILE,
SINGLE_LIVE_WRAP and MFSPEC_COMPLETE stay what they are, MFSPEC_SIZE_KNOWN stays or becomes
MFSPEC_COMPLETE, and a state other than INIT is never followed by INIT. -/
theorem Storage.state_never_regresses (h : Host) (fuel : Nat) (ops : List Storage.Op) :
    ∀ (s s' : Storage), Storage.run h fuel s ops = some s' →
      s.state_.not_regressed s'.state_ ∧
      (s.state_ ≠ STOR_STATE_INIT → s'.state_ ≠ STOR_STATE_INIT) := by
  have main : ∀ (ops : List Storage.Op) (s s' : Storage), Storage.run h fuel s ops = some s' →
      s.state_.not_regressed s'.state_ := by
    intro ops
    induction ops with
    | nil =>
      intro s s' hrun
      simp only [Storage.run, Option.some.injEq] at hrun
      subst hrun
      exact storage_state_t.not_regressed_refl _
    | cons op rest ih =>
      intro s s' hrun
      simp only [Storage.run] at hrun
      split at hrun
      · rename_i s1 hs1
        exact storage_state_t.not_regressed_trans (Storage.step_state h fuel s s1 op hs1)
          (ih s1 s' hrun)
      · exact absurd hrun (by simp)
  intro s s' hrun
  have hm := main ops s s' hrun
  refine ⟨hm, ?_⟩
  intro hne hinit
  rw [hinit] at hm
  cases hst : s.state_ <;> rw [hst] at hm <;>
    simp [storage_state_t.not_regressed] at hm
  exact hne hst

/-- C10 at a run of four operations on `scenario_complete`. -/
theorem Storage.state_never_regresses_witness :
    scenario_complete.state_.not_regressed scenario_written.state_ ∧
      (scenario_complete.state_ ≠ STOR_STATE_INIT →
        scenario_written.state_ ≠ STOR_STATE_INIT) :=
  Storage.state_never_regresses scenario_host 8
    [.Write "XYZab".toList 46, .Read 5 46, .ResizeReserved 100, .GetSizeFromSpec]
    scenario_complete scenario_written (by decide)

theorem scenario_init_size_known_then_complete :
    ((Storage.run scenario_host 8 scenario_init
        [.Write "META-INF-multifilespec.txt 46\na.txt".toList 0]).map (fun s => s.state_)
      = some STOR_STATE_MFSPEC_SIZE_KNOWN) ∧
    ((Storage.run scenario_host 8 scenario_init
        [.Write "META-INF-multifilespec.txt 46\na.txt".toList 0,
         .Write " 3\nb.txt 2\n".toList 35]).map
        (fun s => (s.state_, s.broken_, s.total_size_from_spec_))
      = some (STOR_STATE_MFSPEC_COMPLETE, false, 51)) := by
  decide

/-! ### What every operation keeps -/

theorem Storage.Frame.refl (s : Storage) : Storage.Frame s s :=
  ⟨id, id, Or.inl rfl, fun _ sf hsf => ⟨sf, hsf, rfl⟩⟩

theorem Storage.Frame.trans {a b c : Storage} (h1 : Storage.Frame a b)
    (h2 : Storage.Frame b c) : Storage.Frame a c := by
  refine ⟨fun hb => h2.broken (h1.broken hb), fun hc => h2.complete (h1.complete hc), ?_, ?_⟩
  · rcases h2.total with e2 | e2
    · rcases h1.total with e1 | e1
      · exact Or.inl (e2.trans e1)
      · exact Or.inr (h2.complete e1)
    · exact Or.inr e2
  · intro i sf hsf
    obtain ⟨sf1, hsf1, e1⟩ := h1.attrs i sf hsf
    obtain ⟨sf2, hsf2, e2⟩ := h2.attrs i sf1 hsf1
    refine ⟨sf2, hsf2, ?_⟩
    rw [e2, e1]

/-- A Storage that differs only in fields outside the frame, and in file contents. -/
theorem Storage.Frame.of_fields {s r : Storage} (hb : s.broken_ = true → r.broken_ = true)
    (hst : r.state_ = s.state_) (ht : r.total_size_from_spec_ = s.total_size_from_spec_)
    (ha : ∀ (i : Nat) (sf : StorageFile), s.sfs_[i]? = some sf →
      ∃ sf' : StorageFile, r.sfs_[i]? = some sf' ∧ sf' = { sf with data := sf'.data }) :
    Storage.Frame s r :=
  ⟨hb, fun hc => hst.trans hc, Or.inl ht, ha⟩

theorem List.getElem?_set_attrs (sfs : List StorageFile) (j : Nat) (sf0 nsf : StorageFile)
    (hj : sfs[j]? = some sf0) (hn : nsf = { sf0 with data := nsf.data }) :
    ∀ (i : Nat) (sf : StorageFile), sfs[i]? = some sf →
      ∃ sf' : StorageFile, (sfs.set j nsf)[i]? = some sf' ∧ sf' = { sf with data := sf'.data } := by
  intro i sf hsf
  rw [List.getElem?_set]
  by_cases hij : j = i
  · subst hij
    have hlt := (List.getElem?_eq_some_iff.mp hj).1
    rw [if_pos rfl, if_pos hlt]
    rw [hj] at hsf
    cases hsf
    exact ⟨nsf, rfl, hn⟩
  · rw [if_neg hij]
    exact ⟨sf, hsf, rfl⟩

theorem Storage.WriteBuffer_attrs (sf : StorageFile) (buf : List Char) (offset : Int) :
    (Storage.WriteBuffer sf buf offset).2
      = { sf with data := (Storage.WriteBuffer sf buf offset).2.data } := by
  unfold Storage.WriteBuffer StorageFile.Write
  simp only
  split <;> split <;> rfl

theorem List.getElem?_append_attrs (sfs extra : List StorageFile) :
    ∀ (i : Nat) (sf : StorageFile), sfs[i]? = some sf →
      ∃ sf' : StorageFile, (sfs ++ extra)[i]? = some sf' ∧ sf' = { sf with data := sf'.data } := by
  intro i sf hsf
  have hlt := (List.getElem?_eq_some_iff.mp hsf).1
  exact ⟨sf, by rw [List.getElem?_append_left hlt]; exact hsf, rfl⟩

theorem Storage.ParseSpec_frame (h : Host) (s : Storage) (i : Nat)
    (hst : s.state_ = STOR_STATE_MFSPEC_COMPLETE) :
    Storage.Frame s (Storage.ParseSpec h s i).2 := by
  have hstate := Storage.ParseSpec_state h s i
  refine ⟨?_, fun _ => hstate.trans hst, Or.inr (hstate.trans hst), ?_⟩
  · intro hb
    unfold Storage.ParseSpec
    split
    · rfl
    · split
      · rfl
      · simp only
        split
        · rfl
        · exact hb
  · unfold Storage.ParseSpec
    split
    · intro i sf hsf; exact ⟨sf, hsf, rfl⟩
    · rename_i sf0 hsf0
      split
      · intro i sf hsf; exact ⟨sf, hsf, rfl⟩
      · obtain ⟨e, he, _, _⟩ := Storage.ParseSpec_loop_added h s.destdir_ sf0
          (Storage.spec_lines h sf0) 0 s.sfs_
        simp only
        split <;> (simp only [he]; exact List.getElem?_append_attrs _ _)

theorem Storage.ResizeReserved_attrs (sf : StorageFile) :
    sf.ResizeReserved.2 = { sf with data := sf.ResizeReserved.2.data } := rfl

theorem Storage.ResizeReserved_loop_attrs :
    ∀ (fuel k : Nat) (sfs : List StorageFile) (i : Nat) (sf : StorageFile), sfs[i]? = some sf →
      ∃ sf' : StorageFile, (Storage.ResizeReserved_loop fuel k sfs).2[i]? = some sf' ∧
        sf' = { sf with data := sf'.data } := by
  intro fuel
  induction fuel with
  | zero => intro k sfs i sf hsf; exact ⟨sf, hsf, rfl⟩
  | succ fuel ih =>
    intro k sfs i sf hsf
    simp only [Storage.ResizeReserved_loop]
    split
    · exact ⟨sf, hsf, rfl⟩
    · rename_i a ha
      obtain ⟨sf1, h1, e1⟩ := Storage.put_file_attrs sfs k a a.ResizeReserved.2 ha
        (Storage.ResizeReserved_attrs a) i sf hsf
      split
      · exact ⟨sf1, h1, e1⟩
      · obtain ⟨sf2, h2, e2⟩ := ih (k + 1) _ i sf1 h1
        exact ⟨sf2, h2, by rw [e2, e1]⟩

theorem Storage.ResizeReserved_frame (s : Storage) (size : Int) :
    Storage.Frame s (s.ResizeReserved size).2 := by
  refine Storage.Frame.of_fields ?_ (Storage.ResizeReserved_state s size) ?_ ?_
  · intro hb
    unfold Storage.ResizeReserved
    simp only
    split <;> (repeat' split) <;> exact hb
  · unfold Storage.ResizeReserved
    simp only
    split <;> (repeat' split) <;> rfl
  · unfold Storage.ResizeReserved
    simp only
    split <;> (repeat' split) <;>
      first
      | exact fun i sf hsf => ⟨sf, hsf, rfl⟩
      | exact Storage.ResizeReserved_loop_attrs _ _ _

theorem Storage.select_sf_frame (s : Storage) (offset : Int) (j : Nat) (s1 : Storage)
    (h : s.select_sf offset = some (j, s1)) : Storage.Frame s s1 := by
  have := (s.select_sf_sound offset j s1 h).2
  rw [this]
  exact Storage.Frame.of_fields id rfl rfl (fun i sf hsf => ⟨sf, hsf, rfl⟩)

theorem Storage.ReadFuel_frame :
    ∀ (fuel : Nat) (s : Storage) (nbyte : Nat) (offset : Int) (r : Int × List Char × Storage),
      Storage.ReadFuel fuel s nbyte offset = some r → Storage.Frame s r.2.2 := by
  intro fuel
  induction fuel with
  | zero => intro s nbyte offset r hr; simp [Storage.ReadFuel] at hr
  | succ fuel ih =>
    intro s nbyte offset r hr
    rw [Storage.ReadFuel] at hr
    split at hr
    · simp only [Option.some.injEq] at hr; subst hr; exact Storage.Frame.refl _
    · split at hr
      · simp only [Option.some.injEq] at hr; subst hr; exact Storage.Frame.refl _
      · split at hr
        · simp only [Option.some.injEq] at hr; subst hr; exact Storage.Frame.refl _
        · split at hr
          · simp only [Option.some.injEq] at hr; subst hr; exact Storage.Frame.refl _
          · rename_i j s1 hsel
            have hs1 := s.select_sf_frame offset j s1 hsel
            split at hr
            · simp only [Option.some.injEq] at hr; subst hr; exact hs1
            · simp only at hr
              split at hr
              · simp only [Option.some.injEq] at hr; subst hr; exact hs1
              · split at hr
                · split at hr
                  · exact absurd hr (by simp)
                  · rename_i w hw
                    have := ih _ _ _ w hw
                    split at hr <;>
                      (simp only [Option.some.injEq] at hr; subst hr; exact hs1.trans this)
                · simp only [Option.some.injEq] at hr; subst hr; exact hs1

/-- The Storage after `WriteBuffer` on `sfs_[i]`, whatever is done to the state. -/
theorem Storage.Frame.set_file (s : Storage) (i : Nat) (sf : StorageFile)
    (hsf : s.sfs_[i]? = some sf) (buf : List Char) (offset : Int) (st : storage_state_t)
    (hst : st = s.state_ ∨ st = STOR_STATE_MFSPEC_COMPLETE) :
    Storage.Frame s { s with sfs_ := Storage.put_file s.sfs_ i (Storage.WriteBuffer sf buf offset).2,
                             state_ := st } := by
  refine ⟨id, ?_, Or.inl rfl, ?_⟩
  · intro hc
    rcases hst with e | e
    · exact e.trans hc
    · exact e
  · exact Storage.put_file_attrs s.sfs_ i sf _ hsf (Storage.WriteBuffer_attrs sf buf offset)

theorem Storage.Frame.with_ht_size (s : Storage) (v : Int) :
    Storage.Frame s { s with ht_size := v } :=
  Storage.Frame.of_fields id rfl rfl (fun i sf hsf => ⟨sf, hsf, rfl⟩)

theorem Storage.Frame.push (s : Storage) (st : storage_state_t) (hst : s.state_ = st) (v : Int)
    (sf : StorageFile) :
    Storage.Frame s { s with state_ := st, spec_size_ := v, sfs_ := s.sfs_ ++ [sf] } :=
  Storage.Frame.of_fields id hst.symm rfl (List.getElem?_append_attrs _ _)

theorem Storage.Frame.with_single (s : Storage) (fd : Int) (data : List Char) (b : Bool)
    (hb : s.broken_ = true → b = true) :
    Storage.Frame s { s with single_fd_ := fd, single_data := data, broken_ := b } :=
  Storage.Frame.of_fields hb rfl rfl (fun i sf hsf => ⟨sf, hsf, rfl⟩)

theorem Storage.OpenSingleFile_frame (h : Host) (s : Storage) :
    Storage.Frame s (Storage.OpenSingleFile h s).2 := by
  unfold Storage.OpenSingleFile
  split
  · exact Storage.Frame.with_single s _ _ true (fun _ => rfl)
  · simp only
    have f1 := Storage.Frame.with_single s (h.open_utf8 s.os_pathname_)
      (h.content s.os_pathname_) s.broken_ id
    split
    · split
      · exact f1.trans ((Storage.ResizeReserved_frame _ _).trans
          (Storage.Frame.with_single _ (-1) _ true (fun _ => rfl)))
      · exact f1.trans (Storage.ResizeReserved_frame _ _)
    · exact f1

theorem Storage.WriteSpecPart_frame (h : Host)
    (write : Storage → List Char → Int → Option (Int × Storage))
    (hwrite : ∀ (s : Storage) (buf : List Char) (offset : Int) (r : Int × Storage),
      write s buf offset = some r → Storage.Frame s r.2)
    (s : Storage) (i : Nat) (buf : List Char) (offset : Int) (r : Int × Storage)
    (hs : s.state_ = STOR_STATE_INIT ∨ s.state_ = STOR_STATE_MFSPEC_SIZE_KNOWN)
    (hr : Storage.WriteSpecPart h write s i buf offset = some r) :
    Storage.Frame s r.2 := by
  unfold Storage.WriteSpecPart at hr
  split at hr
  · simp only [Option.some.injEq] at hr; subst hr; exact Storage.Frame.refl _
  · rename_i sf hsf
    simp only at hr
    have f1 := Storage.Frame.set_file s i sf hsf buf offset s.state_ (Or.inl rfl)
    have f2 := Storage.Frame.set_file s i sf hsf buf offset STOR_STATE_MFSPEC_COMPLETE
      (Or.inr rfl)
    have f3 := f2.trans (Storage.ParseSpec_frame h _ i rfl)
    split at hr
    · simp only [Option.some.injEq] at hr; subst hr; exact f1
    · split at hr
      · split at hr
        · simp only [Option.some.injEq] at hr; subst hr
          exact f3
        · split at hr
          · simp only [Option.some.injEq] at hr; subst hr
            exact (f3.trans (Storage.Frame.with_ht_size _ _)).trans
              (Storage.ResizeReserved_frame _ _)
          · split at hr
            · exact absurd hr (by simp)
            · rename_i w hw
              have f6 := hwrite _ _ _ w hw
              have f7 := (f3.trans (Storage.Frame.with_ht_size _ _)).trans
                ((Storage.ResizeReserved_frame _ _).trans f6)
              split at hr <;> (simp only [Option.some.injEq] at hr; subst hr; exact f7)
      · simp only [Option.some.injEq] at hr; subst hr
        refine ⟨id, fun hc => ?_, Or.inl rfl, ?_⟩
        · rcases hs with e | e <;> rw [e] at hc <;> exact absurd hc (by decide)
        · exact Storage.put_file_attrs s.sfs_ i sf _ hsf (Storage.WriteBuffer_attrs sf buf offset)

theorem Storage.WriteFuel_frame (h : Host) :
    ∀ (fuel : Nat) (s : Storage) (buf : List Char) (offset : Int) (r : Int × Storage),
      Storage.WriteFuel h fuel s buf offset = some r → Storage.Frame s r.2 := by
  intro fuel
  induction fuel with
  | zero => intro s buf offset r hr; simp [Storage.WriteFuel] at hr
  | succ fuel ih =>
    intro s buf offset r hr
    rw [Storage.WriteFuel] at hr
    cases hst : s.state_ with
    | STOR_STATE_SINGLE_FILE =>
      simp only [hst, Option.some.injEq] at hr
      subst hr
      exact Storage.Frame.of_fields id hst.symm rfl (fun i sf hsf => ⟨sf, hsf, rfl⟩)
    | STOR_STATE_SINGLE_LIVE_WRAP =>
      simp only [hst] at hr
      split at hr
      · split at hr
        · simp only [Option.some.injEq] at hr; subst hr
          exact Storage.Frame.of_fields id hst.symm rfl (fun i sf hsf => ⟨sf, hsf, rfl⟩)
        · have f1 := ih _ _ _ r hr
          refine Storage.Frame.trans ?_ f1
          exact Storage.Frame.of_fields id hst.symm rfl (fun i sf hsf => ⟨sf, hsf, rfl⟩)
      · simp only [Option.some.injEq] at hr; subst hr
        exact Storage.Frame.of_fields id hst.symm rfl (fun i sf hsf => ⟨sf, hsf, rfl⟩)
    | STOR_STATE_INIT =>
      simp only [hst] at hr
      split at hr
      · split at hr
        · simp only [Option.some.injEq] at hr; subst hr; exact Storage.Frame.refl _
        · exact (Storage.Frame.push s _ hst _ _).trans
            (Storage.WriteSpecPart_frame h _ ih _ _ _ _ r (Or.inl rfl) hr)
      · have f0 : Storage.Frame s { s with state_ := STOR_STATE_SINGLE_FILE } :=
          ⟨id, fun hc => by rw [hst] at hc; exact absurd hc (by decide), Or.inl rfl,
            fun i sf hsf => ⟨sf, hsf, rfl⟩⟩
        have f1 := f0.trans (Storage.OpenSingleFile_frame h _)
        split at hr
        · simp only [Option.some.injEq] at hr; subst hr; exact f1
        · exact f1.trans (ih _ _ _ r hr)
    | STOR_STATE_MFSPEC_SIZE_KNOWN =>
      simp only [hst] at hr
      exact Storage.WriteSpecPart_frame h _ ih s 0 buf offset r (Or.inr hst) hr
    | STOR_STATE_MFSPEC_COMPLETE =>
      simp only [hst] at hr
      split at hr
      · simp only [Option.some.injEq] at hr; subst hr; exact Storage.Frame.refl _
      · rename_i j s1 hsel
        have hs1 := s.select_sf_frame offset j s1 hsel
        split at hr
        · simp only [Option.some.injEq] at hr; subst hr; exact hs1
        · rename_i sf hsf
          have f2 := Storage.Frame.set_file s1 j sf hsf buf offset s1.state_ (Or.inl rfl)
          split at hr
          · simp only [Option.some.injEq] at hr; subst hr; exact hs1.trans f2
          · split at hr
            · split at hr
              · exact absurd hr (by simp)
              · rename_i w hw
                have f3 := ih _ _ _ w hw
                split at hr <;>
                  (simp only [Option.some.injEq] at hr; subst hr; exact (hs1.trans f2).trans f3)
            · simp only [Option.some.injEq] at hr; subst hr; exact hs1.trans f2

theorem Storage.step_frame (h : Host) (fuel : Nat) (s s' : Storage) (op : Storage.Op)
    (hstep : Storage.step h fuel s op = some s') : Storage.Frame s s' := by
  cases op with
  | Write buf offset =>
    simp only [Storage.step, Option.map_eq_some'] at hstep
    obtain ⟨r, hr, rfl⟩ := hstep
    exact Storage.WriteFuel_frame h fuel s buf offset r hr
  | Read nbyte offset =>
    simp only [Storage.step, Option.map_eq_some'] at hstep
    obtain ⟨r, hr, rfl⟩ := hstep
    exact Storage.ReadFuel_frame fuel s nbyte offset r hr
  | ResizeReserved size =>
    simp only [Storage.step, Option.some.injEq] at hstep
    subst hstep
    exact Storage.ResizeReserved_frame _ _
  | GetSizeFromSpec =>
    simp only [Storage.step, Option.some.injEq] at hstep
    subst hstep
    exact Storage.Frame.refl _
  | GetReservedSize =>
    simp only [Storage.step, Option.some.injEq] at hstep
    subst hstep
    exact Storage.Frame.refl _
  | GetMinimalReservedSize =>
    simp only [Storage.step, Option.some.injEq] at hstep
    subst hstep
    exact Storage.Frame.refl _

theorem Storage.run_frame (h : Host) (fuel : Nat) :
    ∀ (ops : List Storage.Op) (s s' : Storage), Storage.run h fuel s ops = some s' →
      Storage.Frame s s' := by
  intro ops
  induction ops with
  | nil =>
    intro s s' hrun
    simp only [Storage.run, Option.some.injEq] at hrun
    subst hrun
    exact Storage.Frame.refl _
  | cons op rest ih =>
    intro s s' hrun
    simp only [Storage.run] at hrun
    split at hrun
    · rename_i s1 hs1
      exact (Storage.step_frame h fuel s s1 op hs1).trans (ih s1 s' hrun)
    · exact absurd hrun (by simp)

/-! ### The broken flag -/

/-- C11 fails as stated: the first chunk `manifest_unsafe` makes `ParseSpec` fail and marks the
Storage broken, and on that broken Storage a Write of 3 bytes at offset 55 returns 3 and
stores them in the file of `a.txt`, a Read of 4 bytes at offset 0 returns 4 bytes of the spec
file, and `ResizeReserved(100)` returns 0 and grows the file of `a.txt` to 3 bytes. -/
theorem Storage.broken_operations_still_succeed :
    Storage.Write scenario_host scenario_init manifest_unsafe 0 = some (-1, scenario_broken) ∧
    scenario_broken.broken_ = true ∧
    (Storage.Write scenario_host scenario_broken "XYZ".toList 55).map
        (fun r => (r.1, r.2.sfs_.map (fun sf => sf.data.take 4)))
      = some (3, ["META".toList, "XYZ".toList]) ∧
    (scenario_broken.Read 4 0).map (fun r => (r.1, r.2.1)) = some (4, "META".toList) ∧
    ((scenario_broken.ResizeReserved 100).1,
      (scenario_broken.ResizeReserved 100).2.sfs_.map (fun sf => sf.data.length))
      = (0, [55, 3]) :=
  ⟨by decide!, by decide, by decide, by decide, by decide⟩

/-- On a Storage whose single file could not be opened (`single_fd_` negative, as
`OpenSingleFile` leaves it when it marks the Storage broken) every Write, Read and
ResizeReserved returns a negative result and no file changes. -/
theorem Storage.closed_single_file_fails (h : Host) (s : Storage)
    (hst : s.state_ = STOR_STATE_SINGLE_FILE ∨ s.state_ = STOR_STATE_SINGLE_LIVE_WRAP)
    (hfd : s.single_fd_ < 0) :
    (∀ (buf : List Char) (offset : Int), s.Write h buf offset = some (-1, s)) ∧
    (∀ (nbyte : Nat) (offset : Int), s.Read nbyte offset = some (-1, [], s)) ∧
    (∀ size : Int, (s.ResizeReserved size).1 = -1 ∧
      (s.ResizeReserved size).2.single_data = s.single_data ∧
      (s.ResizeReserved size).2.sfs_ = s.sfs_) := by
  refine ⟨?_, ?_, ?_⟩
  · intro buf offset
    rcases hst with hst | hst
    · unfold Storage.Write
      rw [Storage.WriteFuel]
      simp only [hst, pwrite_fail _ _ _ _ _ hfd]
      cases s; simp_all
    · exact Storage.WriteFuel_live_closed h _ s buf offset hst hfd
  · intro nbyte offset
    unfold Storage.Read
    rw [Storage.ReadFuel]
    rcases hst with hst | hst
    · simp [hst, pread, hfd]
    · simp [hst, pread, hfd]
  · intro size
    unfold Storage.ResizeReserved
    rcases hst with hst | hst
    · simp only [file_resize]
      split <;> simp [hst, hfd]
    · split <;> simp [hst]

/-- C11 (amended): the broken flag is sticky. Once a Storage is marked broken it is still
marked broken after every sequence of Write, Read, ResizeReserved and getter calls (with any
bound on the recursion depth of Write and Read): no operation clears the flag. -/
theorem Storage.broken_is_sticky (h : Host) (fuel : Nat) (ops : List Storage.Op)
    (s s' : Storage) (hb : s.broken_ = true) (hrun : Storage.run h fuel s ops = some s') :
    s'.broken_ = true :=
  (Storage.run_frame h fuel ops s s' hrun).broken hb

/-- C11 (amended) at a run of four operations on `scenario_broken`. -/
theorem Storage.broken_is_sticky_witness :
    scenario_broken.broken_ = true ∧
    Storage.run scenario_host 8 scenario_broken
        [.Read 4 0, .ResizeReserved 100, .Write "XYZ".toList 55, .GetReservedSize]
      = some scenario_broken_used ∧
    scenario_broken_used.broken_ = true :=
  ⟨rfl, by decide,
    Storage.broken_is_sticky scenario_host 8
      [.Read 4 0, .ResizeReserved 100, .Write "XYZ".toList 55, .GetReservedSize]
      scenario_broken scenario_broken_used rfl (by decide)⟩

/-! ### Decimal numerals read by sscanf -/

theorem digit_val_digitChar (d : Nat) (hd : d < 10) :
    digit_val 10 (Nat.digitChar d) = some d := by
  interval_cases d <;> decide

theorem digit_val_newline (base : Nat) (hb : base ≤ 16) : digit_val base '\n' = none := by
  unfold digit_val
  have h1 : ¬ ('0' ≤ '\n' ∧ '\n' ≤ '9') := by decide
  have h2 : ¬ ('a' ≤ '\n' ∧ '\n' ≤ 'f') := by decide
  have h3 : ¬ ('A' ≤ '\n' ∧ '\n' ≤ 'F') := by decide
  simp only [h1, h2, h3, if_false]
  rw [if_neg (by omega)]

theorem scan_digits_newline (base cnt acc : Nat) (hb : base ≤ 16) (rest : List Char) :
    scan_digits base ('\n' :: rest) cnt acc = (cnt, acc) := by
  simp [scan_digits, digit_val_newline base hb]

/-- The digits that `Nat.toDigitsCore` puts in front of `ds`: a non-empty run of decimal digit
characters without a leading `0` (unless the number is 0), which `scan_digits` reads back. -/
theorem toDigitsCore_scan :
    ∀ (fuel n : Nat) (ds : List Char), n < fuel →
      ∃ pre : List Char, Nat.toDigitsCore 10 fuel n ds = pre ++ ds ∧
        (∃ (d : Nat) (r : List Char), d < 10 ∧ (0 < n → 0 < d) ∧ pre = Nat.digitChar d :: r) ∧
        (n = 0 → pre = ['0']) ∧
        ∀ (tail : List Char) (cnt acc : Nat),
          scan_digits 10 (pre ++ tail) cnt acc
            = scan_digits 10 tail (cnt + pre.length) (acc * 10 ^ pre.length + n) := by
  intro fuel
  induction fuel with
  | zero => intro n ds hn; omega
  | succ fuel ih =>
    intro n ds hn
    rw [Nat.toDigitsCore]
    by_cases hz : n / 10 = 0
    · simp only [hz, if_true]
      have hlt : n < 10 := by omega
      have hmod : n % 10 = n := Nat.mod_eq_of_lt hlt
      refine ⟨[Nat.digitChar n], by rw [hmod]; rfl, ⟨n, [], hlt, id, rfl⟩, ?_, ?_⟩
      · intro h0; subst h0; rfl
      · intro tail cnt acc
        simp only [List.singleton_append, scan_digits, digit_val_digitChar n hlt,
          List.length_singleton, pow_one]
        rfl
    · simp only [hz, if_false]
      obtain ⟨pre, he, ⟨d, r, hd, hpos, hpre⟩, _, hscan⟩ :=
        ih (n / 10) (Nat.digitChar (n % 10) :: ds) (by omega)
      refine ⟨pre ++ [Nat.digitChar (n % 10)], by rw [he]; simp,
        ⟨d, r ++ [Nat.digitChar (n % 10)], hd, fun _ => hpos (by omega), by rw [hpre]; simp⟩,
        fun h0 => by omega, ?_⟩
      intro tail cnt acc
      rw [List.append_assoc, hscan]
      simp only [List.singleton_append, scan_digits,
        digit_val_digitChar (n % 10) (Nat.mod_lt _ (by decide)), List.length_append,
        List.length_singleton]
      congr 1
      rw [pow_succ]
      have := Nat.div_add_mod n 10
      nlinarith [this]

theorem sscanf_i64_decimal (n : Nat) (rest : List Char) :
    sscanf_i64 (Nat.toDigits 10 n ++ '\n' :: rest) = (1, clamp64 (n : Int)) := by
  obtain ⟨pre, he, ⟨d, r, hd, hpos, hpre⟩, hzero, hscan⟩ := toDigitsCore_scan (n + 1) n [] (by omega)
  rw [Nat.toDigits, he, List.append_nil]
  by_cases h0 : n = 0
  · rw [hzero h0, h0]
    simp [sscanf_i64, isspace, scan_unsigned, scan_digits_newline]
  · have hd0 := hpos (by omega)
    have hs := hscan ('\n' :: rest) 0 0
    rw [scan_digits_newline _ _ _ (by decide)] at hs
    rw [hpre] at hs ⊢
    interval_cases d <;>
      simp [sscanf_i64, isspace, scan_unsigned, Nat.digitChar] at hs ⊢ <;> simp [hs]

/-! ### Termination of the multi-file Write -/

theorem Storage.WriteBuffer_fst (sf : StorageFile) (buf : List Char) (offset : Int) :
    (Storage.WriteBuffer sf buf offset).1 = (-1, -1) ∨
    (offset + (buf.length : Int) ≤ sf.end_ + 1 ∧
      (Storage.WriteBuffer sf buf offset).1 = ((buf.length : Int), 0)) ∨
    (¬ offset + (buf.length : Int) ≤ sf.end_ + 1 ∧
      (Storage.WriteBuffer sf buf offset).1
        = (sf.end_ + 1 - offset, (buf.length : Int) - (sf.end_ + 1 - offset))) := by
  unfold Storage.WriteBuffer
  simp only [StorageFile.GetEnd]
  split
  · rename_i hfit
    split
    · exact Or.inl rfl
    · exact Or.inr (Or.inl ⟨hfit, rfl⟩)
  · rename_i hbig
    split
    · exact Or.inl rfl
    · exact Or.inr (Or.inr ⟨hbig, rfl⟩)

theorem Storage.WriteFuel_complete_returns (h : Host) :
    ∀ (fuel : Nat) (s : Storage) (buf : List Char) (offset : Int),
      s.state_ = STOR_STATE_MFSPEC_COMPLETE → buf.length < fuel →
      ∃ r : Int × Storage, Storage.WriteFuel h fuel s buf offset = some r := by
  intro fuel
  induction fuel with
  | zero => intro s buf offset _ hf; omega
  | succ fuel ih =>
    intro s buf offset hst hfuel
    rw [Storage.WriteFuel]
    simp only [hst]
    split
    · exact ⟨_, rfl⟩
    · rename_i j s1 hsel
      obtain ⟨⟨sf0, hsf0, hlo, hhi⟩, hs1⟩ := s.select_sf_sound offset j s1 hsel
      have hsfs : s1.sfs_ = s.sfs_ := by rw [hs1]
      have hst1 : s1.state_ = STOR_STATE_MFSPEC_COMPLETE := by rw [hs1]; exact hst
      split
      · exact ⟨_, rfl⟩
      · rename_i sf hsf
        rw [hsfs, hsf0] at hsf
        cases hsf
        split
        · exact ⟨_, rfl⟩
        · rename_i hne
          split
          · rename_i htail
            have hlen : (buf.drop (Storage.WriteBuffer sf0 buf offset).1.1.toNat).length < fuel := by
              rcases Storage.WriteBuffer_fst sf0 buf offset with e | ⟨_, e⟩ | ⟨_, e⟩
              · rw [e] at hne; exact absurd rfl hne
              · rw [e] at htail; simp at htail
              · rw [e] at htail ⊢
                simp only [List.length_drop]
                simp only at htail
                omega
            obtain ⟨w, hw⟩ := ih
              { s1 with sfs_ := Storage.put_file s1.sfs_ j (Storage.WriteBuffer sf0 buf offset).2 }
              (buf.drop (Storage.WriteBuffer sf0 buf offset).1.1.toNat)
              (offset + (Storage.WriteBuffer sf0 buf offset).1.1) hst1 hlen
            rw [hw]
            simp only
            split <;> exact ⟨_, rfl⟩
          · exact ⟨_, rfl⟩

/-! ### The first chunk -/

theorem Storage.WriteBuffer_ok (sf : StorageFile) (buf : List Char) (offset : Int)
    (hfd : 0 ≤ sf.fd_) (hlo : sf.start_ ≤ offset) (hhi : offset ≤ sf.end_ + 1) :
    (offset + (buf.length : Int) ≤ sf.end_ + 1 ∧
      (Storage.WriteBuffer sf buf offset).1 = ((buf.length : Int), 0)) ∨
    (¬ offset + (buf.length : Int) ≤ sf.end_ + 1 ∧
      (Storage.WriteBuffer sf buf offset).1
        = (sf.end_ + 1 - offset, (buf.length : Int) - (sf.end_ + 1 - offset))) := by
  unfold Storage.WriteBuffer StorageFile.Write
  simp only [StorageFile.GetEnd, StorageFile.GetStart]
  by_cases hfit : offset + (buf.length : Int) ≤ sf.end_ + 1
  · rw [if_pos hfit, pwrite_ok _ _ _ _ _ hfd (by omega) (by omega) (le_refl _)]
    simp only
    rw [if_neg (by omega)]
    exact Or.inl ⟨hfit, rfl⟩
  · rw [if_neg hfit, pwrite_ok _ _ _ _ _ hfd (by omega) (by omega) (by omega)]
    simp only
    rw [if_neg (by omega)]
    exact Or.inr ⟨hfit, rfl⟩

/-- `WriteSpecPart` on an open spec file, for a chunk that starts inside `[start, end + 1]`:
the call returns; a chunk that ends before the end of the spec leaves MFSPEC_SIZE_KNOWN and
returns its length, a chunk that reaches the end of the spec leaves MFSPEC_COMPLETE. -/
theorem Storage.WriteSpecPart_returns (h : Host)
    (write : Storage → List Char → Int → Option (Int × Storage))
    (buf : List Char)
    (hwrite : ∀ (s : Storage) (b : List Char) (offset : Int),
      s.state_ = STOR_STATE_MFSPEC_COMPLETE → b.length ≤ buf.length →
      ∃ r : Int × Storage, write s b offset = some r ∧
        r.2.state_ = STOR_STATE_MFSPEC_COMPLETE)
    (s : Storage) (i : Nat) (sf : StorageFile) (hsf : s.sfs_[i]? = some sf) (hfd : 0 ≤ sf.fd_)
    (offset : Int) (hlo : sf.start_ ≤ offset) (hhi : offset ≤ sf.end_ + 1) :
    ∃ r : Int × Storage, Storage.WriteSpecPart h write s i buf offset = some r ∧
      (offset + (buf.length : Int) < sf.end_ + 1 →
        r.2.state_ = STOR_STATE_MFSPEC_SIZE_KNOWN ∧ r.1 = buf.length) ∧
      (sf.end_ + 1 ≤ offset + (buf.length : Int) →
        r.2.state_ = STOR_STATE_MFSPEC_COMPLETE) := by
  have hnone : ∀ (s : Storage) (b : List Char) (offset : Int),
      s.state_ = STOR_STATE_MFSPEC_COMPLETE → b.length ≤ buf.length →
      write s b offset ≠ none := by
    intro s b offset hs hb hn
    obtain ⟨r, hr, _⟩ := hwrite s b offset hs hb
    rw [hn] at hr
    exact absurd hr (by simp)
  have hsome : ∀ (s : Storage) (b : List Char) (offset : Int) (w : Int × Storage),
      write s b offset = some w → s.state_ = STOR_STATE_MFSPEC_COMPLETE →
      b.length ≤ buf.length → w.2.state_ = STOR_STATE_MFSPEC_COMPLETE := by
    intro s b offset w hw hs hb
    obtain ⟨r, hr, hrst⟩ := hwrite s b offset hs hb
    rw [hw] at hr
    cases hr
    exact hrst
  unfold Storage.WriteSpecPart
  simp only [hsf]
  have hne : (Storage.WriteBuffer sf buf offset).1.1 ≠ -1 := by
    rcases Storage.WriteBuffer_ok sf buf offset hfd hlo hhi with ⟨_, e⟩ | ⟨_, e⟩ <;>
      (rw [e]; simp only; omega)
  rw [if_neg hne]
  by_cases hend : offset + (Storage.WriteBuffer sf buf offset).1.1 = sf.GetEnd + 1
  · have hreach : sf.end_ + 1 ≤ offset + (buf.length : Int) := by
      simp only [StorageFile.GetEnd] at hend
      rcases Storage.WriteBuffer_ok sf buf offset hfd hlo hhi with ⟨_, e⟩ | ⟨_, e⟩ <;>
        (rw [e] at hend; simp only at hend; omega)
    rw [if_pos hend]
    split
    · exact ⟨_, rfl, fun hlt => by omega, fun _ => Storage.ParseSpec_state _ _ _⟩
    · split
      · refine ⟨_, rfl, fun hlt => by omega, fun _ => ?_⟩
        simp only
        rw [Storage.ResizeReserved_state]
        exact Storage.ParseSpec_state _ _ _
      · have hdrop : (buf.drop (Storage.WriteBuffer sf buf offset).1.1.toNat).length
            ≤ buf.length := by
          simp only [List.length_drop]; omega
        split
        · rename_i heq
          exact absurd heq (hnone _ _ _
            (by rw [Storage.ResizeReserved_state]; exact Storage.ParseSpec_state _ _ _) hdrop)
        · rename_i w heq
          have hwst := hsome _ _ _ w heq
            (by rw [Storage.ResizeReserved_state]; exact Storage.ParseSpec_state _ _ _) hdrop
          split <;> exact ⟨_, rfl, fun hlt => by omega, fun _ => hwst⟩
  · have hshort : offset + (buf.length : Int) < sf.end_ + 1 ∧
        (Storage.WriteBuffer sf buf offset).1.1 = buf.length := by
      simp only [StorageFile.GetEnd] at hend
      rcases Storage.WriteBuffer_ok sf buf offset hfd hlo hhi with ⟨hf, e⟩ | ⟨_, e⟩
      · rw [e] at hend ⊢; simp only at hend ⊢; exact ⟨by omega, trivial⟩
      · rw [e] at hend; simp only at hend; omega
    rw [if_neg hend]
    exact ⟨_, rfl, fun _ => ⟨rfl, hshort.2⟩, fun hge => by omega⟩

theorem StorageFile.new_at_zero (h : Host) (specpath : List Char) (size : Int)
    (ospath : List Char) (hopen : 0 ≤ h.open_utf8 ospath) :
    StorageFile.new h specpath 0 size ospath
      = { spec_pathname_ := specpath, start_ := 0, end_ := int64 (0 + size - 1),
          os_pathname_ := ospath, fd_ := h.open_utf8 ospath, broken_ := false,
          data := h.content ospath, file_id := h.realpath ospath } := by
  unfold StorageFile.new
  simp only
  rw [if_neg (by simp), if_neg (by omega)]

theorem Storage.OpenSingleFile_ok (h : Host) (s : Storage)
    (hst : s.state_ = STOR_STATE_SINGLE_FILE) (hopen : 0 ≤ h.open_utf8 s.os_pathname_)
    (hres : s.reserved_size_ = -1 ∨ 0 ≤ s.reserved_size_) :
    0 ≤ (Storage.OpenSingleFile h s).1 ∧
    (Storage.OpenSingleFile h s).2.state_ = STOR_STATE_SINGLE_FILE ∧
    (Storage.OpenSingleFile h s).2.single_fd_ = h.open_utf8 s.os_pathname_ ∧
    (Storage.OpenSingleFile h s).2.total_size_from_spec_ = s.total_size_from_spec_ ∧
    (Storage.OpenSingleFile h s).2.single_data
      = (if s.reserved_size_ = -1 then h.content s.os_pathname_
         else (file_resize (h.open_utf8 s.os_pathname_) (h.content s.os_pathname_)
           s.reserved_size_).2) := by
  unfold Storage.OpenSingleFile
  rw [if_neg (by omega)]
  simp only
  by_cases hr : s.reserved_size_ = -1
  · simp only [hr, ne_eq, not_true_eq_false, if_false, if_true]
    exact ⟨hopen, hst, trivial, trivial, trivial⟩
  · have h0 : 0 ≤ s.reserved_size_ := by omega
    have hrr : (Storage.ResizeReserved
        { s with single_fd_ := h.open_utf8 s.os_pathname_,
                 single_data := h.content s.os_pathname_ } s.reserved_size_).1 = 0 := by
      unfold Storage.ResizeReserved
      simp only [hst, file_resize]
      split <;> (simp only [if_true]; rw [if_neg (by omega), if_neg (by omega)])
    simp only [ne_eq, hr, not_false_eq_true, if_true, if_false]
    rw [if_neg (by omega)]
    refine ⟨?_, ?_, ?_, ?_, ?_⟩
    · unfold Storage.ResizeReserved
      simp only [hst]
      split <;> simpa using hopen
    · rw [Storage.ResizeReserved_state]; exact hst
    · unfold Storage.ResizeReserved
      simp only [hst]
      split <;> simp
    · unfold Storage.ResizeReserved
      simp only [hst]
      split <;> simp
    · unfold Storage.ResizeReserved
      simp only [hst]
      split <;> simp

/-- The first chunk of a single-file swarm: the file is opened, resized to a deferred
reservation, and the chunk is written at `offset`. -/
theorem Storage.WriteFuel_init_single (h : Host) (fuel : Nat) (s : Storage) (buf : List Char)
    (offset : Int) (hst : s.state_ = STOR_STATE_INIT)
    (hm : buf.take Storage.MULTIFILE_PATHNAME.length
      ≠ Storage.MULTIFILE_PATHNAME)
    (hopen : 0 ≤ h.open_utf8 s.os_pathname_)
    (hres : s.reserved_size_ = -1 ∨ 0 ≤ s.reserved_size_) (ho : 0 ≤ offset) :
    ∃ r : Int × Storage, Storage.WriteFuel h (fuel + 2) s buf offset = some r ∧
      r.1 = buf.length ∧ r.2.state_ = STOR_STATE_SINGLE_FILE ∧
      r.2.total_size_from_spec_ = s.total_size_from_spec_ ∧
      r.2.single_fd_ = h.open_utf8 s.os_pathname_ ∧
      r.2.single_data
        = (if (buf.length : Int) = 0 then (Storage.OpenSingleFile h
              { s with state_ := STOR_STATE_SINGLE_FILE }).2.single_data
           else overwrite (Storage.OpenSingleFile h
              { s with state_ := STOR_STATE_SINGLE_FILE }).2.single_data offset.toNat buf) := by
  obtain ⟨h1, h2, h3, h4, h5⟩ := Storage.OpenSingleFile_ok h
    { s with state_ := STOR_STATE_SINGLE_FILE } rfl hopen hres
  rw [Storage.WriteFuel]
  simp only [hst]
  rw [if_neg hm, if_neg (by omega), Storage.WriteFuel]
  simp only [h2]
  rw [pwrite_ok _ _ _ _ _ (by rw [h3]; exact hopen) ho (by omega) (le_refl _)]
  refine ⟨_, rfl, rfl, rfl, h4, h3, ?_⟩
  simp only [Int.toNat_ofNat, List.take_length]

/-- The first chunk of a multi-file swarm, at offset 0: entry 0 of `sfs_` becomes the spec file
on `[0, n - 1]` for the size `n` that `sscanf` reads behind the marker; a chunk shorter than
`n` leaves MFSPEC_SIZE_KNOWN and returns its length, any other chunk leaves
MFSPEC_COMPLETE. -/
theorem Storage.Write_init_marker (h : Host) (s : Storage) (buf : List Char)
    (hst : s.state_ = STOR_STATE_INIT) (hsfs : s.sfs_ = [])
    (hopen : 0 ≤ h.open_utf8 s.os_pathname_)
    (hm : buf.take Storage.MULTIFILE_PATHNAME.length
      = Storage.MULTIFILE_PATHNAME)
    (n : Int)
    (hn : sscanf_i64 (buf.drop (Storage.MULTIFILE_PATHNAME.length + 1))
      = (1, n))
    (hn0 : 0 ≤ n) :
    ∃ r : Int × Storage, s.Write h buf 0 = some r ∧
      (∃ sf : StorageFile, r.2.sfs_[0]? = some sf ∧
        sf.spec_pathname_ = Storage.MULTIFILE_PATHNAME ∧ sf.os_pathname_ = s.os_pathname_ ∧
        sf.start_ = 0 ∧ sf.end_ = n - 1) ∧
      ((buf.length : Int) < n →
        r.2.state_ = STOR_STATE_MFSPEC_SIZE_KNOWN ∧ r.1 = buf.length) ∧
      (n ≤ (buf.length : Int) → r.2.state_ = STOR_STATE_MFSPEC_COMPLETE) := by
  have hwrite : ∀ (s : Storage) (b : List Char) (offset : Int),
      s.state_ = STOR_STATE_MFSPEC_COMPLETE → b.length ≤ buf.length →
      ∃ r : Int × Storage, Storage.WriteFuel h (buf.length + 2) s b offset = some r ∧
        r.2.state_ = STOR_STATE_MFSPEC_COMPLETE := by
    intro s b offset hs hb
    obtain ⟨r, hr⟩ := Storage.WriteFuel_complete_returns h (buf.length + 2) s b offset hs
      (by omega)
    have := Storage.WriteFuel_state h _ s b offset r hr
    rw [hs] at this
    exact ⟨r, hr, this⟩
  have hnmax : n ≤ INT64_MAX := by
    have := (sscanf_i64_range
      (buf.drop (Storage.MULTIFILE_PATHNAME.length + 1))).2
    rw [hn] at this
    exact this
  have hend : int64 (0 + n - 1) = n - 1 := by
    rw [Int.zero_add]
    exact int64_of_range _ (by unfold INT64_MIN; omega) (by omega)
  have hsf := StorageFile.new_at_zero h Storage.MULTIFILE_PATHNAME n s.os_pathname_ hopen
  rw [hend] at hsf
  have how : Storage.opened_with s.sfs_
      (StorageFile.new h Storage.MULTIFILE_PATHNAME 0 n s.os_pathname_)
      = StorageFile.new h Storage.MULTIFILE_PATHNAME 0 n s.os_pathname_ := by
    rw [hsfs]; rfl
  obtain ⟨r, hr, hshort, hlong⟩ := Storage.WriteSpecPart_returns h
    (Storage.WriteFuel h (buf.length + 2)) buf hwrite
    { s with state_ := STOR_STATE_INIT, spec_size_ := n,
             sfs_ := s.sfs_ ++ [StorageFile.new h Storage.MULTIFILE_PATHNAME 0 n s.os_pathname_] }
    s.sfs_.length (StorageFile.new h Storage.MULTIFILE_PATHNAME 0 n s.os_pathname_)
    (by simp) (by rw [hsf]; exact hopen) 0 (by rw [hsf]) (by rw [hsf]; simp only; omega)
  have hframe := Storage.WriteSpecPart_frame h (Storage.WriteFuel h (buf.length + 2))
    (Storage.WriteFuel_frame h (buf.length + 2)) _ _ _ _ r (Or.inl rfl) hr
  refine ⟨r, ?_, ?_, ?_, ?_⟩
  · unfold Storage.Write
    rw [Storage.WriteFuel]
    simp only [hst]
    rw [if_pos hm]
    simp only [hn]
    rw [if_neg (by simp), how]
    exact hr
  · obtain ⟨sf', hsf', he⟩ := hframe.attrs 0 (StorageFile.new h Storage.MULTIFILE_PATHNAME 0 n
      s.os_pathname_) (by simp [hsfs])
    refine ⟨sf', hsf', ?_⟩
    rw [he, hsf]
    simp
  · intro hlt
    exact hshort (by rw [hsf]; simp only; omega)
  · intro hge
    exact hlong (by rw [hsf]; simp only; omega)

theorem Storage.WriteSpecPart_total (h : Host)
    (write : Storage → List Char → Int → Option (Int × Storage)) (buf : List Char)
    (hwrite : ∀ (s : Storage) (b : List Char) (offset : Int),
      s.state_ = STOR_STATE_MFSPEC_COMPLETE → b.length ≤ buf.length →
      write s b offset ≠ none)
    (s : Storage) (i : Nat) (offset : Int) :
    ∃ r : Int × Storage, Storage.WriteSpecPart h write s i buf offset = some r := by
  unfold Storage.WriteSpecPart
  split
  · exact ⟨_, rfl⟩
  · simp only
    split
    · exact ⟨_, rfl⟩
    · split
      · split
        · exact ⟨_, rfl⟩
        · split
          · exact ⟨_, rfl⟩
          · split
            · rename_i heq
              exact absurd heq (hwrite _ _ _
                (by rw [Storage.ResizeReserved_state]; exact Storage.ParseSpec_state _ _ _)
                (by simp only [List.length_drop]; omega))
            · split <;> exact ⟨_, rfl⟩
      · exact ⟨_, rfl⟩

/-- `Write` returns in every state but the live one (where the window has to be positive). -/
theorem Storage.Write_returns (h : Host) (s : Storage) (buf : List Char) (offset : Int)
    (hlive : s.state_ ≠ STOR_STATE_SINGLE_LIVE_WRAP) :
    ∃ r : Int × Storage, s.Write h buf offset = some r := by
  have hwrite : ∀ (s : Storage) (b : List Char) (offset : Int),
      s.state_ = STOR_STATE_MFSPEC_COMPLETE → b.length ≤ buf.length →
      Storage.WriteFuel h (buf.length + 2) s b offset ≠ none := by
    intro s b offset hs hb hn
    obtain ⟨r, hr⟩ := Storage.WriteFuel_complete_returns h (buf.length + 2) s b offset hs
      (by omega)
    rw [hn] at hr
    exact absurd hr (by simp)
  unfold Storage.Write
  cases hst : s.state_ with
  | STOR_STATE_SINGLE_LIVE_WRAP => exact absurd hst hlive
  | STOR_STATE_SINGLE_FILE =>
    rw [Storage.WriteFuel]
    simp only [hst]
    exact ⟨_, rfl⟩
  | STOR_STATE_MFSPEC_COMPLETE =>
    exact Storage.WriteFuel_complete_returns h _ s buf offset hst (by omega)
  | STOR_STATE_MFSPEC_SIZE_KNOWN =>
    rw [Storage.WriteFuel]
    simp only [hst]
    exact Storage.WriteSpecPart_total h _ buf hwrite s 0 offset
  | STOR_STATE_INIT =>
    rw [Storage.WriteFuel]
    simp only [hst]
    split
    · split
      · exact ⟨_, rfl⟩
      · exact Storage.WriteSpecPart_total h _ buf hwrite _ _ offset
    · split
      · exact ⟨_, rfl⟩
      · rw [Storage.WriteFuel]
        have := (Storage.OpenSingleFile_frame h { s with state_ := STOR_STATE_SINGLE_FILE })
        have hs2 : (Storage.OpenSingleFile h
            { s with state_ := STOR_STATE_SINGLE_FILE }).2.state_ = STOR_STATE_SINGLE_FILE := by
          unfold Storage.OpenSingleFile
          split
          · rfl
          · simp only
            split
            · split
              · simp only [Storage.ResizeReserved_state]
              · simp only [Storage.ResizeReserved_state]
            · rfl
        simp only [hs2]
        exact ⟨_, rfl⟩

/-- A first chunk that starts with the marker never leaves SINGLE_FILE. -/
theorem Storage.Write_init_marker_state (h : Host) (s : Storage) (buf : List Char)
    (offset : Int) (hst : s.state_ = STOR_STATE_INIT)
    (hm : buf.take Storage.MULTIFILE_PATHNAME.length
      = Storage.MULTIFILE_PATHNAME)
    (r : Int × Storage) (hr : s.Write h buf offset = some r) :
    r.2.state_ ≠ STOR_STATE_SINGLE_FILE := by
  unfold Storage.Write at hr
  rw [Storage.WriteFuel] at hr
  simp only [hst] at hr
  rw [if_pos hm] at hr
  split at hr
  · simp only [Option.some.injEq] at hr
    subst hr
    rw [hst]
    decide
  · have hc : ∀ (s : Storage) (buf' : List Char) (offset : Int) (r : Int × Storage),
        Storage.WriteFuel h (buf.length + 2) s buf' offset = some r →
        s.state_ = STOR_STATE_MFSPEC_COMPLETE → r.2.state_ = STOR_STATE_MFSPEC_COMPLETE := by
      intro s buf' offset r hr hs
      have := Storage.WriteFuel_state h _ s buf' offset r hr
      rw [hs] at this
      exact this
    rcases Storage.WriteSpecPart_state h _ hc _ _ _ _ r hr with e | e | e <;> rw [e] <;>
      simp

/-- C12 (as stated, refuted), at two first chunks written to `scenario_init`. The chunk that
declares the spec size `100000000000000000000` leaves the spec file on `[0, INT64_MAX - 1]`:
`sscanf` saturates. The chunk of 50 bytes that declares the size `056` leaves
MFSPEC_COMPLETE with the spec file on `[0, 45]`: the numeral is read as octal, and
`50 ≥ 46`. -/
theorem Storage.Write_first_chunk_misread :
    ((scenario_init.Write scenario_host
        "META-INF-multifilespec.txt 100000000000000000000\na.txt".toList 0).map
        (fun r => (r.1, r.2.state_, r.2.sfs_.map (fun sf => (sf.start_, sf.end_))))
      = some (54, STOR_STATE_MFSPEC_SIZE_KNOWN, [(0, 9223372036854775806)])) ∧
    ("META-INF-multifilespec.txt 056\na.txt 3\nb.txt 2\nXYZ".toList.length = 50 ∧
      (scenario_init.Write scenario_host
        "META-INF-multifilespec.txt 056\na.txt 3\nb.txt 2\nXYZ".toList 0).map
        (fun r => (r.1, r.2.state_, r.2.sfs_.map (fun sf => (sf.start_, sf.end_))))
      = some (50, STOR_STATE_MFSPEC_COMPLETE, [(0, 45), (46, 48), (49, 50)])) :=
  ⟨by decide!, by decide, by decide!⟩

/-- C12 (amended): state discovery on the first chunk. For a Storage in INIT that has seen no
chunk yet (`sfs_` empty), whose path can be opened and whose deferred reservation, if any, is
not negative, and for a chunk that is not a proper prefix of the marker (`strncmp` compares
the length of the marker, whatever `nbyte` is), `Write(buf, nbyte, 0)` returns, and it leaves
the state SINGLE_FILE if and only if `buf` does not begin with the marker; in that case it
returns `nbyte`, the single file holds `buf[k]` at position `k` for every `k < nbyte`, and
`GetSizeFromSpec()` is `-1`. When `buf` is the marker, a space, the decimal numeral of `sz`
without leading zeros and a newline (followed by anything), and `sz ≤ INT64_MAX`, entry 0 of
`sfs_` is the spec file on `[0, sz - 1]`, and the state is MFSPEC_SIZE_KNOWN with return value
`nbyte` when `nbyte < sz` and MFSPEC_COMPLETE when `nbyte ≥ sz`. -/
theorem Storage.Write_first_chunk (h : Host) (s : Storage) (buf : List Char) (sz : Nat)
    (rest : List Char) (hst : s.state_ = STOR_STATE_INIT) (hsfs : s.sfs_ = [])
    (hopen : 0 ≤ h.open_utf8 s.os_pathname_)
    (hres : s.reserved_size_ = -1 ∨ 0 ≤ s.reserved_size_)
    (hbuf : buf <+: Storage.MULTIFILE_PATHNAME → Storage.MULTIFILE_PATHNAME <+: buf) :
    ∃ r : Int × Storage, s.Write h buf 0 = some r ∧
      (r.2.state_ = STOR_STATE_SINGLE_FILE ↔ ¬ Storage.MULTIFILE_PATHNAME <+: buf) ∧
      (¬ Storage.MULTIFILE_PATHNAME <+: buf →
        r.1 = buf.length ∧ (∀ k : Nat, k < buf.length → r.2.single_data[k]? = buf[k]?) ∧
        r.2.GetSizeFromSpec = -1) ∧
      (buf = Storage.MULTIFILE_PATHNAME ++ ' ' :: (Nat.toDigits 10 sz ++ '\n' :: rest) →
        (sz : Int) ≤ INT64_MAX →
        (∃ sf : StorageFile, r.2.sfs_[0]? = some sf ∧
          sf.spec_pathname_ = Storage.MULTIFILE_PATHNAME ∧
          sf.os_pathname_ = s.os_pathname_ ∧ sf.start_ = 0 ∧ sf.end_ = (sz : Int) - 1) ∧
        ((buf.length : Int) < sz →
          r.2.state_ = STOR_STATE_MFSPEC_SIZE_KNOWN ∧ r.1 = buf.length) ∧
        ((sz : Int) ≤ buf.length → r.2.state_ = STOR_STATE_MFSPEC_COMPLETE)) := by
  by_cases hpre : Storage.MULTIFILE_PATHNAME <+: buf
  · have hm := (List.prefix_iff_eq_take.mp hpre).symm
    obtain ⟨r, hr⟩ := Storage.Write_returns h s buf 0 (by rw [hst]; decide)
    have hne := Storage.Write_init_marker_state h s buf 0 hst hm r hr
    refine ⟨r, hr, ⟨fun e => absurd e hne, fun e => absurd hpre e⟩, fun e => absurd hpre e, ?_⟩
    intro hb hmax
    have hdrop : buf.drop (Storage.MULTIFILE_PATHNAME.length + 1)
        = Nat.toDigits 10 sz ++ '\n' :: rest := by
      rw [hb]; rfl
    obtain ⟨r', hr', h1, h2, h3⟩ := Storage.Write_init_marker h s buf hst hsfs hopen hm sz
      (by rw [hdrop, sscanf_i64_decimal, clamp64_of_range _ (by unfold INT64_MIN; omega) hmax])
      (by omega)
    rw [hr] at hr'
    cases hr'
    exact ⟨h1, h2, h3⟩
  · have hm : buf.take Storage.MULTIFILE_PATHNAME.length
        ≠ Storage.MULTIFILE_PATHNAME := fun e => hpre (List.prefix_iff_eq_take.mpr e.symm)
    obtain ⟨r, hr, h1, h2, h3, h4, h5⟩ := Storage.WriteFuel_init_single h (buf.length + 1) s buf 0
      hst hm hopen hres (le_refl _)
    refine ⟨r, hr, ⟨fun _ => hpre, fun _ => h2⟩, fun _ => ⟨h1, ?_, ?_⟩, ?_⟩
    · intro k hk
      rw [h5, if_neg (by omega)]
      simpa using overwrite_getElem?_mid _ 0 buf k (by omega) (by omega)
    · unfold Storage.GetSizeFromSpec
      rw [if_pos h2]
    · intro hb
      exfalso
      apply hpre
      rw [hb]
      exact List.prefix_append _ _

/-- C12 (amended) at the first 35 bytes of the manifest of a spec of 46 bytes: the call returns
35 and leaves MFSPEC_SIZE_KNOWN with the spec file on `[0, 45]`. -/
theorem Storage.Write_first_chunk_witness :
    ("META-INF-multifilespec.txt 46\na.txt".toList <+: Storage.MULTIFILE_PATHNAME →
      Storage.MULTIFILE_PATHNAME <+: "META-INF-multifilespec.txt 46\na.txt".toList) ∧
    ∃ r : Int × Storage,
      scenario_init.Write scenario_host "META-INF-multifilespec.txt 46\na.txt".toList 0 = some r ∧
      r.2.state_ = STOR_STATE_MFSPEC_SIZE_KNOWN ∧ r.1 = 35 ∧
      ∃ sf : StorageFile, r.2.sfs_[0]? = some sf ∧ sf.start_ = 0 ∧ sf.end_ = 45 := by
  refine ⟨by decide, ?_⟩
  obtain ⟨r, hr, _, _, h3⟩ := Storage.Write_first_chunk scenario_host scenario_init
    "META-INF-multifilespec.txt 46\na.txt".toList 46 "a.txt".toList rfl rfl (by decide)
    (by decide) (by decide)
  obtain ⟨⟨sf, h0, _, _, hs, he⟩, hshort, _⟩ := h3 (by decide) (by decide)
  exact ⟨r, hr, (hshort (by decide)).1, (hshort (by decide)).2, sf, h0, hs, he⟩

/-! ### Scenarios S2 and S3 -/

/-- C13 fails as stated: of the 76 bytes of the scenario the first 56 are the spec, and they end
in the line `META-INF-multifilespec.txt` without a size, so `ParseSpec` fails: the Write
returns `-1` and leaves MFSPEC_COMPLETE with the Storage broken, one entry in `sfs_` (the spec
on `[0, 55]`) and `GetSizeFromSpec() = -1`. -/
theorem Storage.scenario_s2_as_given_fails :
    chunk_s2.length = 76 ∧
    Storage.spec_lines scenario_host (scenario_spec_file (chunk_s2.take 56) 56)
      = ["META-INF-multifilespec.txt 56\n".toList, "META-INF-multifilespec.txt".toList] ∧
    (scenario_init.Write scenario_host chunk_s2 0).map
        (fun r => (r.1, r.2.state_, r.2.broken_))
      = some (-1, STOR_STATE_MFSPEC_COMPLETE, true) ∧
    (scenario_init.Write scenario_host chunk_s2 0).map
        (fun r => (r.2.sfs_.map (fun sf => (sf.start_, sf.end_)), r.2.GetSizeFromSpec))
      = some ([(0, 55)], -1) :=
  ⟨by decide, by decide, by decide!, by decide!⟩

/-- C13 (amended): with a manifest that is 56 bytes long, `manifest_56`, followed by the 5
content bytes `XYZab`, the first Write at offset 0 returns 61 and leaves MFSPEC_COMPLETE, the
Storage not broken, three entries in `sfs_` with starts 0, 56 and 59, and
`GetSizeFromSpec() = 61`. -/
theorem Storage.scenario_s2_consistent :
    manifest_56.length = 56 ∧
    (scenario_init.Write scenario_host (manifest_56 ++ "XYZab".toList) 0).map
        (fun r => (r.1, r.2.state_, r.2.broken_))
      = some (61, STOR_STATE_MFSPEC_COMPLETE, false) ∧
    (scenario_init.Write scenario_host (manifest_56 ++ "XYZab".toList) 0).map
        (fun r => (r.2.sfs_.map (fun sf => sf.start_), r.2.GetSizeFromSpec))
      = some ([0, 56, 59], 61) :=
  ⟨by decide, by decide!, by decide!⟩

theorem Storage.new_total (h : Host) (ospathname destdir metapath : List Char) (W : Nat) :
    (Storage.new h ospathname destdir W metapath).total_size_from_spec_ = -1 ∨
    (Storage.new h ospathname destdir W metapath).state_ = STOR_STATE_MFSPEC_COMPLETE := by
  unfold Storage.new
  simp only
  (repeat' split) <;>
    first
    | exact Or.inl rfl
    | exact Or.inr rfl
    | exact Or.inr (Storage.ParseSpec_state h _ 0)
    | exact (Storage.OpenSingleFile_frame h _).total

/-- C15: in every Storage reached from the constructor by a sequence of Write, Read,
ResizeReserved and getter calls (with any bound on the recursion depth of Write and Read), if
the state is not MFSPEC_COMPLETE, so in INIT, SINGLE_FILE, SINGLE_LIVE_WRAP and
MFSPEC_SIZE_KNOWN, then `GetSizeFromSpec()` is `-1`. -/
theorem Storage.GetSizeFromSpec_unless_complete (h : Host)
    (ospathname destdir metapath : List Char) (W fuel : Nat) (ops : List Storage.Op)
    (s : Storage)
    (hrun : Storage.run h fuel (Storage.new h ospathname destdir W metapath) ops = some s)
    (hst : s.state_ ≠ STOR_STATE_MFSPEC_COMPLETE) :
    s.GetSizeFromSpec = -1 := by
  have hf := Storage.run_frame h fuel ops _ s hrun
  have htot : s.total_size_from_spec_ = -1 := by
    rcases hf.total with e | e
    · rcases Storage.new_total h ospathname destdir metapath W with e0 | e0
      · rw [e, e0]
      · exact absurd (hf.complete e0) hst
    · exact absurd e hst
  unfold Storage.GetSizeFromSpec
  split
  · rfl
  · exact htot

/-- C15 at the Storage that the first 35 bytes of a manifest of 46 bytes leave in
MFSPEC_SIZE_KNOWN. -/
theorem Storage.GetSizeFromSpec_unless_complete_witness :
    Storage.run scenario_host 40 (Storage.new scenario_host "spec".toList "dest".toList 0 [])
        [.Write "META-INF-multifilespec.txt 46\na.txt".toList 0, .GetSizeFromSpec]
      = some scenario_size_known ∧
    scenario_size_known.state_ ≠ STOR_STATE_MFSPEC_COMPLETE ∧
    scenario_size_known.GetSizeFromSpec = -1 :=
  ⟨by decide, by decide,
    Storage.GetSizeFromSpec_unless_complete scenario_host "spec".toList "dest".toList [] 0 40
      [.Write "META-INF-multifilespec.txt 46\na.txt".toList 0, .GetSizeFromSpec]
      scenario_size_known (by decide) (by decide)⟩

/-! ### Deferred reservation -/

theorem file_resize_idem (fd : Int) (data : List Char) (size : Int) :
    file_resize fd (file_resize fd data size).2 size = file_resize fd data size := by
  unfold file_resize
  by_cases hfd : fd < 0
  · simp [hfd]
  · by_cases hs : size < 0
    · simp [hfd, hs]
    · simp only [hfd, hs, if_false]
      congr 1
      apply List.ext_getElem?
      intro i
      simp only [List.getElem?_take, List.length_take, List.length_append,
        List.length_replicate]
      split
      · rename_i hi
        rw [List.getElem?_append_left (by
          simp only [List.length_take, List.length_append, List.length_replicate]; omega)]
        rw [List.getElem?_take_of_lt hi]
      · rfl

theorem StorageFile.ResizeReserved_idem (sf : StorageFile) :
    sf.ResizeReserved.2.ResizeReserved = sf.ResizeReserved := by
  unfold StorageFile.ResizeReserved
  simp only [StorageFile.GetSize, file_resize_idem]


theorem cut_fill_getElem? (m n : Nat) (d : List Char) (p : Nat) :
    (cut_fill m n d)[p]?
      = if p < n then some (if p < m then d.getD p (Char.ofNat 0) else Char.ofNat 0)
        else none := by
  unfold cut_fill
  by_cases hp : p < n
  · rw [if_pos hp, List.getElem?_take_of_lt hp]
    by_cases hpd : p < (d.take m).length
    · rw [List.getElem?_append_left hpd, List.getElem?_take_of_lt (by
        simp only [List.length_take] at hpd; omega)]
      simp only [List.length_take] at hpd
      rw [if_pos (by omega), List.getD_eq_getElem?_getD, List.getElem?_eq_getElem (by omega)]
      rfl
    · rw [List.getElem?_append_right (by omega), List.getElem?_replicate]
      simp only [List.length_take] at hpd
      rw [if_pos (by simp only [List.length_take]; omega)]
      congr 1
      split
      · rw [List.getD_eq_getElem?_getD, List.getElem?_eq_none (by omega)]
        rfl
      · rfl
  · rw [if_neg hp, List.getElem?_eq_none]
    simp only [List.length_take, List.length_append, List.length_replicate]
    omega

theorem cut_fill_getD (m n : Nat) (d : List Char) (p : Nat) (hmn : m ≤ n) :
    (cut_fill m n d).getD p (Char.ofNat 0)
      = if p < m then d.getD p (Char.ofNat 0) else Char.ofNat 0 := by
  rw [List.getD_eq_getElem?_getD, cut_fill_getElem?]
  by_cases hp : p < n
  · rw [if_pos hp]; rfl
  · rw [if_neg hp, if_neg (by omega)]; rfl

theorem cut_fill_cut_fill (m n m' n' : Nat) (d : List Char) (hmn : m ≤ n) :
    cut_fill m' n' (cut_fill m n d) = cut_fill (min m m') n' d := by
  apply List.ext_getElem?
  intro p
  rw [cut_fill_getElem?, cut_fill_getElem?, cut_fill_getD _ _ _ _ hmn]
  by_cases hp : p < n'
  · rw [if_pos hp, if_pos hp]
    congr 1
    by_cases h1 : p < m' <;> by_cases h2 : p < m
    · rw [if_pos h1, if_pos h2, if_pos (by omega)]
    · rw [if_pos h1, if_neg h2, if_neg (by omega)]
    · rw [if_neg h1, if_neg (by omega)]
    · rw [if_neg h1, if_neg (by omega)]
  · rw [if_neg hp, if_neg hp]

theorem file_resize_cut_fill (fd : Int) (data : List Char) (size : Int) (hfd : 0 ≤ fd)
    (hsize : 0 ≤ size) :
    file_resize fd data size = (0, cut_fill size.toNat size.toNat data) := by
  unfold file_resize
  rw [if_neg (by omega), if_neg (by omega)]
  congr 1
  apply List.ext_getElem?
  intro p
  rw [cut_fill_getElem?]
  by_cases hp : p < size.toNat
  · rw [if_pos hp, if_pos hp, List.getElem?_take_of_lt hp]
    by_cases hpd : p < data.length
    · rw [List.getElem?_append_left hpd, List.getD_eq_getElem?_getD,
        List.getElem?_eq_getElem hpd]
      rfl
    · rw [List.getElem?_append_right (by omega), List.getElem?_replicate,
        if_pos (by omega), List.getD_eq_getElem?_getD, List.getElem?_eq_none (by omega)]
      rfl
  · rw [if_neg hp, List.getElem?_eq_none]
    simp only [List.length_take, List.length_append, List.length_replicate]
    omega

/-- A chain of resizes leaves a file as it is or cuts and fills it. -/
theorem resize_chain_form (f : List Char) :
    ∀ seg : List (List Char × Nat),
      (∀ d, resize_chain f seg d = d) ∨
      (∃ m n : Nat, m ≤ n ∧ ∀ d, resize_chain f seg d = cut_fill m n d) := by
  intro seg
  induction seg with
  | nil => left; intro d; rfl
  | cons x seg ih =>
    by_cases hx : x.1 = f
    · rcases ih with e | ⟨m, n, hmn, e⟩
      · right
        refine ⟨x.2, x.2, le_refl _, ?_⟩
        intro d
        simp only [resize_chain, hx, if_true, e]
      · right
        refine ⟨min x.2 m, n, by omega, ?_⟩
        intro d
        simp only [resize_chain, hx, if_true, e]
        exact cut_fill_cut_fill _ _ _ _ _ (le_refl _)
    · rcases ih with e | ⟨m, n, hmn, e⟩
      · left; intro d; simp only [resize_chain, hx, if_false, e]
      · right
        exact ⟨m, n, hmn, fun d => by simp only [resize_chain, hx, if_false, e]⟩

theorem resize_chain_idem (f : List Char) (seg : List (List Char × Nat)) (d : List Char) :
    resize_chain f seg (resize_chain f seg d) = resize_chain f seg d := by
  rcases resize_chain_form f seg with e | ⟨m, n, hmn, e⟩
  · rw [e, e]
  · rw [e, e, cut_fill_cut_fill _ _ _ _ _ hmn, Nat.min_self]

theorem resized_entry_attrs (seg : List (List Char × Nat)) (e : StorageFile) :
    resized_entry seg e = { e with data := (resized_entry seg e).data } := by
  unfold resized_entry
  split <;> rfl

theorem resized_entry_nil (e : StorageFile) : resized_entry [] e = e := by
  unfold resized_entry
  split <;> rfl

theorem resized_entry_idem (seg : List (List Char × Nat)) (e : StorageFile) :
    resized_entry seg (resized_entry seg e) = resized_entry seg e := by
  unfold resized_entry
  by_cases hfd : 0 ≤ e.fd_
  · simp only [hfd, if_true, resize_chain_idem]
  · simp only [hfd, if_false]

theorem resize_steps_map (seg : List (List Char × Nat)) :
    ∀ sfs : List StorageFile,
      resize_steps (sfs.map (resized_entry seg)) = resize_steps sfs := by
  intro sfs
  induction sfs with
  | nil => rfl
  | cons e es ih =>
    have ha := resized_entry_attrs seg e
    simp only [List.map_cons, resize_steps, ih]
    rw [ha]
    simp only [StorageFile.GetSize]

theorem resize_result_map (seg : List (List Char × Nat)) :
    ∀ sfs : List StorageFile,
      resize_result (sfs.map (resized_entry seg)) = resize_result sfs := by
  intro sfs
  induction sfs with
  | nil => rfl
  | cons e es ih =>
    have ha := resized_entry_attrs seg e
    simp only [List.map_cons, resize_result, ih]
    rw [ha]

theorem Storage.coherent_map (seg : List (List Char × Nat)) (sfs : List StorageFile)
    (hc : Storage.coherent sfs) : Storage.coherent (sfs.map (resized_entry seg)) := by
  intro a ha b hb hfa hfb hid
  obtain ⟨a0, ha0, rfl⟩ := List.mem_map.mp ha
  obtain ⟨b0, hb0, rfl⟩ := List.mem_map.mp hb
  have ea := resized_entry_attrs seg a0
  have eb := resized_entry_attrs seg b0
  have hfa0 : 0 ≤ a0.fd_ := by rw [ea] at hfa; exact hfa
  have hfb0 : 0 ≤ b0.fd_ := by rw [eb] at hfb; exact hfb
  have hid0 : a0.file_id = b0.file_id := by rw [ea, eb] at hid; exact hid
  have hd := hc a0 ha0 b0 hb0 hfa0 hfb0 hid0
  unfold resized_entry
  rw [if_pos hfa0, if_pos hfb0]
  simp only
  rw [hid0, hd]

/-- One successful round of the loop on a coherent list: every open entry of the file of
`sfs[i]` sees the resize. -/
theorem Storage.put_file_resized (sfs : List StorageFile) (hc : Storage.coherent sfs)
    (i : Nat) (sf : StorageFile) (hi : sfs[i]? = some sf) (hfd : 0 ≤ sf.fd_)
    (hsz : 0 ≤ sf.GetSize) :
    sf.ResizeReserved.1 = 0 ∧
    Storage.put_file sfs i sf.ResizeReserved.2
      = sfs.map (resized_entry [(sf.file_id, sf.GetSize.toNat)]) := by
  have hrr : sf.ResizeReserved
      = (0, { sf with data := cut_fill sf.GetSize.toNat sf.GetSize.toNat sf.data }) := by
    unfold StorageFile.ResizeReserved
    rw [file_resize_cut_fill _ _ _ hfd hsz]
  rw [hrr]
  refine ⟨rfl, ?_⟩
  have hil := (List.getElem?_eq_some_iff.mp hi).1
  have hmem : sf ∈ sfs := List.getElem?_mem hi
  unfold Storage.put_file
  apply List.ext_getElem?
  intro k
  rw [List.getElem?_map, List.getElem?_map, List.getElem?_set]
  by_cases hik : i = k
  · subst hik
    rw [if_pos rfl, if_pos hil, hi]
    simp only [Option.map_some', resized_entry, resize_chain, hfd, if_true, and_self]
  · rw [if_neg hik]
    cases hk : sfs[k]? with
    | none => rfl
    | some e =>
      have hem : e ∈ sfs := List.getElem?_mem hk
      simp only [Option.map_some', resized_entry, resize_chain, hfd, true_and]
      congr 1
      by_cases hfe : 0 ≤ e.fd_
      · by_cases hid : e.file_id = sf.file_id
        · have hd := hc e hem sf hmem hfe hfd hid
          simp only [hfe, hid, if_true, and_self, hd]
        · have hid' : ¬ sf.file_id = e.file_id := fun h => hid h.symm
          simp only [hfe, hid, hid', if_true, if_false, and_false, true_and]
      · simp only [hfe, if_false, false_and]

theorem resized_entry_cons (x : List Char × Nat) (seg : List (List Char × Nat))
    (e : StorageFile) : resized_entry seg (resized_entry [x] e) = resized_entry (x :: seg) e := by
  unfold resized_entry
  by_cases hfd : 0 ≤ e.fd_
  · simp only [hfd, if_true, resize_chain]
  · simp only [hfd, if_false]

/-- The loop of `ResizeReserved` on a coherent list without negative sizes, in closed form. -/
theorem Storage.ResizeReserved_loop_eq :
    ∀ (fuel i : Nat) (sfs : List StorageFile), Storage.coherent sfs →
      (∀ sf ∈ sfs, 0 ≤ sf.GetSize) → sfs.length - i ≤ fuel →
      Storage.ResizeReserved_loop fuel i sfs
        = (resize_result (sfs.drop i), sfs.map (resized_entry (resize_steps (sfs.drop i)))) := by
  intro fuel
  induction fuel with
  | zero =>
    intro i sfs _ _ hlen
    have : sfs.drop i = [] := List.drop_eq_nil_of_le (by omega)
    rw [this]
    simp only [Storage.ResizeReserved_loop, resize_result, resize_steps]
    congr 1
    exact (List.map_id'' resized_entry_nil sfs).symm
  | succ fuel ih =>
    intro i sfs hc hsz hlen
    simp only [Storage.ResizeReserved_loop]
    cases hi : sfs[i]? with
    | none =>
      have : sfs.drop i = [] := List.drop_eq_nil_of_le (by
        rw [List.getElem?_eq_none_iff] at hi; exact hi)
      rw [this]
      simp only [resize_result, resize_steps]
      congr 1
      exact (List.map_id'' resized_entry_nil sfs).symm
    | some sf =>
      obtain ⟨hil, hget⟩ := List.getElem?_eq_some_iff.mp hi
      have hdrop : sfs.drop i = sf :: sfs.drop (i + 1) := by
        rw [List.drop_eq_getElem_cons hil, hget]
      have hsf := hsz sf (List.getElem?_mem hi)
      rw [hdrop]
      simp only [resize_result, resize_steps]
      by_cases hfd : sf.fd_ < 0
      · have hrr : sf.ResizeReserved = (-1, sf) := by
          unfold StorageFile.ResizeReserved file_resize
          simp only [hfd, if_true]
        rw [hrr]
        simp only [if_pos hfd]
        rw [if_pos (by omega)]
        congr 1
        have hput : Storage.put_file sfs i sf = sfs := by
          unfold Storage.put_file
          have hset : sfs.set i sf = sfs := by
            apply List.ext_getElem?
            intro k
            rw [List.getElem?_set]
            by_cases hik : i = k
            · subst hik; rw [if_pos rfl, if_pos hil, hi]
            · rw [if_neg hik]
          rw [hset]
          apply List.map_id''
          intro e
          rw [if_neg]
          intro hcon
          omega
        rw [hput]
        exact (List.map_id'' resized_entry_nil sfs).symm
      · obtain ⟨h1, h2⟩ := Storage.put_file_resized sfs hc i sf hi (by omega) hsf
        simp only [if_neg hfd]
        rw [if_neg (by omega), h2]
        have hc' := Storage.coherent_map [(sf.file_id, sf.GetSize.toNat)] sfs hc
        have hsz' : ∀ e ∈ sfs.map (resized_entry [(sf.file_id, sf.GetSize.toNat)]),
            0 ≤ e.GetSize := by
          intro e he
          obtain ⟨e0, he0, rfl⟩ := List.mem_map.mp he
          have := hsz e0 he0
          rw [resized_entry_attrs]
          exact this
        rw [ih (i + 1) _ hc' hsz' (by simp only [List.length_map]; omega)]
        rw [← List.map_drop, resize_result_map, resize_steps_map, List.map_map]
        congr 1
        apply List.map_congr_left
        intro e _
        exact resized_entry_cons _ _ e

theorem Storage.ResizeReserved_loop_idem (sfs : List StorageFile) (hc : Storage.coherent sfs)
    (hsz : ∀ sf ∈ sfs, 0 ≤ sf.GetSize) :
    Storage.ResizeReserved_loop (Storage.ResizeReserved_loop sfs.length 0 sfs).2.length 0
        (Storage.ResizeReserved_loop sfs.length 0 sfs).2
      = Storage.ResizeReserved_loop sfs.length 0 sfs := by
  rw [Storage.ResizeReserved_loop_eq sfs.length 0 sfs hc hsz (by omega)]
  simp only [List.drop_zero, List.length_map]
  have hc' := Storage.coherent_map (resize_steps sfs) sfs hc
  have hsz' : ∀ e ∈ sfs.map (resized_entry (resize_steps sfs)), 0 ≤ e.GetSize := by
    intro e he
    obtain ⟨e0, he0, rfl⟩ := List.mem_map.mp he
    have := hsz e0 he0
    rw [resized_entry_attrs]
    exact this
  rw [Storage.ResizeReserved_loop_eq _ 0 _ hc' hsz' (by simp)]
  simp only [List.drop_zero]
  rw [resize_result_map, resize_steps_map, List.map_map]
  congr 1
  apply List.map_congr_left
  intro e _
  exact resized_entry_idem _ e

theorem resize_result_cases :
    ∀ sfs : List StorageFile, resize_result sfs = 0 ∨ resize_result sfs = -1 := by
  intro sfs
  induction sfs with
  | nil => left; rfl
  | cons e es ih =>
    simp only [resize_result]
    split
    · right; rfl
    · exact ih

theorem Storage.GetReservedSize_loop_ge :
    ∀ (sfs : List StorageFile) (total : Int), -1 ≤ total →
      -1 ≤ Storage.GetReservedSize_loop sfs total := by
  intro sfs
  induction sfs with
  | nil => intro total h; exact h
  | cons sf rest ih =>
    intro total h
    simp only [Storage.GetReservedSize_loop, StorageFile.file_size_by_path]
    split
    · split <;> omega
    · apply ih
      omega

/-- A failed `ResizeReserved` loop has met a file that is not open, and `GetReservedSize` then
fails on the same file. -/
theorem Storage.GetReservedSize_loop_after_fail (seg : List (List Char × Nat)) :
    ∀ (sfs : List StorageFile) (total : Int), resize_result sfs < 0 →
      Storage.GetReservedSize_loop (sfs.map (resized_entry seg)) total = -1 := by
  intro sfs
  induction sfs with
  | nil => intro total h; simp [resize_result] at h
  | cons e es ih =>
    intro total hfail
    simp only [resize_result] at hfail
    have ha := resized_entry_attrs seg e
    have hfd : (resized_entry seg e).fd_ = e.fd_ := by rw [ha]
    simp only [List.map_cons, Storage.GetReservedSize_loop, StorageFile.file_size_by_path, hfd]
    by_cases hneg : e.fd_ < 0
    · rw [if_pos hneg, if_pos (by omega)]
    · rw [if_neg hneg] at hfail
      rw [if_neg hneg, if_neg (by omega)]
      exact ih _ hfail

theorem Storage.ResizeReserved_complete (t : Storage) (size : Int)
    (ht : t.alloc_cb_ = false) (hst : t.state_ = STOR_STATE_MFSPEC_COMPLETE) :
    t.ResizeReserved size
      = (if size > Storage.GetReservedSize_loop t.sfs_ 0 then
          ((Storage.ResizeReserved_loop t.sfs_.length 0 t.sfs_).1,
            { t with sfs_ := (Storage.ResizeReserved_loop t.sfs_.length 0 t.sfs_).2 })
        else (0, t)) := by
  unfold Storage.ResizeReserved Storage.GetReservedSize
  simp [ht, hst]

theorem Storage.ResizeReserved_idem_core (t : Storage) (size : Int)
    (ht : t.alloc_cb_ = false) (hc : Storage.coherent t.sfs_)
    (hsz : ∀ sf ∈ t.sfs_, sf.start_ ≤ sf.end_ + 1) :
    (t.ResizeReserved size).2.ResizeReserved size = t.ResizeReserved size := by
  have hsz' : ∀ sf ∈ t.sfs_, 0 ≤ sf.GetSize := by
    intro sf hsf
    have := hsz sf hsf
    simp only [StorageFile.GetSize]
    omega
  cases hst : t.state_ with
  | STOR_STATE_INIT => simp [Storage.ResizeReserved, ht, hst]
  | STOR_STATE_MFSPEC_SIZE_KNOWN => simp [Storage.ResizeReserved, ht, hst]
  | STOR_STATE_SINGLE_LIVE_WRAP => simp [Storage.ResizeReserved, ht, hst]
  | STOR_STATE_SINGLE_FILE => simp [Storage.ResizeReserved, ht, hst, file_resize_idem]
  | STOR_STATE_MFSPEC_COMPLETE =>
    rw [Storage.ResizeReserved_complete t size ht hst]
    by_cases hgt : size > Storage.GetReservedSize_loop t.sfs_ 0
    · rw [if_pos hgt]
      simp only
      rw [Storage.ResizeReserved_complete
        { t with sfs_ := (Storage.ResizeReserved_loop t.sfs_.length 0 t.sfs_).2 } size ht hst]
      simp only
      by_cases hgt2 : size > Storage.GetReservedSize_loop
          (Storage.ResizeReserved_loop t.sfs_.length 0 t.sfs_).2 0
      · rw [if_pos hgt2, Storage.ResizeReserved_loop_idem t.sfs_ hc hsz']
      · rw [if_neg hgt2]
        have heq := Storage.ResizeReserved_loop_eq t.sfs_.length 0 t.sfs_ hc hsz' (by omega)
        simp only [List.drop_zero] at heq
        rcases resize_result_cases t.sfs_ with e | e
        · rw [heq, e]
        · rw [heq] at hgt2
          simp only at hgt2
          rw [Storage.GetReservedSize_loop_after_fail _ t.sfs_ 0 (by omega)] at hgt2
          have := Storage.GetReservedSize_loop_ge t.sfs_ 0 (by omega)
          omega
    · rw [if_neg hgt]
      simp only
      rw [Storage.ResizeReserved_complete t size ht hst, if_neg hgt]

theorem Storage.ResizeReserved_of_cb (s : Storage) (size : Int) (hcb : s.alloc_cb_ = true) :
    s.ResizeReserved size
      = Storage.ResizeReserved
          { s with alloc_cb_ := false, alloc_cb_calls := s.alloc_cb_calls + 1 } size := by
  unfold Storage.ResizeReserved
  simp [hcb]

/-- C17 (as stated, refuted): `manifest_negative` parses without error and leaves
MFSPEC_COMPLETE with an entry of size `-5`; there `ResizeReserved(60)` returns `-1` (the
resize of that entry fails after the entry before it has grown by 10 bytes), and a second
`ResizeReserved(60)` returns 0, since now `GetReservedSize()` is 67. -/
theorem Storage.ResizeReserved_twice_differs :
    (Storage.ParseSpec scenario_host (scenario_spec manifest_negative 57) 0).1 = 0 ∧
    (Storage.ParseSpec scenario_host (scenario_spec manifest_negative 57) 0).2.state_
      = STOR_STATE_MFSPEC_COMPLETE ∧
    (Storage.ParseSpec scenario_host (scenario_spec manifest_negative 57) 0).2.sfs_.map
        (fun sf => sf.end_ - sf.start_ + 1) = [57, 10, -5, 10] ∧
    (Storage.ParseSpec scenario_host (scenario_spec manifest_negative 57) 0).2.GetReservedSize
      = 57 ∧
    (Storage.ResizeReserved
      (Storage.ParseSpec scenario_host (scenario_spec manifest_negative 57) 0).2 60).1 = -1 ∧
    (Storage.ResizeReserved
      (Storage.ParseSpec scenario_host (scenario_spec manifest_negative 57) 0).2
        60).2.GetReservedSize = 67 ∧
    (Storage.ResizeReserved (Storage.ResizeReserved
      (Storage.ParseSpec scenario_host (scenario_spec manifest_negative 57) 0).2 60).2 60).1
      = 0 :=
  ⟨by decide, by decide, by decide, by decide, by decide, by decide, by decide⟩

/-- C17 (amended): in every state in which no entry of `sfs_` has a negative size (and the
entries that have the same file open show the same content, as they do on disk), and for
every `size`, a second `ResizeReserved(size)` right after the first returns the same result
and leaves the same Storage, files included, as the first call alone; and in
MFSPEC_COMPLETE, with any entries, `ResizeReserved(size)` with `size` not larger than
`GetReservedSize()` returns 0 and changes no file. -/
theorem Storage.ResizeReserved_idempotent (s : Storage) (size : Int) :
    (Storage.coherent s.sfs_ → (∀ sf ∈ s.sfs_, sf.start_ ≤ sf.end_ + 1) →
      (s.ResizeReserved size).2.ResizeReserved size = s.ResizeReserved size) ∧
    (s.state_ = STOR_STATE_MFSPEC_COMPLETE → size ≤ s.GetReservedSize →
      (s.ResizeReserved size).1 = 0 ∧ (s.ResizeReserved size).2.sfs_ = s.sfs_ ∧
      (s.ResizeReserved size).2.single_data = s.single_data) := by
  refine ⟨?_, ?_⟩
  · intro hc hsz
    cases hcb : s.alloc_cb_ with
    | false => exact Storage.ResizeReserved_idem_core s size hcb hc hsz
    | true =>
      rw [Storage.ResizeReserved_of_cb s size hcb]
      exact Storage.ResizeReserved_idem_core _ size rfl hc hsz
  · intro hst hle
    have hle' : ¬ size > Storage.GetReservedSize_loop s.sfs_ 0 := by
      unfold Storage.GetReservedSize at hle
      simp only [hst] at hle
      simp at hle
      omega
    cases hcb : s.alloc_cb_ with
    | false =>
      rw [Storage.ResizeReserved_complete s size hcb hst, if_neg hle']
      exact ⟨rfl, rfl, rfl⟩
    | true =>
      rw [Storage.ResizeReserved_of_cb s size hcb,
        Storage.ResizeReserved_complete
          { s with alloc_cb_ := false, alloc_cb_calls := s.alloc_cb_calls + 1 } size rfl hst,
        if_neg hle']
      exact ⟨rfl, rfl, rfl⟩

/-- C17 (amended) at `scenario_complete`, whose files hold 51 bytes: `ResizeReserved(100)` twice
is `ResizeReserved(100)` once, and `ResizeReserved(40)` returns 0 and leaves `sfs_` alone. -/
theorem Storage.ResizeReserved_idempotent_witness :
    (scenario_complete.ResizeReserved 100).2.ResizeReserved 100
      = scenario_complete.ResizeReserved 100 ∧
    (scenario_complete.ResizeReserved 40).1 = 0 ∧
    (scenario_complete.ResizeReserved 40).2.sfs_ = scenario_complete.sfs_ := by
  have k100 := Storage.ResizeReserved_idempotent scenario_complete 100
  have k40 := Storage.ResizeReserved_idempotent scenario_complete 40
  exact ⟨k100.1 (by decide) (by decide), (k40.2 rfl (by decide)).1,
    (k40.2 rfl (by decide)).2.1⟩

/-! ### Path translation -/

theorem stringreplace_go_single (a : Char) (repl : List Char) :
    ∀ (fuel : Nat) (s : List Char), s.length ≤ fuel →
      stringreplace_go [a] repl fuel s
        = (s.map (fun x => if x = a then repl else [x])).flatten := by
  intro fuel
  induction fuel with
  | zero =>
    intro s hs
    have : s = [] := List.length_eq_zero.mp (by omega)
    subst this
    rfl
  | succ fuel ih =>
    intro s hs
    cases s with
    | nil => rfl
    | cons c cs =>
      simp only [stringreplace_go, starts_with, Bool.and_true, beq_iff_eq, List.length_singleton,
        List.drop_succ_cons, List.drop_zero, List.map_cons, List.flatten_cons]
      have hcs : cs.length ≤ fuel := by simp only [List.length_cons] at hs; omega
      by_cases hc : a = c
      · subst hc
        simp [ih cs hcs]
      · have hc' : ¬ c = a := fun e => hc e.symm
        simp [hc, hc', ih cs hcs]

theorem stringreplace_single (a : Char) (repl s : List Char) :
    stringreplace s [a] repl = (s.map (fun x => if x = a then repl else [x])).flatten := by
  unfold stringreplace
  rw [if_neg (by simp)]
  exact stringreplace_go_single a repl s.length s (le_refl _)

theorem flatten_map_single (f : Char → Char) (s : List Char) :
    (s.map (fun x => [f x])).flatten = s.map f := by
  induction s with
  | nil => rfl
  | cons c cs ih => simp [ih]

theorem stringreplace_char (a b : Char) (s : List Char) :
    stringreplace s [a] [b] = s.map (fun x => if x = a then b else x) := by
  rw [stringreplace_single, ← flatten_map_single]
  congr 1
  apply List.map_congr_left
  intro x _
  split <;> rfl

/-- `spec2ospn` for any separator: every `/` of the path is replaced by `FILE_SEP` when
`FILE_SEP` is not `/`, and the path is returned as it is otherwise. -/
theorem Storage.spec2ospn_eq (h : Host) (p : List Char) :
    Storage.spec2ospn h p
      = (if h.FILE_SEP = "/".toList then p
         else (p.map (fun x => if x = '/' then h.FILE_SEP else [x])).flatten) := by
  unfold Storage.spec2ospn Storage.MULTIFILE_PATHNAME_FILE_SEP
  by_cases hs : h.FILE_SEP = "/".toList
  · rw [if_neg (by rw [hs]; simp), if_pos hs]
  · rw [if_pos (fun e => hs e.symm), if_neg hs]
    exact stringreplace_single '/' h.FILE_SEP p

/-- C18 fails as stated: with the backslash as host separator the portable path made of `a`,
a backslash and `b` (one file name that contains a backslash) comes back from
`os2specpn(spec2ospn(p))` as `a/b`. -/
theorem Storage.os2specpn_spec2ospn_backslash :
    Storage.spec2ospn scenario_host_backslash ['a', Char.ofNat 92, 'b']
      = ['a', Char.ofNat 92, 'b'] ∧
    Storage.os2specpn scenario_host_backslash
        (Storage.spec2ospn scenario_host_backslash ['a', Char.ofNat 92, 'b'])
      = ['a', '/', 'b'] ∧
    ['a', '/', 'b'] ≠ ['a', Char.ofNat 92, 'b'] := by
  decide

/-- C18 (amended): for a host separator that is a single character `c`, and every portable
path `p` in which `c` does not occur unless `c` is `/`, `os2specpn(spec2ospn(p)) = p`; and
`spec2ospn(p)` is `p` with every `/` replaced by `c` (so `p` itself when `c` is `/`). -/
theorem Storage.os2specpn_spec2ospn (h : Host) (p : List Char) (c : Char)
    (hsep : h.FILE_SEP = [c]) (hp : c = '/' ∨ c ∉ p) :
    Storage.os2specpn h (Storage.spec2ospn h p) = p ∧
    Storage.spec2ospn h p = p.map (fun x => if x = '/' then c else x) := by
  unfold Storage.os2specpn Storage.spec2ospn Storage.MULTIFILE_PATHNAME_FILE_SEP
  rw [hsep]
  by_cases hc : c = '/'
  · subst hc
    have : (fun x : Char => if x = '/' then '/' else x) = id := by
      funext x
      split
      · rename_i e; exact e.symm
      · rfl
    have hsl : "/".toList = ['/'] := rfl
    rw [this, List.map_id, if_neg (fun hn => hn hsl), if_neg (fun hn => hn hsl)]
    exact ⟨rfl, rfl⟩
  · have hne : "/".toList ≠ [c] := by
      intro e
      apply hc
      simpa using e.symm
    have hnot : c ∉ p := by
      rcases hp with e | e
      · exact absurd e hc
      · exact e
    rw [if_pos hne, if_pos hne]
    have e1 : stringreplace p "/".toList [c] = p.map (fun x => if x = '/' then c else x) :=
      stringreplace_char '/' c p
    have e2 : ∀ q : List Char, stringreplace q [c] "/".toList
        = q.map (fun x => if x = c then '/' else x) := stringreplace_char c '/'
    rw [e1, e2]
    refine ⟨?_, rfl⟩
    rw [List.map_map]
    conv_rhs => rw [← List.map_id p]
    apply List.map_congr_left
    intro x hx
    have hxc : x ≠ c := fun e => hnot (e ▸ hx)
    simp only [Function.comp_apply, id_eq]
    by_cases hx1 : x = '/'
    · simp [hx1]
    · simp [hx1, hxc]

/-- C18 (amended) at the backslash host and the path `dir/a.txt`. -/
theorem Storage.os2specpn_spec2ospn_witness :
    Storage.os2specpn scenario_host_backslash
        (Storage.spec2ospn scenario_host_backslash "dir/a.txt".toList) = "dir/a.txt".toList ∧
    Storage.spec2ospn scenario_host_backslash "dir/a.txt".toList
      = "dir/a.txt".toList.map (fun x => if x = '/' then Char.ofNat 92 else x) :=
  Storage.os2specpn_spec2ospn scenario_host_backslash "dir/a.txt".toList (Char.ofNat 92) rfl
    (Or.inr (by decide))

/-! ### Termination of the binary search -/

theorem Storage.FindStorageFile_run_eq (sfs : List StorageFile) (offset : Int) :
    ∀ (fuel : Nat) (imin imax : Int), 0 ≤ imin → imax < sfs.length →
      imax - imin + 1 ≤ fuel →
      Storage.FindStorageFile_run sfs offset fuel imin imax
        = some (Storage.FindStorageFile_loop sfs offset fuel imin imax) := by
  intro fuel
  induction fuel with
  | zero =>
    intro imin imax h0 h1 h2
    simp only [Storage.FindStorageFile_run, Storage.FindStorageFile_loop]
    rw [if_neg (by omega)]
  | succ fuel ih =>
    intro imin imax h0 h1 h2
    simp only [Storage.FindStorageFile_run, Storage.FindStorageFile_loop]
    by_cases hge : imax ≥ imin
    · rw [if_pos hge, if_pos hge]
      have hmid : ((imin + imax) / 2).toNat < sfs.length := by omega
      rw [List.getElem?_eq_getElem hmid]
      simp only
      split
      · exact ih _ _ (by omega) h1 (by omega)
      · split
        · exact ih _ _ h0 (by omega) (by omega)
        · rfl
    · rw [if_neg hge, if_neg hge]

/-- C19: `FindStorageFile` is a correct binary search. For every `sfs_` and offset the loop
ends within `sfs_.size()` rounds, without leaving `sfs_` (`FindStorageFile_run` gives the
answer of `FindStorageFile`). When `sfs_` is sorted and contiguous, starts at 0 and
`total_size_from_spec_` is the end of its last entry plus one, the answer for
`0 ≤ offset < total_size_from_spec_` is an entry `sfs_[i]` with `start ≤ offset ≤ end`, and
the answer is NULL when `offset < 0`, when `offset ≥ total_size_from_spec_`, and when `sfs_`
is empty. -/
theorem Storage.FindStorageFile_binary_search (s : Storage) (offset : Int)
    (hl : SortedContiguous s.sfs_)
    (hfirst : ∀ a : StorageFile, s.sfs_[0]? = some a → a.start_ = 0)
    (htotal : ∀ b : StorageFile, s.sfs_.getLast? = some b →
      s.total_size_from_spec_ = b.end_ + 1) :
    Storage.FindStorageFile_run s.sfs_ offset s.sfs_.length 0 ((s.sfs_.length : Int) - 1)
      = some (s.FindStorageFile offset) ∧
    (s.sfs_ ≠ [] → 0 ≤ offset → offset < s.total_size_from_spec_ →
      ∃ (i : Nat) (sf : StorageFile), s.FindStorageFile offset = some i ∧
        s.sfs_[i]? = some sf ∧ sf.start_ ≤ offset ∧ offset ≤ sf.end_) ∧
    (offset < 0 ∨ s.total_size_from_spec_ ≤ offset ∨ s.sfs_ = [] →
      s.FindStorageFile offset = none) := by
  refine ⟨?_, ?_, ?_⟩
  · exact Storage.FindStorageFile_run_eq s.sfs_ offset _ _ _ (le_refl _) (by omega) (by omega)
  · intro hne h0 hlt
    have hpos : 0 < s.sfs_.length := List.length_pos.mpr hne
    have ha : s.sfs_[0]? = some s.sfs_[0] := List.getElem?_eq_getElem hpos
    have hlast : s.sfs_.length - 1 < s.sfs_.length := by omega
    have hb : s.sfs_[s.sfs_.length - 1]? = some s.sfs_[s.sfs_.length - 1] :=
      List.getElem?_eq_getElem hlast
    have htot := htotal _ (by rw [List.getLast?_eq_getElem?]; exact hb)
    obtain ⟨i, sf, hi, hlo, hhi⟩ := hl.exists_containing offset _ hb (by omega) s.sfs_.length 0
      _ (by omega) ha (by rw [hfirst _ ha]; exact h0)
    exact ⟨i, sf, Storage.FindStorageFile_complete s hl offset i sf hi hlo hhi, hi, hlo, hhi⟩
  · intro hcase
    cases hf : s.FindStorageFile offset with
    | none => rfl
    | some k =>
      exfalso
      obtain ⟨sf, hk, hlo, hhi⟩ := Storage.FindStorageFile_sound s offset k hf
      have hklt := (List.getElem?_eq_some_iff.mp hk).1
      have ha : s.sfs_[0]? = some s.sfs_[0] := List.getElem?_eq_getElem (by omega)
      have hlast : s.sfs_.length - 1 < s.sfs_.length := by omega
      have hb : s.sfs_.getLast? = some s.sfs_[s.sfs_.length - 1] := by
        rw [List.getLast?_eq_getElem?]; exact List.getElem?_eq_getElem hlast
      have hcov := (hl.covers _ _ ha hb).2 offset k sf hk hlo hhi
      have h0 := hfirst _ ha
      have htot := htotal _ hb
      rcases hcase with hc | hc | hc
      · omega
      · omega
      · rw [hc] at hklt; simp at hklt

/-- C19 at the three files of `scenario_complete`: offset 47 is found in entry 1, the search
for offset 51 ends with NULL. -/
theorem Storage.FindStorageFile_binary_search_witness :
    Storage.FindStorageFile_run scenario_complete.sfs_ 47 3 0 2 = some (some 1) ∧
    scenario_complete.FindStorageFile 47 = some 1 ∧
    scenario_complete.FindStorageFile 51 = none := by
  have hc := scenario_complete_layout
  have htotal : ∀ b : StorageFile, scenario_complete.sfs_.getLast? = some b →
      scenario_complete.total_size_from_spec_ = b.end_ + 1 := by
    intro b hb
    obtain ⟨b', hb', ht⟩ := hc.total
    rw [hb] at hb'
    cases hb'
    exact ht
  have k47 := Storage.FindStorageFile_binary_search scenario_complete 47 hc.layout hc.first
    htotal
  have k51 := Storage.FindStorageFile_binary_search scenario_complete 51 hc.layout hc.first
    htotal
  refine ⟨?_, by decide, k51.2.2 (Or.inr (Or.inl (by decide)))⟩
  have e : scenario_complete.FindStorageFile 47 = some 1 := by decide
  rw [← e]
  exact k47.1

/-! ### Recursion of the multi-file Read -/

/-- A Read that starts in a file whose content on disk ends at or before the offset never
returns: `pread` gives 0 bytes, the offset is not the size of the hash tree, and `Read` calls
itself with the same arguments. -/
theorem Storage.ReadFuel_short_file (s : Storage) (nbyte : Nat) (offset : Int) (j : Nat)
    (sf : StorageFile) (hst : s.state_ = STOR_STATE_MFSPEC_COMPLETE)
    (hlast : s.last_sf_ = some j) (hsf : s.sfs_[j]? = some sf)
    (hlo : sf.start_ ≤ offset) (hhi : offset ≤ sf.end_) (hfd : 0 ≤ sf.fd_)
    (hshort : (sf.data.length : Int) ≤ offset - sf.start_) (hn : 0 < nbyte)
    (hht : offset ≠ s.ht_size) :
    ∀ fuel : Nat, Storage.ReadFuel fuel s nbyte offset = none := by
  have hsel : s.select_sf offset = some (j, s) := by
    unfold Storage.select_sf
    simp [hlast, hsf, StorageFile.GetStart, StorageFile.GetEnd, hlo, hhi]
  have hread : sf.Read nbyte (offset - sf.GetStart) = (0, []) := by
    unfold StorageFile.Read pread StorageFile.GetStart
    rw [if_neg (by omega), if_neg (by omega)]
    have : sf.data.drop (offset - sf.start_).toNat = [] := by
      apply List.drop_eq_nil_of_le
      omega
    simp [this]
  intro fuel
  induction fuel with
  | zero => rfl
  | succ fuel ih =>
    rw [Storage.ReadFuel]
    simp only [hst, hsel, hsf, hread]
    simp [hn, hht, ih]

/-- C20 at the failing input: in `scenario_short_file` (MFSPEC_COMPLETE, `a.txt` declared with
3 bytes and empty on disk, hash tree size 51) `Read(buf, 3, 46)` does not return with any bound
on the depth of its recursion: every level reads 0 bytes and calls `Read(buf, 3, 46)` again.
The Write of 3 bytes at the same offset returns 3. -/
theorem Storage.Read_short_file_never_returns :
    scenario_short_file.state_ = STOR_STATE_MFSPEC_COMPLETE ∧
    scenario_short_file.sfs_.map (fun sf => (sf.start_, sf.end_, sf.data.length))
      = [(0, 45, 46), (46, 48, 0), (49, 50, 2)] ∧
    (∀ fuel : Nat, Storage.ReadFuel fuel scenario_short_file 3 46 = none) ∧
    (scenario_short_file.Write scenario_host "XYZ".toList 46).map Prod.fst = some 3 := by
  refine ⟨rfl, by decide, ?_, by decide⟩
  intro fuel
  cases fuel with
  | zero => rfl
  | succ n =>
    have hsel : scenario_short_file.select_sf 46
        = some (1, { scenario_short_file with last_sf_ := some 1 }) := by decide
    have hstuck := Storage.ReadFuel_short_file { scenario_short_file with last_sf_ := some 1 }
      3 46 1
      { spec_pathname_ := "a.txt".toList, start_ := 46, end_ := 48,
        os_pathname_ := "dest/a.txt".toList, fd_ := 4, broken_ := false, data := [],
        file_id := "dest/a.txt".toList }
      rfl rfl (by decide) (by decide) (by decide) (by decide) (by decide) (by decide)
      (by decide) n
    rw [Storage.ReadFuel]
    rw [if_neg (by decide), if_neg (by decide), if_neg (by decide)]
    simp only [hsel]
    have hget : ({ scenario_short_file with last_sf_ := some 1 } : Storage).sfs_[1]?
        = some { spec_pathname_ := "a.txt".toList, start_ := 46, end_ := 48,
                 os_pathname_ := "dest/a.txt".toList, fd_ := 4, broken_ := false,
                 data := [], file_id := "dest/a.txt".toList } := by decide
    simp only [hget]
    have hread : StorageFile.Read
        { spec_pathname_ := "a.txt".toList, start_ := 46, end_ := 48,
          os_pathname_ := "dest/a.txt".toList, fd_ := 4, broken_ := false, data := [],
          file_id := "dest/a.txt".toList } 3
        (46 - StorageFile.GetStart
          { spec_pathname_ := "a.txt".toList, start_ := 46, end_ := 48,
            os_pathname_ := "dest/a.txt".toList, fd_ := 4, broken_ := false, data := [],
            file_id := "dest/a.txt".toList })
        = (0, []) := by decide
    simp only [hread]
    rw [if_neg (by decide), if_pos (by decide)]
    have harg : Storage.ReadFuel n { scenario_short_file with last_sf_ := some 1 }
        (3 - (0 : Int).toNat) (46 + 0) = none := hstuck
    rw [harg]

/-! ### Completion of the spec -/

theorem in_order_covered :
    ∀ (ws : List (List Char × Int)) (o : Int) (buf : List Char) (offset : Int),
      in_order o (ws ++ [(buf, offset)]) →
      ∀ p : Int, o ≤ p → p < offset + (buf.length : Int) →
        covered (ws ++ [(buf, offset)]) p := by
  intro ws
  induction ws with
  | nil =>
    intro o buf offset hin p h1 h2
    simp only [List.nil_append, in_order] at hin
    exact ⟨(buf, offset), by simp, by simp only; omega, h2⟩
  | cons w rest ih =>
    intro o buf offset hin p h1 h2
    simp only [List.cons_append, in_order] at hin
    by_cases hp : p < o + (w.1.length : Int)
    · exact ⟨w, by simp, by omega, by omega⟩
    · obtain ⟨x, hx, hx1, hx2⟩ := ih _ buf offset hin.2 p (by omega) h2
      exact ⟨x, List.mem_cons_of_mem _ hx, hx1, hx2⟩

theorem Storage.WriteBuffer_head (sf : StorageFile) (buf : List Char) (offset : Int)
    (hne : (Storage.WriteBuffer sf buf offset).1.1 ≠ -1) :
    0 ≤ (Storage.WriteBuffer sf buf offset).1.1 ∧
    (Storage.WriteBuffer sf buf offset).1.1 ≤ buf.length ∧
    (offset + (Storage.WriteBuffer sf buf offset).1.1 = sf.end_ + 1 →
      offset ≤ sf.end_ + 1 ∧ sf.end_ + 1 ≤ offset + (buf.length : Int)) := by
  unfold Storage.WriteBuffer StorageFile.Write at hne ⊢
  simp only [StorageFile.GetEnd] at hne ⊢
  split
  · rename_i hfit
    rw [if_pos hfit] at hne
    split
    · rename_i hneg
      rw [if_pos hneg] at hne
      exact absurd rfl hne
    · simp only
      exact ⟨by omega, le_refl _, fun e => ⟨by omega, by omega⟩⟩
  · rename_i hbig
    rw [if_neg hbig] at hne
    split
    · rename_i hneg
      rw [if_pos hneg] at hne
      exact absurd rfl hne
    · rename_i hok
      simp only
      have h0 : 0 ≤ sf.end_ + 1 - offset := by
        by_contra hc
        apply hok
        unfold pwrite
        split
        · simp
        · split
          · simp
          · rw [if_pos (Or.inl (by omega))]
            simp
      exact ⟨h0, by omega, fun _ => ⟨by omega, by omega⟩⟩

/-- When `WriteSpecPart` takes the state to MFSPEC_COMPLETE, the chunk ends at or behind the
end of the spec file and starts at or before the position after it. -/
theorem Storage.WriteSpecPart_completes (h : Host)
    (write : Storage → List Char → Int → Option (Int × Storage))
    (s : Storage) (i : Nat) (buf : List Char) (offset : Int) (r : Int × Storage)
    (hs : s.state_ ≠ STOR_STATE_MFSPEC_COMPLETE)
    (hr : Storage.WriteSpecPart h write s i buf offset = some r)
    (hc : r.2.state_ = STOR_STATE_MFSPEC_COMPLETE) :
    ∃ sf : StorageFile, s.sfs_[i]? = some sf ∧
      offset ≤ sf.end_ + 1 ∧ sf.end_ + 1 ≤ offset + (buf.length : Int) := by
  unfold Storage.WriteSpecPart at hr
  split at hr
  · simp only [Option.some.injEq] at hr; subst hr; exact absurd hc hs
  · rename_i sf hsf
    simp only at hr
    split at hr
    · simp only [Option.some.injEq] at hr; subst hr; exact absurd hc hs
    · rename_i hne
      split at hr
      · rename_i hend
        simp only [StorageFile.GetEnd] at hend
        exact ⟨sf, hsf, (Storage.WriteBuffer_head sf buf offset hne).2.2 hend⟩
      · simp only [Option.some.injEq] at hr; subst hr
        exact absurd hc (by simp)

theorem Storage.OpenSingleFile_state (h : Host) (s : Storage) :
    (Storage.OpenSingleFile h s).2.state_ = s.state_ := by
  unfold Storage.OpenSingleFile
  split
  · rfl
  · simp only
    split
    · split
      · simp only [Storage.ResizeReserved_state]
      · simp only [Storage.ResizeReserved_state]
    · rfl

/-- C21 fails as stated. On the client Storage `scenario_init`, the first 30 bytes of a spec of
46 bytes arrive at offset 0 (state MFSPEC_SIZE_KNOWN) and then the last 8 bytes at offset 38:
the state becomes MFSPEC_COMPLETE and the spec is parsed (not broken, total size 46), while
position 30 lies in neither chunk and the spec file holds NUL characters at `[30, 38)`. The
same happens when the second chunk is the first content chunk, at offset 46: a write of 0
bytes to the spec file completes the spec. -/
theorem Storage.complete_with_unwritten_spec :
    Storage.new scenario_host "spec".toList "dest".toList 0 [] = scenario_init ∧
    (Storage.run scenario_host 40 scenario_init
        [.Write "META-INF-multifilespec.txt 46\n".toList 0]).map (fun s => s.state_)
      = some STOR_STATE_MFSPEC_SIZE_KNOWN ∧
    (Storage.run scenario_host 40 scenario_init
        [.Write "META-INF-multifilespec.txt 46\n".toList 0, .Write "b.txt 2\n".toList 38]).map
        (fun s => (s.state_, s.broken_, s.spec_size_, s.total_size_from_spec_))
      = some (STOR_STATE_MFSPEC_COMPLETE, false, 46, 46) ∧
    (Storage.run scenario_host 40 scenario_init
        [.Write "META-INF-multifilespec.txt 46\n".toList 0, .Write "b.txt 2\n".toList 38]).map
        (fun s => s.sfs_.map (fun sf => (sf.data.drop 30).take 8))
      = some [List.replicate 8 (Char.ofNat 0), []] ∧
    ¬ covered [("META-INF-multifilespec.txt 46\n".toList, 0), ("b.txt 2\n".toList, 38)] 30 ∧
    (Storage.run scenario_host 40 scenario_init
        [.Write "META-INF-multifilespec.txt 46\n".toList 0, .Write "XYZab".toList 46]).map
        (fun s => (s.state_, s.broken_, s.spec_size_, s.total_size_from_spec_))
      = some (STOR_STATE_MFSPEC_COMPLETE, false, 46, 46) ∧
    ¬ covered [("META-INF-multifilespec.txt 46\n".toList, 0), ("XYZab".toList, 46)] 30 := by
  refine ⟨by decide, by decide, by decide, by decide, ?_, by decide, ?_⟩
  · simp [covered]
  · simp [covered]

/-- C21 (amended): when a Write takes a Storage from INIT (no chunk seen yet) or from
MFSPEC_SIZE_KNOWN to MFSPEC_COMPLETE, the chunk reaches the end of the spec file `sfs_[0]`:
`offset ≤ end + 1 ≤ offset + nbyte`. So this Write covers every position of the spec from
`offset` on; the positions below `offset` are covered when the chunks so far arrived in order
from offset 0, each starting where the one before it ended. -/
theorem Storage.Write_completes_at_spec_end (h : Host) (s : Storage) (buf : List Char)
    (offset : Int) (r : Int × Storage)
    (hst : (s.state_ = STOR_STATE_INIT ∧ s.sfs_ = []) ∨
      s.state_ = STOR_STATE_MFSPEC_SIZE_KNOWN)
    (hr : s.Write h buf offset = some r)
    (hc : r.2.state_ = STOR_STATE_MFSPEC_COMPLETE) :
    ∃ sf : StorageFile, r.2.sfs_[0]? = some sf ∧
      offset ≤ sf.end_ + 1 ∧ sf.end_ + 1 ≤ offset + (buf.length : Int) ∧
      (∀ p : Int, offset ≤ p → p ≤ sf.end_ → covered [(buf, offset)] p) ∧
      (∀ ws : List (List Char × Int), in_order 0 (ws ++ [(buf, offset)]) →
        ∀ p : Int, 0 ≤ p → p ≤ sf.end_ → covered (ws ++ [(buf, offset)]) p) := by
  have key : ∃ sf : StorageFile, r.2.sfs_[0]? = some sf ∧
      offset ≤ sf.end_ + 1 ∧ sf.end_ + 1 ≤ offset + (buf.length : Int) := by
    unfold Storage.Write at hr
    rw [Storage.WriteFuel] at hr
    rcases hst with ⟨hinit, hsfs⟩ | hknown
    · simp only [hinit] at hr
      split at hr
      · split at hr
        · simp only [Option.some.injEq] at hr; subst hr
          rw [hinit] at hc
          exact absurd hc (by decide)
        · obtain ⟨sf0, h0, h1, h2⟩ := Storage.WriteSpecPart_completes h _ _ _ buf offset r
            (by simp) hr hc
          obtain ⟨sf', hsf', he⟩ := (Storage.WriteSpecPart_frame h _
            (Storage.WriteFuel_frame h _) _ _ buf offset r (Or.inl rfl) hr).attrs _ sf0 h0
          rw [hsfs] at hsf'
          refine ⟨sf', hsf', ?_, ?_⟩ <;> (rw [he]; simpa using by assumption)
      · split at hr
        · simp only [Option.some.injEq] at hr; subst hr
          rw [Storage.OpenSingleFile_state] at hc
          exact absurd hc (by simp)
        · have hreg := Storage.WriteFuel_state h _ _ buf offset r hr
          rw [Storage.OpenSingleFile_state] at hreg
          simp only [storage_state_t.not_regressed] at hreg
          rw [hreg] at hc
          exact absurd hc (by decide)
    · simp only [hknown] at hr
      obtain ⟨sf0, h0, h1, h2⟩ := Storage.WriteSpecPart_completes h _ s 0 buf offset r
        (by rw [hknown]; decide) hr hc
      obtain ⟨sf', hsf', he⟩ := (Storage.WriteSpecPart_frame h _
        (Storage.WriteFuel_frame h _) s 0 buf offset r (Or.inr hknown) hr).attrs 0 sf0 h0
      refine ⟨sf', hsf', ?_, ?_⟩ <;> (rw [he]; simpa using by assumption)
  obtain ⟨sf, hsf, h1, h2⟩ := key
  refine ⟨sf, hsf, h1, h2, ?_, ?_⟩
  · intro p hp1 hp2
    exact ⟨(buf, offset), by simp, hp1, by simp only; omega⟩
  · intro ws hin p hp1 hp2
    exact in_order_covered ws 0 buf offset hin p hp1 (by omega)

/-- C21 (amended) at `scenario_size_known`, which holds the first 35 bytes of a spec of 46
bytes: the chunk of 11 bytes at offset 35 completes the spec, and with the first chunk it
covers position 40. -/
theorem Storage.Write_completes_at_spec_end_witness :
    ∃ (r : Int × Storage) (sf : StorageFile),
      scenario_size_known.Write scenario_host " 3\nb.txt 2\n".toList 35 = some r ∧
      r.2.state_ = STOR_STATE_MFSPEC_COMPLETE ∧ r.2.sfs_[0]? = some sf ∧
      (35 : Int) ≤ sf.end_ + 1 ∧
      sf.end_ + 1 ≤ 35 + ((" 3\nb.txt 2\n".toList).length : Int) ∧
      covered ([("META-INF-multifilespec.txt 46\na.txt".toList, 0)]
        ++ [(" 3\nb.txt 2\n".toList, 35)]) 40 := by
  obtain ⟨r, hr⟩ := Storage.Write_returns scenario_host scenario_size_known
    " 3\nb.txt 2\n".toList 35 (by decide)
  have hev : (scenario_size_known.Write scenario_host " 3\nb.txt 2\n".toList 35).map
      (fun r => (r.2.state_, r.2.sfs_.map (fun sf => sf.end_)))
        = some (STOR_STATE_MFSPEC_COMPLETE, [45, 48, 50]) := by decide
  rw [hr] at hev
  simp only [Option.map_some', Option.some.injEq, Prod.mk.injEq] at hev
  obtain ⟨sf, hsf, h1, h2, _, h4⟩ := Storage.Write_completes_at_spec_end scenario_host
    scenario_size_known " 3\nb.txt 2\n".toList 35 r (Or.inr rfl) hr hev.1
  have hend : sf.end_ = 45 := by
    have := hev.2
    cases hsfs : r.2.sfs_ with
    | nil => rw [hsfs] at this; simp at this
    | cons a rest =>
      rw [hsfs] at this hsf
      simp only [List.getElem?_cons_zero, Option.some.injEq] at hsf
      subst hsf
      simp only [List.map_cons, List.cons.injEq] at this
      exact this.1
  exact ⟨r, sf, hr, hev.1, hsf, h1, h2,
    h4 [("META-INF-multifilespec.txt 46\na.txt".toList, 0)] (by simp [in_order]) 40
      (by decide) (by omega)⟩

/-! ### The last_sf cache -/

/-- With `sfs_` sorted and contiguous the file picked by `Write` and `Read` is the one that
`FindStorageFile` returns, and afterwards `last_sf_` points to it, whatever `last_sf_` was. -/
theorem Storage.select_sf_eq_find (s : Storage) (hl : SortedContiguous s.sfs_) (offset : Int) :
    s.select_sf offset
      = (s.FindStorageFile offset).map (fun j => (j, { s with last_sf_ := some j })) := by
  unfold Storage.select_sf
  split
  · rename_i k sf hk
    split
    · rename_i hc
      cases hlast : s.last_sf_ with
      | none => simp [hlast] at hk
      | some k' =>
        rw [hlast] at hk
        cases hsf' : s.sfs_[k']? with
        | none => simp [hsf'] at hk
        | some sf' =>
          simp only [hsf', Option.some_bind, Option.map_some', Option.some.injEq,
            Prod.mk.injEq] at hk
          obtain ⟨rfl, rfl⟩ := hk
          have hf := Storage.FindStorageFile_complete s hl offset k' sf' hsf'
            (by simpa [StorageFile.GetStart] using hc.1)
            (by simpa [StorageFile.GetEnd] using hc.2)
          rw [hf, Option.map_some', ← hlast]
    · rfl
  · rfl

theorem Storage.FindStorageFile_last_sf (s : Storage) (l : Option Nat) (offset : Int) :
    Storage.FindStorageFile { s with last_sf_ := l } offset = s.FindStorageFile offset := rfl

/-- Two Storages in MFSPEC_COMPLETE that differ in `last_sf_` only: `Write` gives the same
result and the same Storage, apart from `last_sf_`. -/
theorem Storage.Write_last_sf (h : Host) (s s' : Storage) (buf : List Char) (offset : Int)
    (hst : s.state_ = STOR_STATE_MFSPEC_COMPLETE) (hst' : s'.state_ = STOR_STATE_MFSPEC_COMPLETE)
    (hl : SortedContiguous s.sfs_) (hl' : SortedContiguous s'.sfs_)
    (hfind : s'.FindStorageFile offset = s.FindStorageFile offset)
    (heq : ∀ o : Option Nat, ({ s' with last_sf_ := o } : Storage) = { s with last_sf_ := o }) :
    (s'.Write h buf offset).map (fun r => (r.1, { r.2 with last_sf_ := none }))
      = (s.Write h buf offset).map (fun r => (r.1, { r.2 with last_sf_ := none })) := by
  have hsel := Storage.select_sf_eq_find s hl offset
  have hsel' := Storage.select_sf_eq_find s' hl' offset
  rw [hfind] at hsel'
  simp only [heq] at hsel'
  have hlen : s'.Write h buf offset
      = Storage.WriteFuel h (buf.length + 2 + 1) s' buf offset := rfl
  have hlen2 : s.Write h buf offset
      = Storage.WriteFuel h (buf.length + 2 + 1) s buf offset := rfl
  rw [hlen, hlen2, Storage.WriteFuel, Storage.WriteFuel]
  simp only [hst, hst']
  rw [hsel, hsel']
  cases s.FindStorageFile offset with
  | none =>
    simp only [Option.map_none', Option.map_some', heq none]
  | some j => rfl

/-- Two Storages in MFSPEC_COMPLETE that differ in `last_sf_` only: `Read` gives the same
result, the same bytes and the same Storage, apart from `last_sf_`. -/
theorem Storage.Read_last_sf (s s' : Storage) (nbyte : Nat) (offset : Int)
    (hst : s.state_ = STOR_STATE_MFSPEC_COMPLETE) (hst' : s'.state_ = STOR_STATE_MFSPEC_COMPLETE)
    (hl : SortedContiguous s.sfs_) (hl' : SortedContiguous s'.sfs_)
    (hfind : s'.FindStorageFile offset = s.FindStorageFile offset)
    (heq : ∀ o : Option Nat, ({ s' with last_sf_ := o } : Storage) = { s with last_sf_ := o }) :
    (s'.Read nbyte offset).map (fun r => (r.1, r.2.1, { r.2.2 with last_sf_ := none }))
      = (s.Read nbyte offset).map (fun r => (r.1, r.2.1, { r.2.2 with last_sf_ := none })) := by
  have hsel := Storage.select_sf_eq_find s hl offset
  have hsel' := Storage.select_sf_eq_find s' hl' offset
  rw [hfind] at hsel'
  simp only [heq] at hsel'
  unfold Storage.Read
  rw [Storage.ReadFuel, Storage.ReadFuel]
  simp only [hst, hst']
  rw [if_neg (by decide), if_neg (by decide), if_neg (by decide), if_neg (by decide),
    if_neg (by decide), if_neg (by decide), hsel, hsel']
  cases s.FindStorageFile offset with
  | none =>
    simp only [Option.map_none', Option.map_some', heq none]
  | some j => rfl

/-- C22: the `last_sf_` cache does not matter. In state MFSPEC_COMPLETE with `sfs_` sorted and
contiguous, for every offset the file selected by `Write` and `Read` is the result of
`FindStorageFile(offset)`; and for every other value `l` of `last_sf_` (NULL or an index),
`Write` and `Read` give the same return value, the same bytes read, and the same Storage and
files afterwards, apart from the content of `last_sf_` itself. -/
theorem Storage.last_sf_independent (h : Host) (s : Storage) (l : Option Nat)
    (buf : List Char) (nbyte : Nat) (offset : Int)
    (hst : s.state_ = STOR_STATE_MFSPEC_COMPLETE) (hl : SortedContiguous s.sfs_) :
    (s.select_sf offset).map Prod.fst = s.FindStorageFile offset ∧
    (Storage.Write h { s with last_sf_ := l } buf offset).map
        (fun r => (r.1, { r.2 with last_sf_ := none }))
      = (s.Write h buf offset).map (fun r => (r.1, { r.2 with last_sf_ := none })) ∧
    (Storage.Read { s with last_sf_ := l } nbyte offset).map
        (fun r => (r.1, r.2.1, { r.2.2 with last_sf_ := none }))
      = (s.Read nbyte offset).map (fun r => (r.1, r.2.1, { r.2.2 with last_sf_ := none })) := by
  refine ⟨?_, ?_, ?_⟩
  · rw [Storage.select_sf_eq_find s hl offset]
    cases s.FindStorageFile offset <;> rfl
  · exact Storage.Write_last_sf h s _ buf offset hst hst hl hl rfl (fun _ => rfl)
  · exact Storage.Read_last_sf s _ nbyte offset hst hst hl hl rfl (fun _ => rfl)

/-- C22 at `scenario_complete`, with `last_sf_` NULL and pointing at `b.txt`: the Write of
`XYZab` at offset 46 returns 5 either way. -/
theorem Storage.last_sf_independent_witness :
    (Storage.Write scenario_host { scenario_complete with last_sf_ := some 2 }
        "XYZab".toList 46).map (fun r => (r.1, { r.2 with last_sf_ := none }))
      = (scenario_complete.Write scenario_host "XYZab".toList 46).map
        (fun r => (r.1, { r.2 with last_sf_ := none })) ∧
    (scenario_complete.Write scenario_host "XYZab".toList 46).map Prod.fst = some 5 :=
  ⟨(Storage.last_sf_independent scenario_host scenario_complete (some 2) "XYZab".toList 5 46
    rfl scenario_complete_layout.layout).2.1, by decide⟩
